import Mathlib

/-!
Verification of json-query (src/json_query/cli.py)

A shallow embedding of the core of the `json-query` CLI: the streaming
JSON-array decoder `iter_json_array_stream`, the input sniffer
`sniff_json_kind`, the NDJSON record reader, the path walker `walk_paths`,
the column-name derivation `colname`, and the schema sampler
`generate_flat_select_sql`, together with theorems settling the frozen
claims about them.

Python strings are modelled as `List Char` (the files are read in text
mode, so the unit of work in the source is a unicode character).  The
Python `json` module's scanner (`json.JSONDecoder.raw_decode`, as used by
the source) is embedded as a fuel-indexed recursive parser; numbers are
carried as their matched lexical token (the source never computes with the
numeric value, it only re-serialises records), and the exotic corners of
CPython's scanner that no input in this development can reach (unicode
identifiers and unicode whitespace classes, lone-surrogate `\uXXXX`
escapes, underscore/sign forms accepted by `int(_,16)`) are noted at their
definition sites.
-/

set_option maxRecDepth 10000

/-- A decoded JSON value, mirroring what Python's `json.loads` produces:
`None`, `bool`, a number (kept as the lexical token matched by the
scanner's `NUMBER_RE`, or one of `NaN` / `Infinity` / `-Infinity`),
`str`, `list`, and `dict` (insertion ordered, unique keys). -/
inductive JValue where
  | jnull : JValue
  | jbool : Bool → JValue
  | jnum : String → JValue
  | jstr : String → JValue
  | jarr : List JValue → JValue
  | jobj : List (String × JValue) → JValue
deriving Repr

mutual

/-- Structural boolean equality on `JValue` (the deriving handler does not
cover the nested `List` positions, so it is spelt out, together with its
characterisation `beqJ_iff_eq` below, to obtain `DecidableEq JValue`). -/
def beqJ : JValue → JValue → Bool
  | .jnull, .jnull => true
  | .jbool a, .jbool b => a == b
  | .jnum a, .jnum b => a == b
  | .jstr a, .jstr b => a == b
  | .jarr a, .jarr b => beqJList a b
  | .jobj a, .jobj b => beqJFields a b
  | _, _ => false

/-- Positionwise `beqJ` on lists of values. -/
def beqJList : List JValue → List JValue → Bool
  | [], [] => true
  | x :: xs, y :: ys => beqJ x y && beqJList xs ys
  | _, _ => false

/-- Positionwise `beqJ` on object entry lists. -/
def beqJFields : List (String × JValue) → List (String × JValue) → Bool
  | [], [] => true
  | (k, v) :: xs, (l, w) :: ys => k == l && beqJ v w && beqJFields xs ys
  | _, _ => false

end

mutual

theorem beqJ_iff_eq : ∀ a b : JValue, beqJ a b = true ↔ a = b
  | .jnull, .jnull => by simp [beqJ]
  | .jbool _, .jbool _ => by simp [beqJ]
  | .jnum _, .jnum _ => by simp [beqJ]
  | .jstr _, .jstr _ => by simp [beqJ]
  | .jarr x, .jarr y => by simp [beqJ, beqJList_iff_eq x y]
  | .jobj x, .jobj y => by simp [beqJ, beqJFields_iff_eq x y]
  | .jnull, .jbool _ | .jnull, .jnum _ | .jnull, .jstr _ | .jnull, .jarr _ | .jnull, .jobj _
  | .jbool _, .jnull | .jbool _, .jnum _ | .jbool _, .jstr _ | .jbool _, .jarr _
  | .jbool _, .jobj _
  | .jnum _, .jnull | .jnum _, .jbool _ | .jnum _, .jstr _ | .jnum _, .jarr _ | .jnum _, .jobj _
  | .jstr _, .jnull | .jstr _, .jbool _ | .jstr _, .jnum _ | .jstr _, .jarr _ | .jstr _, .jobj _
  | .jarr _, .jnull | .jarr _, .jbool _ | .jarr _, .jnum _ | .jarr _, .jstr _ | .jarr _, .jobj _
  | .jobj _, .jnull | .jobj _, .jbool _ | .jobj _, .jnum _ | .jobj _, .jstr _
  | .jobj _, .jarr _ => by simp [beqJ]

theorem beqJList_iff_eq : ∀ xs ys : List JValue, beqJList xs ys = true ↔ xs = ys
  | [], [] => by simp [beqJList]
  | x :: xs, y :: ys => by simp [beqJList, beqJ_iff_eq x y, beqJList_iff_eq xs ys]
  | [], _ :: _ => by simp [beqJList]
  | _ :: _, [] => by simp [beqJList]

theorem beqJFields_iff_eq :
    ∀ xs ys : List (String × JValue), beqJFields xs ys = true ↔ xs = ys
  | [], [] => by simp [beqJFields]
  | (k, v) :: xs, (l, w) :: ys => by
    simp [beqJFields, beqJ_iff_eq v w, beqJFields_iff_eq xs ys, and_assoc]
  | [], _ :: _ => by simp [beqJFields]
  | _ :: _, [] => by simp [beqJFields]

end

instance : DecidableEq JValue := fun a b => decidable_of_iff _ (beqJ_iff_eq a b)

/-- Errors raised by the embedded `json` scanner: `e msg` is a
`json.JSONDecodeError` with the given message; `fuelOut` is the artificial
out-of-fuel result of the fuel-indexed embedding (unreachable at the fuel
the wrappers supply, see `rawDecode`). -/
inductive JErr where
  | e : String → JErr
  | fuelOut : JErr
deriving Repr, DecidableEq

/-- The `json` module's `WHITESPACE_STR = ' \t\n\r'`. -/
def jsonWsChar (c : Char) : Bool :=
  c = ' ' || c = '\t' || c = '\n' || c = '\r'

/-- The separator characters skipped between array elements by
`iter_json_array_stream`: `c in " \t\r\n,"`. -/
def sepChar (c : Char) : Bool :=
  c = ' ' || c = '\t' || c = '\r' || c = '\n' || c = ','

/-- The ASCII part of the character set stripped by Python's
`str.strip()` / `str.lstrip()` with no argument.  (Python also strips
further unicode whitespace; no input considered here contains any.) -/
def pyStripChar (c : Char) : Bool :=
  jsonWsChar c || c = '\x0b' || c = '\x0c'

/-- Python `str.strip()` (ASCII whitespace, see `pyStripChar`). -/
def pyStrip (s : List Char) : List Char :=
  ((s.dropWhile pyStripChar).reverse.dropWhile pyStripChar).reverse

/-- `s.take n = p` iff the string starts with `p` (Python `str.startswith`
/ the scanner's `string[idx:idx+n] == lit` slice comparisons). -/
def startsWithL (s p : List Char) : Bool :=
  s.take p.length = p

/-- The integer part of the scanner's `NUMBER_RE`, `(?:0|[1-9]\d*)`:
a lone `0`, or a nonzero digit followed by greedily-matched digits. -/
def lexIntPart : List Char → Option (List Char × List Char)
  | [] => none
  | c :: rest =>
    if c = '0' then some ([c], rest)
    else if c.isDigit then
      some (c :: rest.takeWhile Char.isDigit, rest.dropWhile Char.isDigit)
    else none

/-- The optional fraction group `(\.\d+)?` of `NUMBER_RE`: matched only
when the dot is followed by at least one digit, otherwise it matches
empty and consumes nothing. -/
def lexFrac (s : List Char) : List Char × List Char :=
  match s with
  | '.' :: rest =>
    let ds := rest.takeWhile Char.isDigit
    if ds = [] then ([], s) else ('.' :: ds, rest.dropWhile Char.isDigit)
  | _ => ([], s)

/-- The optional exponent group `([eE][-+]?\d+)?` of `NUMBER_RE`. -/
def lexExp (s : List Char) : List Char × List Char :=
  match s with
  | c :: rest =>
    if c = 'e' || c = 'E' then
      match rest with
      | d :: rest2 =>
        if d = '+' || d = '-' then
          let ds := rest2.takeWhile Char.isDigit
          if ds = [] then ([], s) else (c :: d :: ds, rest2.dropWhile Char.isDigit)
        else
          let ds := rest.takeWhile Char.isDigit
          if ds = [] then ([], s) else (c :: ds, rest.dropWhile Char.isDigit)
      | [] => ([], s)
    else ([], s)
  | [] => ([], s)

/-- The scanner's `NUMBER_RE.match`: `(-?(?:0|[1-9]\d*))(\.\d+)?([eE][-+]?\d+)?`
anchored at the start, returning the matched token and the remainder
(`lexSign` handles the leading `-?`).  Greedy and without backtracking
across the optional groups, exactly as the regular expression behaves. -/
def lexSign : List Char → List Char × List Char
  | '-' :: rest => (['-'], rest)
  | s => ([], s)

/-- See `lexNumber`. -/
def lexNumber (s : List Char) : Option (List Char × List Char) :=
  match lexIntPart (lexSign s).2 with
  | none => none
  | some (ip, s2) =>
    let fr := lexFrac s2
    let ex := lexExp fr.2
    some ((lexSign s).1 ++ ip ++ fr.1 ++ ex.1, ex.2)

/-- Hexadecimal digit value, as accepted by `int(_, 16)` for the four
characters of a `\uXXXX` escape.  (CPython's `int` additionally tolerates
underscores and signs inside the slice; those forms are not modelled.) -/
def hexVal (c : Char) : Option Nat :=
  if '0' ≤ c ∧ c ≤ '9' then some (c.toNat - '0'.toNat)
  else if 'a' ≤ c ∧ c ≤ 'f' then some (c.toNat - 'a'.toNat + 10)
  else if 'A' ≤ c ∧ c ≤ 'F' then some (c.toNat - 'A'.toNat + 10)
  else none

/-- `chr` for the code points produced by `\uXXXX` decoding.  A lone
surrogate (which Python would keep in its `str`) has no `Char`
counterpart and degrades to `'\0'`; no input in this development
contains one. -/
def jsonChr (n : Nat) : Char := Char.ofNat n

/-- Python's escape table `BACKSLASH` in `json/decoder.py`. -/
def backslashTable (c : Char) : Option Char :=
  if c = '"' then some '"'
  else if c = '\\' then some '\\'
  else if c = '/' then some '/'
  else if c = 'b' then some '\x08'
  else if c = 'f' then some '\x0c'
  else if c = 'n' then some '\n'
  else if c = 'r' then some '\r'
  else if c = 't' then some '\t'
  else none

/-- Outcome of probing for the second half of a `\uXXXX\uXXXX` surrogate
pair (the source's `s[end:end + 2] == '\\u'` check followed by
`_decode_uXXXX`, which raises on a malformed escape). -/
inductive USecond where
  | pair : Nat → List Char → USecond
  | badHex : USecond
  | noEscape : USecond
deriving Repr, DecidableEq

/-- Probe the input for a `\uXXXX` escape: `pair u rest` when present and
well formed, `badHex` when `\u` is present but not followed by four hex
digits (`Invalid \uXXXX escape`), `noEscape` when no `\u` follows. -/
def uSecond : List Char → USecond
  | '\\' :: 'u' :: a :: b :: c :: d :: rest =>
    match hexVal a, hexVal b, hexVal c, hexVal d with
    | some ha, some hb, some hc, some hd =>
      .pair (((ha * 16 + hb) * 16 + hc) * 16 + hd) rest
    | _, _, _, _ => .badHex
  | '\\' :: 'u' :: _ => .badHex
  | _ => .noEscape

theorem uSecond_pair_length (l : List Char) (u : Nat) (r : List Char)
    (h : uSecond l = .pair u r) : l.length = r.length + 6 := by
  unfold uSecond at h
  split at h
  · split at h <;> simp_all
  · simp_all
  · simp_all

/-- `py_scanstring` from `json/decoder.py`, starting just after the
opening quote: scan to the first `"`, `\` or control character; a control
character is an error (`strict=True`), a backslash is decoded through
`backslashTable` or as `\uXXXX` (combining a valid surrogate pair, as the
source does).  Returns the decoded characters and the remainder after
the closing quote.  Fuel-indexed (each step consumes at least one
character, so fuel `length + 1` always suffices, see
`scanStringF_noFuel`). -/
def scanStringF : Nat → List Char → Except JErr (List Char × List Char)
  | 0, _ => .error .fuelOut
  | _ + 1, [] => .error (.e "Unterminated string starting at")
  | f + 1, c :: rest =>
    if c = '"' then .ok ([], rest)
    else if c = '\\' then
      match rest with
      | [] => .error (.e "Unterminated string starting at")
      | e :: rest2 =>
        if e = 'u' then
          match rest2 with
          | a :: b :: c2 :: d :: rest3 =>
            match hexVal a, hexVal b, hexVal c2, hexVal d with
            | some ha, some hb, some hc, some hd =>
              let u := ((ha * 16 + hb) * 16 + hc) * 16 + hd
              if 0xd800 ≤ u ∧ u ≤ 0xdbff then
                match uSecond rest3 with
                | .pair u2 rest5 =>
                  if 0xdc00 ≤ u2 ∧ u2 ≤ 0xdfff then
                    match scanStringF f rest5 with
                    | .error err => .error err
                    | .ok (cs, r) =>
                      .ok (jsonChr (0x10000 + (u - 0xd800) * 1024 + (u2 - 0xdc00)) :: cs, r)
                  else
                    match scanStringF f rest3 with
                    | .error err => .error err
                    | .ok (cs, r) => .ok (jsonChr u :: cs, r)
                | .badHex => .error (.e "Invalid \\uXXXX escape")
                | .noEscape =>
                  match scanStringF f rest3 with
                  | .error err => .error err
                  | .ok (cs, r) => .ok (jsonChr u :: cs, r)
              else
                match scanStringF f rest3 with
                | .error err => .error err
                | .ok (cs, r) => .ok (jsonChr u :: cs, r)
            | _, _, _, _ => .error (.e "Invalid \\uXXXX escape")
          | _ => .error (.e "Invalid \\uXXXX escape")
        else
          match backslashTable e with
          | none => .error (.e "Invalid \\escape")
          | some ch =>
            match scanStringF f rest2 with
            | .error err => .error err
            | .ok (cs, r) => .ok (ch :: cs, r)
    else if c.toNat < 0x20 then .error (.e "Invalid control character")
    else
      match scanStringF f rest with
      | .error err => .error err
      | .ok (cs, r) => .ok (c :: cs, r)

/-- Skip `WHITESPACE.match(s, idx).end()` — the `json` module's
whitespace run `[ \t\n\r]*`. -/
def skipWs (s : List Char) : List Char := s.dropWhile jsonWsChar

/-- Python `dict` insertion: an existing key keeps its position and gets
the new value, a new key is appended.  `dict(pairs)` in the object hook
is a left fold of this. -/
def odUpdate (l : List (String × JValue)) (k : String) (v : JValue) :
    List (String × JValue) :=
  if l.any (fun kv => kv.1 = k) then
    l.map (fun kv => if kv.1 = k then (k, v) else kv)
  else l ++ [(k, v)]

/-- `dict(pairs)` — the object hook applied to the scanned key/value
pairs. -/
def objFromPairs (pairs : List (String × JValue)) : List (String × JValue) :=
  pairs.foldl (fun acc kv => odUpdate acc kv.1 kv.2) []

mutual

/-- `_scan_once` of `json/scanner.py` (the C scanner has the same
semantics), embedded with a fuel parameter that every mutual call
decrements; `JErr.fuelOut` is unreachable at the fuel `rawDecode`
supplies.  Dispatch order is the source's: `"`-string, `{`-object,
`[`-array, `null`, `true`, `false`, `NUMBER_RE`, `NaN`, `Infinity`,
`-Infinity`, else `Expecting value`. -/
def scanOnceF : Nat → List Char → Except JErr (JValue × List Char)
  | 0, _ => .error .fuelOut
  | _ + 1, [] => .error (.e "Expecting value")
  | f + 1, c :: rest =>
    if c = '"' then
      match scanStringF f rest with
      | .error err => .error err
      | .ok (cs, r) => .ok (.jstr (String.mk cs), r)
    else if c = '{' then parseObjBody f rest
    else if c = '[' then parseArrBody f rest
    else if startsWithL (c :: rest) ('n' :: 'u' :: 'l' :: 'l' :: []) then
      .ok (.jnull, (c :: rest).drop 4)
    else if startsWithL (c :: rest) ('t' :: 'r' :: 'u' :: 'e' :: []) then
      .ok (.jbool true, (c :: rest).drop 4)
    else if startsWithL (c :: rest) ('f' :: 'a' :: 'l' :: 's' :: 'e' :: []) then
      .ok (.jbool false, (c :: rest).drop 5)
    else
      match lexNumber (c :: rest) with
      | some (tok, r) => .ok (.jnum (String.mk tok), r)
      | none =>
        if startsWithL (c :: rest) ('N' :: 'a' :: 'N' :: []) then
          .ok (.jnum "NaN", (c :: rest).drop 3)
        else if startsWithL (c :: rest)
            ('I' :: 'n' :: 'f' :: 'i' :: 'n' :: 'i' :: 't' :: 'y' :: []) then
          .ok (.jnum "Infinity", (c :: rest).drop 8)
        else if startsWithL (c :: rest)
            ('-' :: 'I' :: 'n' :: 'f' :: 'i' :: 'n' :: 'i' :: 't' :: 'y' :: []) then
          .ok (.jnum "-Infinity", (c :: rest).drop 9)
        else .error (.e "Expecting value")

/-- `JSONObject` of `json/decoder.py`, entered just after the `{`:
skip whitespace; `}` closes an empty object, otherwise a `"` must open
the first property name. -/
def parseObjBody : Nat → List Char → Except JErr (JValue × List Char)
  | 0, _ => .error .fuelOut
  | f + 1, s =>
    match skipWs s with
    | '}' :: r => .ok (.jobj [], r)
    | '"' :: r => parseMembers f r []
    | _ => .error (.e "Expecting property name enclosed in double quotes")

/-- The member loop of `JSONObject`, entered just after a property
name's opening quote, with the pairs scanned so far: scan the key,
skip whitespace, require `:`, skip whitespace, scan the value, skip
whitespace, then `}` finishes (applying `dict(pairs)`), `,` expects the
next `"`-opened name, anything else is `Expecting ',' delimiter`. -/
def parseMembers : Nat → List Char → List (String × JValue) →
    Except JErr (JValue × List Char)
  | 0, _, _ => .error .fuelOut
  | f + 1, s, acc =>
    match scanStringF f s with
    | .error err => .error err
    | .ok (kcs, s1) =>
      match skipWs s1 with
      | ':' :: s3 =>
        match scanOnceF f (skipWs s3) with
        | .error err => .error err
        | .ok (v, s5) =>
          let acc2 := acc ++ [(String.mk kcs, v)]
          match skipWs s5 with
          | '}' :: r => .ok (.jobj (objFromPairs acc2), r)
          | ',' :: s7 =>
            match skipWs s7 with
            | '"' :: s9 => parseMembers f s9 acc2
            | _ => .error (.e "Expecting property name enclosed in double quotes")
          | _ => .error (.e "Expecting ',' delimiter")
      | _ => .error (.e "Expecting ':' delimiter")

/-- `JSONArray` of `json/decoder.py`, entered just after the `[`:
skip whitespace; `]` closes an empty array, otherwise scan elements. -/
def parseArrBody : Nat → List Char → Except JErr (JValue × List Char)
  | 0, _ => .error .fuelOut
  | f + 1, s =>
    match skipWs s with
    | ']' :: r => .ok (.jarr [], r)
    | s1 => parseElems f s1 []

/-- The element loop of `JSONArray`: scan a value, skip whitespace, then
`]` finishes, `,` skips whitespace and loops, anything else is
`Expecting ',' delimiter`. -/
def parseElems : Nat → List Char → List JValue → Except JErr (JValue × List Char)
  | 0, _, _ => .error .fuelOut
  | f + 1, s, acc =>
    match scanOnceF f s with
    | .error err => .error err
    | .ok (v, s1) =>
      match skipWs s1 with
      | ']' :: r => .ok (.jarr (acc ++ [v]), r)
      | ',' :: s3 => parseElems f (skipWs s3) (acc ++ [v])
      | _ => .error (.e "Expecting ',' delimiter")

end

/-- `json.JSONDecoder().raw_decode` at index 0: scan one value from the
front of the buffer, returning it and the unconsumed remainder.  The
fuel `3 * length + 4` is enough for every input (at most three of the
mutual calls happen per character consumed, see `scanOnceF_noFuel`), so
the embedding answers exactly where the source does. -/
def rawDecode (s : List Char) : Except JErr (JValue × List Char) :=
  scanOnceF (3 * s.length + 4) s

/-- `json.loads` on a buffer: skip leading whitespace, `raw_decode`,
skip trailing whitespace, and require the buffer to be exhausted
(`Extra data`). -/
def loadsL (s : List Char) : Except JErr JValue :=
  match rawDecode (skipWs s) with
  | .error err => .error err
  | .ok (v, rest) => if skipWs rest = [] then .ok v else .error (.e "Extra data")

/-- `json.loads` on a string. -/
def loads (s : String) : Except JErr JValue := loadsL s.toList

/-- Errors raised out of `iter_json_array_stream`: the three
`ValueError`s it raises itself (truncation at a structural point), and
the re-raised `json.JSONDecodeError` (`decodeFail`, carrying the buffer
it was raised on, i.e. the offending context).  `fuelOut` is the
artificial result of exhausting the embedding's loop fuel, unreachable
at the fuel `iter_json_array_stream` supplies. -/
inductive StreamErr where
  | truncatedSeek : StreamErr
  | truncatedInside : StreamErr
  | truncatedBeforeClose : StreamErr
  | decodeFail : List Char → JErr → StreamErr
  | fuelOut : StreamErr
deriving Repr, DecidableEq

/-- `stripped.find("[")` followed by `stripped[idx + 1:]`: the remainder
after the first `[`, or `none` when there is no `[`. -/
def afterBracket : List Char → Option (List Char)
  | [] => none
  | c :: rest => if c = '[' then some rest else afterBracket rest

/-- The `Seek first '['` loop of `iter_json_array_stream`.  The source
reads a chunk (EOF raises `ValueError("Unexpected EOF while searching
for '['")`), appends it to the buffer, strips leading whitespace, resets
an all-whitespace buffer, and otherwise scans for the first `[`,
continuing with everything after it.  A read that returns the empty
string is end of file, so the chunk list's tail beyond an empty chunk is
never reached. -/
def seekOpen : List Char → List (List Char) → Except StreamErr (List Char × List (List Char))
  | _, [] => .error .truncatedSeek
  | buf, chunk :: cs =>
    if chunk = [] then .error .truncatedSeek
    else
      let buf2 := buf ++ chunk
      let stripped := buf2.dropWhile pyStripChar
      if stripped = [] then seekOpen [] cs
      else
        match afterBracket stripped with
        | some r => .ok (r, cs)
        | none => seekOpen buf2 cs

/-- The `Skip whitespace and commas` loop: scan the buffer past every
character of `" \t\r\n,"`, reading further chunks whenever the scan
exhausts the buffer; end of file there raises `ValueError("Unexpected
EOF inside JSON array")`.  Returns the buffer positioned at the first
non-separator character (hence never empty) and the unread chunks. -/
def skipSeps : List Char → List (List Char) → Except StreamErr (List Char × List (List Char))
  | buf, cs =>
    let r := buf.dropWhile sepChar
    if r.isEmpty then
      match cs with
      | [] => .error .truncatedInside
      | chunk :: cs2 =>
        if chunk = [] then .error .truncatedInside else skipSeps chunk cs2
    else .ok (r, cs)

/-- The `Ensure we have some content` loop (`while not buf`): dead code
after `skipSeps` — its buffer is never empty — but embedded faithfully;
end of file here would raise `ValueError("Unexpected EOF before ']'")`. -/
def ensureContent : List Char → List (List Char) →
    Except StreamErr (List Char × List (List Char))
  | buf, cs =>
    if buf.isEmpty then
      match cs with
      | [] => .error .truncatedBeforeClose
      | chunk :: cs2 =>
        if chunk = [] then .error .truncatedBeforeClose else ensureContent chunk cs2
    else .ok (buf, cs)

/-- The guarded `buf.lstrip()` (`if buf and buf[0] in " \t\r\n"`) —
also dead after `skipSeps`, whose result never starts with whitespace —
embedded faithfully. -/
def condStrip (buf : List Char) : List Char :=
  match buf with
  | c :: _ => if jsonWsChar c then buf.dropWhile pyStripChar else buf
  | [] => buf

/-- The `Decode one JSON value` retry loop: `raw_decode` the buffer; on
a `JSONDecodeError`, read the next chunk and retry on the extended
buffer, re-raising the decode error at end of file (`decodeFail`, with
the offending buffer). -/
def parseRetry : List Char → List (List Char) →
    Except StreamErr (JValue × List Char × List (List Char))
  | buf, cs =>
    match rawDecode buf with
    | .ok (v, rest) => .ok (v, rest, cs)
    | .error err =>
      match cs with
      | [] => .error (.decodeFail buf err)
      | chunk :: cs2 =>
        if chunk = [] then .error (.decodeFail buf err)
        else parseRetry (buf ++ chunk) cs2

/-- The `Decode elements until ']'` loop, one iteration per yielded
element: skip separators, (dead) ensure-content and guarded strip, stop
at `]`, otherwise decode one value, yield it and continue on the
remainder.  The result pairs the yielded prefix with the error that
ended the generator, if any.  Fuel decreases once per element;
`iter_json_array_stream` supplies more fuel than the input has
characters, which is enough (each element consumes at least one). -/
def decodeLoop : Nat → List Char → List (List Char) → List JValue × Option StreamErr
  | 0, _, _ => ([], some .fuelOut)
  | f + 1, buf, cs =>
    match skipSeps buf cs with
    | .error e => ([], some e)
    | .ok (buf1, cs1) =>
      match ensureContent buf1 cs1 with
      | .error e => ([], some e)
      | .ok (buf2, cs2) =>
        let buf3 := condStrip buf2
        if buf3.take 1 = [']'] then ([], none)
        else
          match parseRetry buf3 cs2 with
          | .error e => ([], some e)
          | .ok (v, buf4, cs3) =>
            let r := decodeLoop f buf4 cs3
            (v :: r.1, r.2)

/-- Total number of characters in a chunk list. -/
def chunksLen (cs : List (List Char)) : Nat := (cs.map List.length).sum

/-- `iter_json_array_stream`, where the file object is modelled by the
list of strings its successive `read` calls return (the empty string
meaning end of file, as for a real file): seek the opening `[`, then
run the element loop.  Returns the sequence of yielded values and the
error that terminated the generator, if any. -/
def iter_json_array_stream (cs : List (List Char)) : List JValue × Option StreamErr :=
  match seekOpen [] cs with
  | .error e => ([], some e)
  | .ok (buf, cs2) => decodeLoop (buf.length + chunksLen cs2 + 1) buf cs2

/-- `sniff_json_kind`: look at the first 4096 units of the file
(`read_bytes()[:4096]`; byte/character positions agree on the ASCII
inputs considered here), strip leading whitespace, and classify by the
first character (`[` → array, `{` → object), falling back to `ndjson`
when a `{` occurs in the first 200 characters of the stripped text and
to `unknown` otherwise. -/
def sniff_json_kind (text : String) : String :=
  let t := (text.toList.take 4096).dropWhile pyStripChar
  match t with
  | [] => "unknown"
  | c :: _ =>
    if c = '[' then "array"
    else if c = '{' then "object"
    else if (t.take 200).contains '{' then "ndjson"
    else "unknown"

/-- Split at newlines, keeping interior empty lines. -/
def splitNl : List Char → List (List Char)
  | [] => [[]]
  | c :: rest =>
    if c = '\n' then [] :: splitNl rest
    else
      match splitNl rest with
      | l :: ls => (c :: l) :: ls
      | [] => [[c]]

/-- The lines produced by iterating a Python text file: pieces split at
`'\n'`, without a phantom empty line after a trailing newline (the
terminators themselves are irrelevant downstream, every consumer strips
the line first). -/
def pyLines (text : String) : List (List Char) :=
  let ps := splitNl text.toList
  if ps.getLast? = some [] then ps.dropLast else ps

/-- The NDJSON branch of `iter_records_from_file`: for each line, strip
it, skip it when blank, `json.loads` it, and skip it silently on a
`JSONDecodeError` (`# skip malformed line`). -/
def ndjsonRecords (text : String) : List JValue :=
  (pyLines text).filterMap fun line =>
    let s := pyStrip line
    if s = [] then none
    else
      match loadsL s with
      | .ok v => some v
      | .error _ => none

/-- `iter_records_from_file` for a single source text: sniff the kind;
`array` streams through `iter_json_array_stream` (the file contents
arriving as one read), `object` is one `json.load` of the whole file,
anything else takes the NDJSON branch.  The second component is the
error, if any, that the underlying iteration would raise. -/
def iter_records_from_text (text : String) : List JValue × Option StreamErr :=
  let kind := sniff_json_kind text
  if kind = "array" then iter_json_array_stream [text.toList]
  else if kind = "object" then
    match loads text with
    | .ok v => ([v], none)
    | .error err => ([], some (.decodeFail text.toList err))
  else (ndjsonRecords text, none)

/-- The string-escaping pass of `json.dumps` (`ensure_ascii=False`). -/
def dumpStr (s : String) : String :=
  "\"" ++ String.mk (s.toList.foldr (fun c acc =>
    if c = '"' then '\\' :: '"' :: acc
    else if c = '\\' then '\\' :: '\\' :: acc
    else if c = '\n' then '\\' :: 'n' :: acc
    else if c = '\t' then '\\' :: 't' :: acc
    else if c = '\r' then '\\' :: 'r' :: acc
    else c :: acc) []) ++ "\""

mutual

/-- `json.dumps(rec, ensure_ascii=False, separators=(",", ":"))`,
modulo number formatting: a `jnum` is emitted as its lexical token
(Python would re-format floats; nothing in the claims depends on the
emitted text, only on how many lines are emitted). -/
def pyJsonDumps : JValue → String
  | .jnull => "null"
  | .jbool true => "true"
  | .jbool false => "false"
  | .jnum t => t
  | .jstr s => dumpStr s
  | .jarr vs => "[" ++ dumpElems vs ++ "]"
  | .jobj kvs => "\x7b" ++ dumpFields kvs ++ "\x7d"

/-- Comma-separated `pyJsonDumps` of array elements. -/
def dumpElems : List JValue → String
  | [] => ""
  | [v] => pyJsonDumps v
  | v :: rest => pyJsonDumps v ++ "," ++ dumpElems rest

/-- Comma-separated `"key":value` renderings of object entries. -/
def dumpFields : List (String × JValue) → String
  | [] => ""
  | [(k, v)] => dumpStr k ++ ":" ++ pyJsonDumps v
  | (k, v) :: rest => dumpStr k ++ ":" ++ pyJsonDumps v ++ "," ++ dumpFields rest

end

/- A `JValue` built over Lean `Char` cannot carry a lone Unicode
surrogate, but Python's `py_scanstring` can produce one (from a
`\uXXXX` escape that decodes unpaired), and `cmd_normalize`'s
`out.write` then raises `UnicodeEncodeError` when the record is encoded
to UTF-8.  The following mutual block is `py_scanstring`/`_scan_once`
once more — same branches, same consumption, same errors — instrumented
to report, instead of the value, whether the scanned value contains a
lone surrogate.  `chr(uni)` yields a lone surrogate exactly when the
final `uni` lies in `D800..DFFF`: an unpaired high surrogate (the
`\u`-follows-but-not-low and no-`\u`-follows branches) or a bare low
surrogate (the not-high branch with `uni` in `DC00..DFFF`). -/
/-- `dict(pairs)` at the flag level: the same insertion-update as
`objFromPairs`, keeping per key the flag of its last pair. -/
def objFlagPairs (pairs : List (String × Bool)) : List (String × Bool) :=
  pairs.foldl (fun acc kb =>
    if acc.any (fun x => x.1 = kb.1) then
      acc.map (fun x => if x.1 = kb.1 then (kb.1, kb.2) else x)
    else acc ++ [(kb.1, kb.2)]) []

mutual

/-- `py_scanstring`, instrumented: the decoded characters (with the
unrepresentable surrogates degraded as in `scanStringF`), whether a
lone surrogate was produced, and the remainder. -/
def scanStringFB : Nat → List Char → Except JErr ((List Char × Bool) × List Char)
  | 0, _ => .error .fuelOut
  | _ + 1, [] => .error (.e "Unterminated string starting at")
  | f + 1, c :: rest =>
    if c = '"' then .ok (([], false), rest)
    else if c = '\\' then
      match rest with
      | [] => .error (.e "Unterminated string starting at")
      | e :: rest2 =>
        if e = 'u' then
          match rest2 with
          | a :: b :: c2 :: d :: rest3 =>
            match hexVal a, hexVal b, hexVal c2, hexVal d with
            | some ha, some hb, some hc, some hd =>
              let u := ((ha * 16 + hb) * 16 + hc) * 16 + hd
              if 0xd800 ≤ u ∧ u ≤ 0xdbff then
                match uSecond rest3 with
                | .pair u2 rest5 =>
                  if 0xdc00 ≤ u2 ∧ u2 ≤ 0xdfff then
                    match scanStringFB f rest5 with
                    | .error err => .error err
                    | .ok ((cs, b1), r) =>
                      .ok ((jsonChr (0x10000 + (u - 0xd800) * 1024 + (u2 - 0xdc00)) :: cs,
                        b1), r)
                  else
                    match scanStringFB f rest3 with
                    | .error err => .error err
                    | .ok ((cs, _), r) => .ok ((jsonChr u :: cs, true), r)
                | .badHex => .error (.e "Invalid \\uXXXX escape")
                | .noEscape =>
                  match scanStringFB f rest3 with
                  | .error err => .error err
                  | .ok ((cs, _), r) => .ok ((jsonChr u :: cs, true), r)
              else
                match scanStringFB f rest3 with
                | .error err => .error err
                | .ok ((cs, b1), r) =>
                  .ok ((jsonChr u :: cs, if 0xdc00 ≤ u ∧ u ≤ 0xdfff then true else b1), r)
            | _, _, _, _ => .error (.e "Invalid \\uXXXX escape")
          | _ => .error (.e "Invalid \\uXXXX escape")
        else
          match backslashTable e with
          | none => .error (.e "Invalid \\escape")
          | some ch =>
            match scanStringFB f rest2 with
            | .error err => .error err
            | .ok ((cs, b1), r) => .ok ((ch :: cs, b1), r)
    else if c.toNat < 0x20 then .error (.e "Invalid control character")
    else
      match scanStringFB f rest with
      | .error err => .error err
      | .ok ((cs, b1), r) => .ok ((c :: cs, b1), r)

/-- `_scan_once`, instrumented for the lone-surrogate flag: literal and
number branches produce no strings, a string carries its scan's flag,
containers combine their parts' flags. -/
def surrOnceF : Nat → List Char → Except JErr (Bool × List Char)
  | 0, _ => .error .fuelOut
  | _ + 1, [] => .error (.e "Expecting value")
  | f + 1, c :: rest =>
    if c = '"' then
      match scanStringFB f rest with
      | .error err => .error err
      | .ok ((_, b1), r) => .ok (b1, r)
    else if c = '{' then surrObjBody f rest
    else if c = '[' then surrArrBody f rest
    else if startsWithL (c :: rest) ('n' :: 'u' :: 'l' :: 'l' :: []) then
      .ok (false, (c :: rest).drop 4)
    else if startsWithL (c :: rest) ('t' :: 'r' :: 'u' :: 'e' :: []) then
      .ok (false, (c :: rest).drop 4)
    else if startsWithL (c :: rest) ('f' :: 'a' :: 'l' :: 's' :: 'e' :: []) then
      .ok (false, (c :: rest).drop 5)
    else
      match lexNumber (c :: rest) with
      | some (_, r) => .ok (false, r)
      | none =>
        if startsWithL (c :: rest) ('N' :: 'a' :: 'N' :: []) then
          .ok (false, (c :: rest).drop 3)
        else if startsWithL (c :: rest)
            ('I' :: 'n' :: 'f' :: 'i' :: 'n' :: 'i' :: 't' :: 'y' :: []) then
          .ok (false, (c :: rest).drop 8)
        else if startsWithL (c :: rest)
            ('-' :: 'I' :: 'n' :: 'f' :: 'i' :: 'n' :: 'i' :: 't' :: 'y' :: []) then
          .ok (false, (c :: rest).drop 9)
        else .error (.e "Expecting value")

/-- `JSONObject`, instrumented. -/
def surrObjBody : Nat → List Char → Except JErr (Bool × List Char)
  | 0, _ => .error .fuelOut
  | f + 1, s =>
    match skipWs s with
    | '}' :: r => .ok (false, r)
    | '"' :: r => surrMembers f r []
    | _ => .error (.e "Expecting property name enclosed in double quotes")

/-- The member loop, instrumented: each scanned pair contributes the
flag of its key and value; `dict(pairs)` keeps, per key, the last
value, so the flags are collapsed by the same insertion-update as
`objFromPairs` before the object's flag is taken as their disjunction. -/
def surrMembers : Nat → List Char → List (String × Bool) →
    Except JErr (Bool × List Char)
  | 0, _, _ => .error .fuelOut
  | f + 1, s, acc =>
    match scanStringFB f s with
    | .error err => .error err
    | .ok ((kcs, bk), s1) =>
      match skipWs s1 with
      | ':' :: s3 =>
        match surrOnceF f (skipWs s3) with
        | .error err => .error err
        | .ok (bv, s5) =>
          let acc2 := acc ++ [(String.mk kcs, bk || bv)]
          match skipWs s5 with
          | '}' :: r => .ok ((objFlagPairs acc2).any (fun kb => kb.2), r)
          | ',' :: s7 =>
            match skipWs s7 with
            | '"' :: s9 => surrMembers f s9 acc2
            | _ => .error (.e "Expecting property name enclosed in double quotes")
          | _ => .error (.e "Expecting ',' delimiter")
      | _ => .error (.e "Expecting ':' delimiter")

/-- `JSONArray`, instrumented. -/
def surrArrBody : Nat → List Char → Except JErr (Bool × List Char)
  | 0, _ => .error .fuelOut
  | f + 1, s =>
    match skipWs s with
    | ']' :: r => .ok (false, r)
    | s1 => surrElems f s1 false

/-- The element loop, instrumented: an array's flag is the disjunction
of its elements' flags. -/
def surrElems : Nat → List Char → Bool → Except JErr (Bool × List Char)
  | 0, _, _ => .error .fuelOut
  | f + 1, s, acc =>
    match surrOnceF f s with
    | .error err => .error err
    | .ok (bv, s1) =>
      match skipWs s1 with
      | ']' :: r => .ok (acc || bv, r)
      | ',' :: s3 => surrElems f (skipWs s3) (acc || bv)
      | _ => .error (.e "Expecting ',' delimiter")

end

/-- `raw_decode`, instrumented for the lone-surrogate flag. -/
def rawDecodeS (s : List Char) : Except JErr (Bool × List Char) :=
  surrOnceF (3 * s.length + 4) s

/-- `json.loads`, instrumented for the lone-surrogate flag. -/
def loadsLS (s : List Char) : Except JErr Bool :=
  match rawDecodeS (skipWs s) with
  | .error err => .error err
  | .ok (b, rest) => if skipWs rest = [] then .ok b else .error (.e "Extra data")

/-- Whether the record decoded from one buffer contains a lone
surrogate — the condition under which `cmd_normalize`'s `out.write`
raises `UnicodeEncodeError` for that record.  A buffer that fails to
parse yields no record, so its flag is irrelevant and reported as
`false`. -/
def lineSurr (s : List Char) : Bool :=
  match loadsLS s with
  | .ok b => b
  | .error _ => false

/-- The NDJSON branch of `iter_records_from_file`, with each yielded
record paired with its lone-surrogate flag (the yield decision is the
source's `json.loads` as in `ndjsonRecords`; the flag comes from the
instrumented twin of the same scan). -/
def ndjsonRecordsFlagged (text : String) : List (JValue × Bool) :=
  (pyLines text).filterMap fun line =>
    let s := pyStrip line
    if s = [] then none
    else
      match loadsL s with
      | .ok v => some (v, lineSurr s)
      | .error _ => none

/-- The lone-surrogate flag of the value `raw_decode` commits to at the
front of `buf` (`false` when the parse fails — no record is yielded
then). -/
def bufSurr (buf : List Char) : Bool :=
  match rawDecodeS buf with
  | .ok (b, _) => b
  | .error _ => false

/-- The `Decode one JSON value` retry loop of `iter_json_array_stream`
(`parseRetry`), with the committed value paired with its lone-surrogate
flag. -/
def parseRetryFlag : List Char → List (List Char) →
    Except StreamErr ((JValue × Bool) × List Char × List (List Char))
  | buf, cs =>
    match rawDecode buf with
    | .ok (v, rest) => .ok ((v, bufSurr buf), rest, cs)
    | .error err =>
      match cs with
      | [] => .error (.decodeFail buf err)
      | chunk :: cs2 =>
        if chunk = [] then .error (.decodeFail buf err)
        else parseRetryFlag (buf ++ chunk) cs2

/-- The `Decode elements until ']'` loop (`decodeLoop`), with each
yielded value paired with its lone-surrogate flag. -/
def decodeLoopFlag : Nat → List Char → List (List Char) →
    List (JValue × Bool) × Option StreamErr
  | 0, _, _ => ([], some .fuelOut)
  | f + 1, buf, cs =>
    match skipSeps buf cs with
    | .error e => ([], some e)
    | .ok (buf1, cs1) =>
      match ensureContent buf1 cs1 with
      | .error e => ([], some e)
      | .ok (buf2, cs2) =>
        let buf3 := condStrip buf2
        if buf3.take 1 = [']'] then ([], none)
        else
          match parseRetryFlag buf3 cs2 with
          | .error e => ([], some e)
          | .ok (vb, buf4, cs3) =>
            let r := decodeLoopFlag f buf4 cs3
            (vb :: r.1, r.2)

/-- `iter_json_array_stream`, with flags. -/
def iter_json_array_stream_flagged (cs : List (List Char)) :
    List (JValue × Bool) × Option StreamErr :=
  match seekOpen [] cs with
  | .error e => ([], some e)
  | .ok (buf, cs2) => decodeLoopFlag (buf.length + chunksLen cs2 + 1) buf cs2

/-- `iter_records_from_file` for a single source text, with each yielded
record paired with its lone-surrogate flag: the kinds dispatch exactly
as in `iter_records_from_text`. -/
def iter_records_flagged (text : String) : List (JValue × Bool) × Option StreamErr :=
  let kind := sniff_json_kind text
  if kind = "array" then iter_json_array_stream_flagged [text.toList]
  else if kind = "object" then
    match loads text with
    | .ok v => ([(v, bufSurr (skipWs text.toList))], none)
    | .error err => ([], some (.decodeFail text.toList err))
  else (ndjsonRecordsFlagged text, none)

/-- The output-writing loop of `cmd_normalize` over the records of one
source: each record is `json.dumps`-ed (`ensure_ascii=False`) and
written followed by a newline, incrementing `n`; the `except Exception`
branch around the write counts the failure in `skipped` instead.  For a
record the decoder produced, `json.dumps` itself cannot raise, but the
UTF-8 encoding of the write raises `UnicodeEncodeError` exactly when
the record carries a lone surrogate (producible only through a
`\uXXXX` escape, e.g. the NDJSON line `"\ud800"`); that per-record
event is the flag `iter_records_flagged` pairs with each record. -/
def cmd_normalize_text (text : String) : List String × Nat × Nat :=
  let recs := (iter_records_flagged text).1
  let good := recs.filter (fun rb => !rb.2)
  (good.map (fun rb => pyJsonDumps rb.1 ++ "\n"), good.length,
    (recs.filter (fun rb => rb.2)).length)

/-- `is_scalar`: `None`, `str`, `int`, `float` or `bool`. -/
def is_scalar : JValue → Bool
  | .jnull => true
  | .jbool _ => true
  | .jnum _ => true
  | .jstr _ => true
  | _ => false

/-- ASCII identifier characters (`[A-Za-z0-9_]`). -/
def isIdentChar (c : Char) : Bool := c.isAlpha || c.isDigit || c = '_'

/-- `str.isidentifier()`, restricted to ASCII (CPython also admits the
XID unicode classes; every key in this development is ASCII). -/
def pyIsIdentifier (s : String) : Bool :=
  match s.toList with
  | [] => false
  | c :: rest => (c.isAlpha || c = '_') && rest.all isIdentChar

/-- The escaping step of `_jsonpath_key_segment`:
`k.replace("\\", "\\\\").replace('"', '\\"')` — the first replacement
introduces no quotes, so the composition is this single pass. -/
def escapeKey (s : String) : String :=
  String.mk (s.toList.foldr (fun c acc =>
    if c = '\\' then '\\' :: '\\' :: acc
    else if c = '"' then '\\' :: '"' :: acc
    else c :: acc) [])

/-- `_jsonpath_key_segment`: `.key` for identifier-shaped keys,
`."escaped"` otherwise. -/
def jsonpath_key_segment (k : String) : String :=
  if pyIsIdentifier k then "." ++ k
  else "." ++ "\"" ++ escapeKey k ++ "\""

/-- `OrderedDict.__setitem__(k, True)`: an existing key keeps its
position (and its value, which is always `True` here), a new key is
appended.  The `OrderedDict[str, bool]` path sets are therefore just
insertion-ordered duplicate-free lists of keys. -/
def odAdd (l : List String) (k : String) : List String :=
  if k ∈ l then l else l ++ [k]

mutual

/-- `walk_paths`: a scalar records its path in the scalar set; a `dict`
walks its entries; a `list` records its path in the structured set and
is not recursed into.  (The source's unreachable branches — a non-`str`
dict key, and the `else` for a value that is neither scalar, `dict` nor
`list` — cannot occur for values of `JValue`.) -/
def walk_paths : JValue → String → List String → List String → List String × List String
  | .jobj entries, path, scalar_paths, json_paths =>
    walk_entries entries path scalar_paths json_paths
  | .jarr _, path, scalar_paths, json_paths => (scalar_paths, odAdd json_paths path)
  | _, path, scalar_paths, json_paths => (odAdd scalar_paths path, json_paths)

/-- The `for k, v in obj.items()` loop of `walk_paths`: a scalar child
joins the scalar set; a `dict` or `list` child joins the structured set
and is recursed into. -/
def walk_entries : List (String × JValue) → String → List String → List String →
    List String × List String
  | [], _, scalar_paths, json_paths => (scalar_paths, json_paths)
  | (k, v) :: rest, path, scalar_paths, json_paths =>
    match v with
    | .jobj _ =>
      let p := path ++ jsonpath_key_segment k
      let r := walk_paths v p scalar_paths (odAdd json_paths p)
      walk_entries rest path r.1 r.2
    | .jarr _ =>
      let p := path ++ jsonpath_key_segment k
      let r := walk_paths v p scalar_paths (odAdd json_paths p)
      walk_entries rest path r.1 r.2
    | _ =>
      walk_entries rest path (odAdd scalar_paths (path ++ jsonpath_key_segment k)) json_paths

end

theorem dropWhile_length_le (p : Char → Bool) (l : List Char) :
    (l.dropWhile p).length ≤ l.length := by
  induction l with
  | nil => simp [List.dropWhile]
  | cons c rest ih =>
    simp only [List.dropWhile, List.length_cons]
    split
    · omega
    · simp

/-- Python `str.replace` with a nonempty pattern `p0 :: ps`:
left-to-right, non-overlapping.  Fuel-indexed; each step consumes at
least one character, so fuel `length + 1` always suffices. -/
def pyReplaceCore : Nat → List Char → Char → List Char → List Char → List Char
  | 0, _, _, _, _ => []
  | _ + 1, [], _, _, _ => []
  | f + 1, c :: rest, p0, ps, rep =>
    if startsWithL (c :: rest) (p0 :: ps) then
      rep ++ pyReplaceCore f ((c :: rest).drop (ps.length + 1)) p0 ps rep
    else c :: pyReplaceCore f rest p0 ps rep

/-- Python `str.replace(pat, rep)` (every pattern used by `colname` is
nonempty; the empty-pattern case cannot arise). -/
def pyReplaceS (s pat rep : String) : String :=
  match pat.toList with
  | [] => s
  | p :: ps => String.mk (pyReplaceCore (s.toList.length + 1) s.toList p ps rep.toList)

/-- `re.sub(r"[^A-Za-z0-9_]+", "_", p)`: each maximal run of
non-identifier characters collapses to a single underscore.
Fuel-indexed; each step consumes at least one character, so fuel
`length + 1` always suffices. -/
def subNonIdentF : Nat → List Char → List Char
  | 0, _ => []
  | _ + 1, [] => []
  | f + 1, c :: rest =>
    if isIdentChar c then c :: subNonIdentF f rest
    else '_' :: subNonIdentF f (rest.dropWhile (fun d => !isIdentChar d))

/-- `re.sub(r"[^A-Za-z0-9_]+", "_", p)` at adequate fuel. -/
def subNonIdent (l : List Char) : List Char := subNonIdentF (l.length + 1) l

/-- `colname`: strip a leading `$.` (otherwise replace every `$` by
`root`), rewrite the bracket forms, turn `.` into `__`, sanitise
everything outside `[A-Za-z0-9_]`, and fall back to `root` for an empty
result. -/
def colname (path : String) : String :=
  let p0 : String :=
    if path.toList.take 2 = ['$', '.'] then String.mk (path.toList.drop 2)
    else pyReplaceS path "$" "root"
  let p1 := pyReplaceS p0 "[\"" "."
  let p2 := pyReplaceS p1 "\"]" ""
  let p3 := pyReplaceS p2 "[" "_"
  let p4 := pyReplaceS p3 "]" ""
  let p5 := pyReplaceS p4 "." "__"
  let p6 := String.mk (subNonIdent p5.toList)
  if p6 = "" then "root" else p6

/-- The kind tag of an extraction-plan entry. -/
inductive PlanKind where
  | scalar : PlanKind
  | json : PlanKind
deriving Repr, DecidableEq

/-- The sampling loop of `generate_flat_select_sql`: strip each line,
skip blank and malformed lines (neither counts against the sample),
walk each parsed record into the two path sets, and stop once
`sample_max` records have been walked. -/
def sampleLoop : List (List Char) → Nat → Nat → List String × List String →
    List String × List String
  | [], _, _, acc => acc
  | line :: rest, cnt, sampleMax, acc =>
    let s := pyStrip line
    if s = [] then sampleLoop rest cnt sampleMax acc
    else
      match loadsL s with
      | .error _ => sampleLoop rest cnt sampleMax acc
      | .ok obj =>
        let acc2 := walk_paths obj "$" acc.1 acc.2
        if cnt + 1 ≥ sampleMax then acc2 else sampleLoop rest (cnt + 1) sampleMax acc2

/-- The two path sets accumulated by `generate_flat_select_sql` over the
lines of the normalized NDJSON file. -/
def samplePaths (lines : List (List Char)) (sampleMax : Nat) : List String × List String :=
  sampleLoop lines 0 sampleMax ([], [])

/-- The extraction plan rendered by `generate_flat_select_sql`: one
`scalar` entry per discovered scalar path (column `colname p`,
extracted with `json_extract_string`), in set order, followed by one
`json` entry per discovered structured path (column `colname p`
suffixed `__json`, extracted with `json_extract`). -/
def planEntries (lines : List (List Char)) (sampleMax : Nat) :
    List (String × PlanKind × String) :=
  let sets := samplePaths lines sampleMax
  sets.1.map (fun p => (p, PlanKind.scalar, colname p)) ++
    sets.2.map (fun p => (p, PlanKind.json, colname p ++ "__json"))

/-- The SELECT text rendered by `generate_flat_select_sql` from the two
path sets. -/
def generate_flat_select_sql (lines : List (List Char)) (sampleMax : Nat) : String :=
  let sets := samplePaths lines sampleMax
  let exprs := ["raw_json"] ++
    sets.1.map (fun p => "json_extract_string(raw_json, '" ++ p ++ "') AS " ++ colname p) ++
    sets.2.map (fun p =>
      "json_extract(raw_json, '" ++ p ++ "') AS " ++ colname p ++ "__json")
  "SELECT\n  " ++ String.intercalate ",\n  " exprs ++ "\nFROM raw"

/-! ## Helper lemmas -/

theorem dropWhile_all_append (p : Char → Bool) (pre rest : List Char)
    (h : ∀ x ∈ pre, p x = true) :
    (pre ++ rest).dropWhile p = rest.dropWhile p := by
  induction pre with
  | nil => simp
  | cons c pre ih =>
    have hc : p c = true := h c (by simp)
    simp only [List.cons_append, List.dropWhile, hc]
    exact ih (fun x hx => h x (by simp [hx]))

theorem afterBracket_eq_none (l : List Char) (h : '[' ∉ l) : afterBracket l = none := by
  induction l with
  | nil => rfl
  | cons c rest ih =>
    simp only [List.mem_cons, not_or] at h
    simp only [afterBracket]
    rw [if_neg (fun hc => h.1 hc.symm)]
    exact ih h.2

theorem seekOpen_no_bracket (cs : List (List Char)) :
    ∀ buf : List Char, '[' ∉ buf → (∀ chunk ∈ cs, '[' ∉ chunk) →
    seekOpen buf cs = .error .truncatedSeek := by
  induction cs with
  | nil => intro buf _ _; rfl
  | cons chunk cs ih =>
    intro buf hbuf hcs
    have hchunk : '[' ∉ chunk := hcs chunk (by simp)
    have hbuf2 : '[' ∉ buf ++ chunk := by
      simp only [List.mem_append, not_or]; exact ⟨hbuf, hchunk⟩
    have hcs' : ∀ c ∈ cs, '[' ∉ c := fun c hc => hcs c (by simp [hc])
    simp only [seekOpen]
    split
    · rfl
    · have hstripped : '[' ∉ (buf ++ chunk).dropWhile pyStripChar :=
        fun hm => hbuf2 ((List.dropWhile_sublist _).mem hm)
      rw [afterBracket_eq_none _ hstripped]
      split
      · exact ih [] (by simp) hcs'
      · exact ih (buf ++ chunk) hbuf2 hcs'

theorem length_filterMap_eq_countP {α β : Type} (f : α → Option β) (l : List α) :
    (l.filterMap f).length = l.countP (fun x => (f x).isSome) := by
  induction l with
  | nil => rfl
  | cons a l ih =>
    simp only [List.filterMap_cons, List.countP_cons]
    cases h : f a with
    | none => simp [h, ih]
    | some b => simp [h, ih]

/-! ## C1: chunk-size invariance of the streaming array decoder -/

/-- C1, counterexample.  The claim asserts chunk-size invariance for
every well-formed JSON array and every chunking.  It fails: the text
`[12]` is a well-formed array whose single-shot parse yields the one
number `12`, but split into the two reads `"[1"` and `"2]"` the decoder
yields the two values `1` and `2` — `raw_decode` succeeds on the buffer
`"1"` (a complete numeric literal) even though the element continues in
the next chunk, so a number straddling a read boundary is cut in two. -/
theorem C1_counterexample :
    ("[1".toList ++ "2]".toList = "[12]".toList) ∧
    loads "[12]" = .ok (.jarr [.jnum "12"]) ∧
    iter_json_array_stream ["[1".toList, "2]".toList] =
      ([.jnum "1", .jnum "2"], none) ∧
    ([JValue.jnum "1", JValue.jnum "2"] ≠ [JValue.jnum "12"]) :=
  ⟨rfl, rfl, rfl, by simp⟩

/-! ## C2: the concrete record's schema and plan -/

/-- C2, counterexample.  For the record
`{"a": 1, "b": {"c": "x"}, "d": [1,2,3]}` sampled alone, the claim says
the structured set is exactly `$.d` and the plan has exactly three
entries.  In the code, `walk_paths` also records the intermediate
object path `$.b` in `json_paths` (an `Object` child is added to the
structured set and then recursed into), so the structured set is
`[$.b, $.d]` and the plan has four entries. -/
theorem C2_counterexample :
    (samplePaths ["\x7b\"a\": 1, \"b\": \x7b\"c\": \"x\"\x7d, \"d\": [1,2,3]\x7d".toList] 1).2 =
      ["$.b", "$.d"] ∧
    planEntries ["\x7b\"a\": 1, \"b\": \x7b\"c\": \"x\"\x7d, \"d\": [1,2,3]\x7d".toList] 1 ≠
      [("$.a", PlanKind.scalar, "a"), ("$.b.c", PlanKind.scalar, "b__c"),
       ("$.d", PlanKind.json, "d__json")] :=
  ⟨rfl, by decide⟩

/-- C2, amended: sampling the record `{"a": 1, "b": {"c": "x"}, "d": [1,2,3]}`
alone produces scalar paths `$.a`, `$.b.c` and structured paths `$.b`,
`$.d`, and the extraction plan is exactly
`("$.a", scalar, a)`, `("$.b.c", scalar, b__c)`,
`("$.b", json, b__json)`, `("$.d", json, d__json)`. -/
theorem C2_concrete_record_plan :
    samplePaths ["\x7b\"a\": 1, \"b\": \x7b\"c\": \"x\"\x7d, \"d\": [1,2,3]\x7d".toList] 1 =
      (["$.a", "$.b.c"], ["$.b", "$.d"]) ∧
    planEntries ["\x7b\"a\": 1, \"b\": \x7b\"c\": \"x\"\x7d, \"d\": [1,2,3]\x7d".toList] 1 =
      [("$.a", PlanKind.scalar, "a"), ("$.b.c", PlanKind.scalar, "b__c"),
       ("$.b", PlanKind.json, "b__json"), ("$.d", PlanKind.json, "d__json")] :=
  ⟨rfl, rfl⟩

/-! ## C3: malformed-line tolerance and the skipped count -/

/-- A line the NDJSON reader drops as malformed: non-blank after
stripping, but `json.loads` fails on it. -/
def badLine (l : List Char) : Bool :=
  !(pyStrip l).isEmpty && !(loadsL (pyStrip l)).isOk

/-- A line the NDJSON reader emits: non-blank after stripping and
parsed by `json.loads`. -/
def goodLine (l : List Char) : Bool :=
  !(pyStrip l).isEmpty && (loadsL (pyStrip l)).isOk

/-- C3, counterexample.  The claim says the skipped count reported by
normalization equals the number `B` of malformed lines.  For the NDJSON
source `"notjson\n{\"a\":1}\n"` (two lines, one malformed) the code
emits one record but reports `skipped = 0`: `iter_records_from_file`
drops a malformed line with a bare `continue` and counts nothing, and
`cmd_normalize`'s `skipped` counter only counts output-write failures
(a `UnicodeEncodeError` on a lone-surrogate record), never malformed
input lines. -/
theorem C3_counterexample :
    sniff_json_kind "notjson\n\x7b\"a\":1\x7d\n" = "ndjson" ∧
    (pyLines "notjson\n\x7b\"a\":1\x7d\n").length = 2 ∧
    (pyLines "notjson\n\x7b\"a\":1\x7d\n").countP badLine = 1 ∧
    (cmd_normalize_text "notjson\n\x7b\"a\":1\x7d\n").2 = (1, 0) ∧
    (0 : Nat) ≠ 1 :=
  ⟨rfl, rfl, rfl, rfl, by decide⟩

/-- The write-failure leg of the normalization accounting: the single
ASCII NDJSON line `"\ud800"` parses, but its record is a lone high
surrogate, so the UTF-8 write raises `UnicodeEncodeError` and the
record is counted in `skipped` without being emitted (`n = 0`,
`skipped = 1`) — the one event the `skipped` counter exists for. -/
theorem cmd_normalize_surrogate_skip :
    cmd_normalize_text "\"\\ud800\"" = ([], 0, 1) := rfl

/-- C3, amended: for every source taking the NDJSON path none of whose
lines decodes to a record containing a lone surrogate, normalization
emits exactly one record per non-blank well-formed line — that is,
`L − B − (number of blank lines)` records for `L` total lines of which
`B` are malformed — and the reported skipped count is `0` regardless of
`B`: each malformed line is dropped silently by a bare `continue`
before any counter is reached (processing continues), and the
`skipped` counter counts only failures of the output write, which
occur exactly for surrogate-carrying records
(`cmd_normalize_surrogate_skip`) and never for surrogate-free ones. -/
theorem C3_malformed_line_tolerance (text : String)
    (ha : sniff_json_kind text ≠ "array") (ho : sniff_json_kind text ≠ "object")
    (hsurr : ∀ l ∈ pyLines text, lineSurr (pyStrip l) = false) :
    (cmd_normalize_text text).2.1 = (pyLines text).countP goodLine ∧
    (cmd_normalize_text text).2.2 = 0 := by
  have hrecs : (iter_records_flagged text).1 = ndjsonRecordsFlagged text := by
    simp only [iter_records_flagged, if_neg ha, if_neg ho]
  have hflags : ∀ rb ∈ ndjsonRecordsFlagged text, rb.2 = false := by
    intro rb hm
    unfold ndjsonRecordsFlagged at hm
    rw [List.mem_filterMap] at hm
    obtain ⟨l, hl, hf⟩ := hm
    by_cases hs : pyStrip l = []
    · rw [if_pos hs] at hf
      simp at hf
    · rw [if_neg hs] at hf
      cases hload : loadsL (pyStrip l) with
      | ok v =>
        rw [hload] at hf
        simp only [Option.some.injEq] at hf
        rw [← hf]
        exact hsurr l hl
      | error err =>
        rw [hload] at hf
        simp at hf
  constructor
  · simp only [cmd_normalize_text]
    rw [hrecs]
    rw [List.filter_eq_self.mpr (fun rb hm => by rw [hflags rb hm]; rfl)]
    unfold ndjsonRecordsFlagged
    rw [length_filterMap_eq_countP]
    apply List.countP_congr
    intro l _
    simp only [goodLine]
    cases hs : pyStrip l with
    | nil => simp [hs]
    | cons c rest =>
      simp only [hs, List.isEmpty_cons, Bool.not_false, Bool.true_and]
      cases hl : loadsL (c :: rest) with
      | ok v => simp [hl, Except.isOk, Except.toBool]
      | error err => simp [hl, Except.isOk, Except.toBool]
  · simp only [cmd_normalize_text]
    rw [hrecs]
    rw [List.length_eq_zero, List.filter_eq_nil_iff]
    intro rb hm
    rw [hflags rb hm]
    simp

/-- C3 witness: the amended statement applied to the concrete NDJSON
source above — one good line out of two, no surrogate anywhere, skipped
count 0. -/
theorem C3_malformed_line_tolerance_witness :
    (cmd_normalize_text "notjson\n\x7b\"a\":1\x7d\n").2.1 =
      (pyLines "notjson\n\x7b\"a\":1\x7d\n").countP goodLine ∧
    (cmd_normalize_text "notjson\n\x7b\"a\":1\x7d\n").2.2 = 0 :=
  C3_malformed_line_tolerance "notjson\n\x7b\"a\":1\x7d\n" (by decide) (by decide)
    (by decide)

/-! ## C5: column-name uniqueness -/

/-- C5, counterexample.  The claim asserts that plan column names are
pairwise distinct for every sampled input.  The record
`{"a,b":1,"a;b":2}` has two distinct scalar paths (`$."a,b"` and
`$."a;b"`) whose sanitised column names are both `_a_b_` — `colname`
collapses every non-identifier run to `_` — so the generated plan
contains a duplicated column name. -/
theorem C5_counterexample :
    planEntries ["\x7b\"a,b\":1,\"a;b\":2\x7d".toList] 1 =
      [("$.\"a,b\"", PlanKind.scalar, "_a_b_"),
       ("$.\"a;b\"", PlanKind.scalar, "_a_b_")] ∧
    ¬ ((planEntries ["\x7b\"a,b\":1,\"a;b\":2\x7d".toList] 1).map
        (fun e => e.2.2)).Nodup :=
  ⟨rfl, by decide⟩

/-- C5, amended: column names are derived from paths purely by
`colname` (plus the fixed `__json` suffix for structured entries), with
no collision detection or renaming of any kind — so distinct paths can
and do produce identical column names, and uniqueness is not an
invariant of the plan. -/
theorem C5_no_rename_collisions :
    (∀ (lines : List (List Char)) (sampleMax : Nat),
      (planEntries lines sampleMax).map (fun e => e.2.2) =
        (samplePaths lines sampleMax).1.map colname ++
        (samplePaths lines sampleMax).2.map (fun p => colname p ++ "__json")) ∧
    colname "$.\"a,b\"" = "_a_b_" ∧
    colname "$.\"a;b\"" = "_a_b_" ∧
    ("$.\"a,b\"" : String) ≠ "$.\"a;b\"" := by
  refine ⟨?_, rfl, rfl, by decide⟩
  intro lines sampleMax
  simp only [planEntries, List.map_append, List.map_map]
  rfl

/-! ## C8: the decoder's error taxonomy -/

/-- C8, counterexample.  The claim says the decoder fails with a
distinct `TruncatedInput` error when the stream ends in the middle of a
value, and with `MalformedValue` exactly when the value text is
syntactically invalid rather than truncated.  In the code both cases
re-raise the `json.JSONDecodeError` (`decodeFail` here): the stream
`"[tru"` ends mid-value and the stream `"[&]"` holds a syntactically
invalid value, and both fail with the same error class — the `ValueError`
(`TruncatedInput`) class is reserved for the seek and separator-skip
phases. -/
theorem C8_counterexample :
    iter_json_array_stream ["[tru".toList] =
      ([], some (.decodeFail "tru".toList (.e "Expecting value"))) ∧
    iter_json_array_stream ["[&]".toList] =
      ([], some (.decodeFail "&]".toList (.e "Expecting value"))) :=
  ⟨rfl, rfl⟩

/-- C8, amended: the decoder raises `ValueError` (`TruncatedInput`)
when the stream ends before any `[` is found (for every such stream),
and when the stream ends while skipping separators between elements;
but when a value parse fails — whether because the stream ended
mid-value or because the value text is syntactically invalid — it
re-raises the `json.JSONDecodeError` (`MalformedValue` class, carrying
the offending buffer) once the stream is exhausted, with no separate
truncation error for the mid-value case.  No further values are yielded
after either failure (the generator's result pairs the yielded prefix
with the terminating error). -/
theorem C8_error_taxonomy :
    (∀ cs : List (List Char), (∀ chunk ∈ cs, '[' ∉ chunk) →
      iter_json_array_stream cs = ([], some .truncatedSeek)) ∧
    iter_json_array_stream ["[1, ".toList] = ([.jnum "1"], some .truncatedInside) ∧
    iter_json_array_stream ["[tru".toList] =
      ([], some (.decodeFail "tru".toList (.e "Expecting value"))) ∧
    iter_json_array_stream ["[&]".toList] =
      ([], some (.decodeFail "&]".toList (.e "Expecting value"))) := by
  refine ⟨?_, rfl, rfl, rfl⟩
  intro cs h
  unfold iter_json_array_stream
  rw [seekOpen_no_bracket cs [] (by simp) h]

/-- C8 witness: the universal seek-phase conjunct applied to a concrete
bracketless stream. -/
theorem C8_error_taxonomy_witness :
    iter_json_array_stream ["no".toList] = ([], some .truncatedSeek) :=
  C8_error_taxonomy.1 ["no".toList] (by decide)

/-! ## C9: separator leniency between elements -/

/-- C9, confirmed: between elements the decoder's skip phase consumes
any run of whitespace-or-comma characters (first conjunct, for every
such run), so the malformed arrays `[1 2]`, `[1,,2]` and `[1,]` — each
rejected by a single-shot `json.loads` — decode without error to the
same sequences as the well-formed `[1,2]`, `[1,2]` and `[1]`. -/
theorem C9_separator_leniency :
    (∀ (pre rest' : List Char) (c : Char) (cs : List (List Char)),
      (∀ x ∈ pre, sepChar x = true) → sepChar c = false →
      skipSeps (pre ++ c :: rest') cs = .ok (c :: rest', cs)) ∧
    loads "[1 2]" = .error (.e "Expecting ',' delimiter") ∧
    loads "[1,,2]" = .error (.e "Expecting value") ∧
    loads "[1,]" = .error (.e "Expecting value") ∧
    iter_json_array_stream ["[1 2]".toList] = ([.jnum "1", .jnum "2"], none) ∧
    iter_json_array_stream ["[1,,2]".toList] = ([.jnum "1", .jnum "2"], none) ∧
    iter_json_array_stream ["[1,]".toList] = ([.jnum "1"], none) ∧
    iter_json_array_stream ["[1,2]".toList] = ([.jnum "1", .jnum "2"], none) ∧
    iter_json_array_stream ["[1]".toList] = ([.jnum "1"], none) := by
  refine ⟨?_, rfl, rfl, rfl, rfl, rfl, rfl, rfl, rfl⟩
  intro pre rest' c cs hpre hc
  unfold skipSeps
  rw [dropWhile_all_append sepChar pre (c :: rest') hpre]
  simp [List.dropWhile, hc]

/-- C9 witness: the universal skip conjunct applied to the separator
run `" ,"` before the element `1`. -/
theorem C9_separator_leniency_witness :
    skipSeps (" ,".toList ++ '1' :: []) [] = .ok ('1' :: [], []) :=
  C9_separator_leniency.1 " ,".toList [] '1' [] (by decide) (by decide)

/-! ## C10: root-path handling -/

/-- C10, confirmed: a record whose root value is a scalar puts `$` in
the scalar set (for every scalar value), a root array puts `$` in the
structured set (for every array), `colname` maps `$` to `root` (the
not-`$.`-prefixed branch replaces `$` by `root`) and returns `root`
for an empty sanitised result (e.g. for `""` and for `"$."`), and the
concrete one-record streams `5` and `[1,2,3]` produce the plan entries
`("$", scalar, root)` and `("$", json, root__json)` respectively. -/
theorem C10_root_paths :
    (∀ v : JValue, is_scalar v = true → walk_paths v "$" [] [] = (["$"], [])) ∧
    (∀ l : List JValue, walk_paths (.jarr l) "$" [] [] = ([], ["$"])) ∧
    colname "$" = "root" ∧ colname "" = "root" ∧ colname "$." = "root" ∧
    planEntries ["5".toList] 20000 = [("$", PlanKind.scalar, "root")] ∧
    planEntries ["[1,2,3]".toList] 20000 = [("$", PlanKind.json, "root__json")] := by
  refine ⟨?_, fun l => rfl, rfl, rfl, rfl, rfl, rfl⟩
  intro v hv
  cases v with
  | jnull => rfl
  | jbool b => rfl
  | jnum t => rfl
  | jstr s => rfl
  | jarr l => simp [is_scalar] at hv
  | jobj entries => simp [is_scalar] at hv

/-- C10 witness: the scalar-root conjunct applied to the number `5`. -/
theorem C10_root_paths_witness :
    walk_paths (.jnum "5") "$" [] [] = (["$"], []) :=
  C10_root_paths.1 (.jnum "5") (by decide)

/-! ## Discovery order: what the walker records, in order -/

mutual

/-- The scalar paths a `walk_paths` call records, in recording order
(a specification-side mirror of the walker's traversal). -/
def scalarDisc : JValue → String → List String
  | .jobj entries, path => scalarDiscEntries entries path
  | .jarr _, _ => []
  | _, path => [path]

/-- The scalar paths recorded while walking an entry list. -/
def scalarDiscEntries : List (String × JValue) → String → List String
  | [], _ => []
  | (k, v) :: rest, path =>
    match v with
    | .jobj _ => scalarDisc v (path ++ jsonpath_key_segment k) ++ scalarDiscEntries rest path
    | .jarr _ => scalarDisc v (path ++ jsonpath_key_segment k) ++ scalarDiscEntries rest path
    | _ => (path ++ jsonpath_key_segment k) :: scalarDiscEntries rest path

end

mutual

/-- The structured paths a `walk_paths` call records, in recording
order. -/
def jsonDisc : JValue → String → List String
  | .jobj entries, path => jsonDiscEntries entries path
  | .jarr _, path => [path]
  | _, _ => []

/-- The structured paths recorded while walking an entry list. -/
def jsonDiscEntries : List (String × JValue) → String → List String
  | [], _ => []
  | (k, v) :: rest, path =>
    match v with
    | .jobj _ =>
      (path ++ jsonpath_key_segment k) ::
        (jsonDisc v (path ++ jsonpath_key_segment k) ++ jsonDiscEntries rest path)
    | .jarr _ =>
      (path ++ jsonpath_key_segment k) ::
        (jsonDisc v (path ++ jsonpath_key_segment k) ++ jsonDiscEntries rest path)
    | _ => jsonDiscEntries rest path

end

mutual

/-- All paths a `walk_paths` call records — scalar and structured
interleaved — in the order of first recording. -/
def discAll : JValue → String → List String
  | .jobj entries, path => discAllEntries entries path
  | .jarr _, path => [path]
  | _, path => [path]

/-- All paths recorded while walking an entry list, in recording
order. -/
def discAllEntries : List (String × JValue) → String → List String
  | [], _ => []
  | (k, v) :: rest, path =>
    match v with
    | .jobj _ =>
      (path ++ jsonpath_key_segment k) ::
        (discAll v (path ++ jsonpath_key_segment k) ++ discAllEntries rest path)
    | .jarr _ =>
      (path ++ jsonpath_key_segment k) ::
        (discAll v (path ++ jsonpath_key_segment k) ++ discAllEntries rest path)
    | _ => (path ++ jsonpath_key_segment k) :: discAllEntries rest path

end

theorem foldl_odAdd_append (a b : List String) (init : List String) :
    (a ++ b).foldl odAdd init = b.foldl odAdd (a.foldl odAdd init) :=
  List.foldl_append odAdd init a b

theorem mem_foldl_odAdd (l : List String) :
    ∀ (init : List String) (x : String),
      x ∈ l.foldl odAdd init ↔ x ∈ init ∨ x ∈ l := by
  induction l with
  | nil => simp
  | cons a l ih =>
    intro init x
    simp only [List.foldl_cons, ih, odAdd]
    split
    · rename_i ha
      constructor
      · rintro (hx | hx)
        · exact Or.inl hx
        · simp [hx]
      · rintro (hx | hx)
        · exact Or.inl hx
        · rcases List.mem_cons.mp hx with rfl | hx
          · exact Or.inl ha
          · exact Or.inr hx
    · constructor
      · rintro (hx | hx)
        · rcases List.mem_append.mp hx with hx | hx
          · exact Or.inl hx
          · simp at hx
            simp [hx]
        · simp [hx]
      · rintro (hx | hx)
        · exact Or.inl (List.mem_append.mpr (Or.inl hx))
        · rcases List.mem_cons.mp hx with rfl | hx
          · exact Or.inl (by simp)
          · exact Or.inr hx

theorem nodup_foldl_odAdd (l : List String) :
    ∀ init : List String, init.Nodup → (l.foldl odAdd init).Nodup := by
  induction l with
  | nil => intro init h; exact h
  | cons a l ih =>
    intro init h
    simp only [List.foldl_cons]
    apply ih
    unfold odAdd
    split
    · exact h
    · rename_i ha
      simpa [List.nodup_append] using ⟨h, ha⟩

mutual

/-- What `walk_paths` computes: it folds its discovery lists into the
two ordered sets with `odAdd` (insert-if-absent at the back). -/
theorem walk_paths_eq : ∀ (v : JValue) (path : String) (sp jp : List String),
    walk_paths v path sp jp =
      ((scalarDisc v path).foldl odAdd sp, (jsonDisc v path).foldl odAdd jp)
  | .jnull, path, sp, jp => by simp [walk_paths, scalarDisc, jsonDisc]
  | .jbool b, path, sp, jp => by simp [walk_paths, scalarDisc, jsonDisc]
  | .jnum t, path, sp, jp => by simp [walk_paths, scalarDisc, jsonDisc]
  | .jstr s, path, sp, jp => by simp [walk_paths, scalarDisc, jsonDisc]
  | .jarr l, path, sp, jp => by simp [walk_paths, scalarDisc, jsonDisc]
  | .jobj entries, path, sp, jp => by
    simp only [walk_paths, scalarDisc, jsonDisc]
    exact walk_entries_eq entries path sp jp

/-- What `walk_entries` computes, in terms of the entry-list discovery
lists. -/
theorem walk_entries_eq :
    ∀ (entries : List (String × JValue)) (path : String) (sp jp : List String),
    walk_entries entries path sp jp =
      ((scalarDiscEntries entries path).foldl odAdd sp,
       (jsonDiscEntries entries path).foldl odAdd jp)
  | [], path, sp, jp => by simp [walk_entries, scalarDiscEntries, jsonDiscEntries]
  | (k, .jobj es) :: rest, path, sp, jp => by
    simp only [walk_entries]
    rw [walk_paths_eq (.jobj es) (path ++ jsonpath_key_segment k) sp
      (odAdd jp (path ++ jsonpath_key_segment k))]
    rw [walk_entries_eq rest path]
    simp [scalarDiscEntries, jsonDiscEntries, foldl_odAdd_append]
  | (k, .jarr l) :: rest, path, sp, jp => by
    simp only [walk_entries]
    rw [walk_paths_eq (.jarr l) (path ++ jsonpath_key_segment k) sp
      (odAdd jp (path ++ jsonpath_key_segment k))]
    rw [walk_entries_eq rest path]
    simp [scalarDiscEntries, jsonDiscEntries, foldl_odAdd_append, scalarDisc, jsonDisc]
  | (k, .jnull) :: rest, path, sp, jp => by
    simp only [walk_entries]
    rw [walk_entries_eq rest path]
    simp [scalarDiscEntries, jsonDiscEntries]
  | (k, .jbool b) :: rest, path, sp, jp => by
    simp only [walk_entries]
    rw [walk_entries_eq rest path]
    simp [scalarDiscEntries, jsonDiscEntries]
  | (k, .jnum t) :: rest, path, sp, jp => by
    simp only [walk_entries]
    rw [walk_entries_eq rest path]
    simp [scalarDiscEntries, jsonDiscEntries]
  | (k, .jstr s) :: rest, path, sp, jp => by
    simp only [walk_entries]
    rw [walk_entries_eq rest path]
    simp [scalarDiscEntries, jsonDiscEntries]

end

/-! ## Sampling: what the loop reads -/

/-- The record a line contributes to sampling, if any: `none` for a
blank or malformed line, the parsed value otherwise. -/
def parsedLine (l : List Char) : Option JValue :=
  if pyStrip l = [] then none else (loadsL (pyStrip l)).toOption

/-- The parseable records of a line list, in order. -/
def parseableRecords (lines : List (List Char)) : List JValue :=
  lines.filterMap parsedLine

/-- Walk a list of records into the accumulated path sets, one
`walk_paths` call per record. -/
def walkAll (vs : List JValue) (acc : List String × List String) :
    List String × List String :=
  vs.foldl (fun a v => walk_paths v "$" a.1 a.2) acc

theorem walkAll_nil (acc : List String × List String) : walkAll [] acc = acc := rfl

theorem walkAll_cons (v : JValue) (vs : List JValue) (acc : List String × List String) :
    walkAll (v :: vs) acc = walkAll vs (walk_paths v "$" acc.1 acc.2) := rfl

/-- The sampling loop walks exactly the first `sampleMax − cnt`
parseable records of its input — no fewer, and never one more. -/
theorem sampleLoop_take :
    ∀ (lines : List (List Char)) (cnt sampleMax : Nat) (acc : List String × List String),
      cnt < sampleMax →
      sampleLoop lines cnt sampleMax acc =
        walkAll ((parseableRecords lines).take (sampleMax - cnt)) acc
  | [], cnt, sampleMax, acc, _ => by
    simp [sampleLoop, parseableRecords, walkAll]
  | line :: rest, cnt, sampleMax, acc, h => by
    by_cases hblank : pyStrip line = []
    · simp only [sampleLoop, parseableRecords, List.filterMap_cons, parsedLine]
      rw [if_pos hblank, if_pos hblank]
      exact sampleLoop_take rest cnt sampleMax acc h
    · cases hl : loadsL (pyStrip line) with
      | error err =>
        simp only [sampleLoop, parseableRecords, List.filterMap_cons, parsedLine]
        rw [if_neg hblank, if_neg hblank, hl]
        simp only [Except.toOption]
        exact sampleLoop_take rest cnt sampleMax acc h
      | ok obj =>
        simp only [sampleLoop, parseableRecords, List.filterMap_cons, parsedLine]
        rw [if_neg hblank, if_neg hblank, hl]
        simp only [Except.toOption]
        have hsub : sampleMax - cnt = (sampleMax - (cnt + 1)) + 1 := by omega
        rw [hsub, List.take_succ_cons, walkAll_cons]
        by_cases hstop : cnt + 1 ≥ sampleMax
        · rw [if_pos hstop]
          have hz : sampleMax - (cnt + 1) = 0 := by omega
          rw [hz]
          rfl
        · rw [if_neg hstop]
          exact sampleLoop_take rest (cnt + 1) sampleMax _ (by omega)

/-! ## C7: the sampling cap -/

/-- C7, confirmed: with a cap `S ≥ 1`, the schema builder's path sets
are exactly those obtained by walking the first `min S M` parseable
records, once each, in order (first conjunct) — so when the stream has
at most `S` records it processes all of them and stops at exhaustion —
and the result never depends on anything beyond record `S`: appending
arbitrary further input to a stream that already holds `S` records
changes nothing (second conjunct). -/
theorem C7_sampling_cap (lines : List (List Char)) (S : Nat) (hS : 1 ≤ S) :
    samplePaths lines S = walkAll ((parseableRecords lines).take S) ([], []) ∧
    (∀ extra : List (List Char), S ≤ (parseableRecords lines).length →
      samplePaths (lines ++ extra) S = samplePaths lines S) := by
  constructor
  · have := sampleLoop_take lines 0 S ([], []) (by omega)
    simpa [samplePaths] using this
  · intro extra hlen
    have h1 := sampleLoop_take (lines ++ extra) 0 S ([], []) (by omega)
    have h2 := sampleLoop_take lines 0 S ([], []) (by omega)
    simp only [samplePaths]
    rw [h1, h2]
    have : parseableRecords (lines ++ extra) =
        parseableRecords lines ++ parseableRecords extra := by
      simp [parseableRecords]
    rw [this]
    rw [Nat.sub_zero]
    rw [List.take_append_of_le_length hlen]

/-- C7 witness: the cap applied to the three-record stream `1, 2, 3`
with `S = 2`. -/
theorem C7_sampling_cap_witness :
    samplePaths ["1".toList, "2".toList, "3".toList] 2 =
      walkAll ((parseableRecords ["1".toList, "2".toList, "3".toList]).take 2) ([], []) :=
  (C7_sampling_cap ["1".toList, "2".toList, "3".toList] 2 (by decide)).1

/-! ## C4: plan ordering and deduplication -/

/-- The discovery events of a record list, concatenated in sampling
order, for one of the two discovery-list functions. -/
def discConcat (f : JValue → String → List String) : List JValue → List String
  | [] => []
  | v :: vs => f v "$" ++ discConcat f vs

/-- Keep the first occurrence of each path, in order of first
occurrence — what folding `odAdd` over the event list from the empty
set computes. -/
def firstSeen (l : List String) : List String := l.foldl odAdd []

theorem walkAll_eq_foldl (vs : List JValue) :
    ∀ acc : List String × List String,
      walkAll vs acc =
        ((discConcat scalarDisc vs).foldl odAdd acc.1,
         (discConcat jsonDisc vs).foldl odAdd acc.2) := by
  induction vs with
  | nil => intro acc; simp [walkAll, discConcat]
  | cons v vs ih =>
    intro acc
    rw [walkAll_cons, ih, walk_paths_eq v "$" acc.1 acc.2]
    simp [discConcat, foldl_odAdd_append]

/-- C4, counterexample.  The claim says plan entries are ordered by
first discovery regardless of kind.  For the single record
`{"d":[1],"a":2}`, the walker first records the structured path `$.d`
and then the scalar path `$.a` (second conjunct: the interleaved
discovery order), but the rendered plan lists every scalar entry before
every structured entry, so `$.a` precedes `$.d` — the opposite of
discovery order. -/
theorem C4_counterexample :
    loads "\x7b\"d\":[1],\"a\":2\x7d" =
      .ok (.jobj [("d", .jarr [.jnum "1"]), ("a", .jnum "2")]) ∧
    firstSeen (discAll (.jobj [("d", .jarr [.jnum "1"]), ("a", .jnum "2")]) "$") =
      ["$.d", "$.a"] ∧
    (planEntries ["\x7b\"d\":[1],\"a\":2\x7d".toList] 1).map (fun e => e.1) =
      ["$.a", "$.d"] ∧
    (["$.a", "$.d"] : List String) ≠ ["$.d", "$.a"] :=
  ⟨rfl, by simp only [discAll, discAllEntries]; rfl, rfl, by decide⟩

/-- C4, amended: the plan is all scalar entries followed by all
structured entries — not one interleaved sequence — with each of the
two blocks separately insertion-ordered by first discovery during
sampling and deduplicated (each path appears at most once per block;
the same path can appear in both blocks when records conflict).
Concretely: the scalar block is `firstSeen` of the scalar discovery
events of the walked records, the structured block is `firstSeen` of
the structured discovery events, and both are duplicate-free. -/
theorem C4_plan_order_dedup (lines : List (List Char)) (S : Nat) (hS : 1 ≤ S) :
    planEntries lines S =
      (samplePaths lines S).1.map (fun p => (p, PlanKind.scalar, colname p)) ++
      (samplePaths lines S).2.map (fun p => (p, PlanKind.json, colname p ++ "__json")) ∧
    samplePaths lines S =
      (firstSeen (discConcat scalarDisc ((parseableRecords lines).take S)),
       firstSeen (discConcat jsonDisc ((parseableRecords lines).take S))) ∧
    (samplePaths lines S).1.Nodup ∧ (samplePaths lines S).2.Nodup := by
  have hchar : samplePaths lines S =
      (firstSeen (discConcat scalarDisc ((parseableRecords lines).take S)),
       firstSeen (discConcat jsonDisc ((parseableRecords lines).take S))) := by
    have h1 := sampleLoop_take lines 0 S ([], []) (by omega)
    simp only [samplePaths, Nat.sub_zero] at h1 ⊢
    rw [h1, walkAll_eq_foldl]
    rfl
  refine ⟨rfl, hchar, ?_, ?_⟩
  · rw [hchar]
    exact nodup_foldl_odAdd _ [] (by simp)
  · rw [hchar]
    exact nodup_foldl_odAdd _ [] (by simp)

/-- C4 witness: the amended structure applied to the one-record stream
`{"d":[1],"a":2}` with cap 1. -/
theorem C4_plan_order_dedup_witness :
    planEntries ["\x7b\"d\":[1],\"a\":2\x7d".toList] 1 =
      (samplePaths ["\x7b\"d\":[1],\"a\":2\x7d".toList] 1).1.map
        (fun p => (p, PlanKind.scalar, colname p)) ++
      (samplePaths ["\x7b\"d\":[1],\"a\":2\x7d".toList] 1).2.map
        (fun p => (p, PlanKind.json, colname p ++ "__json")) ∧
    (samplePaths ["\x7b\"d\":[1],\"a\":2\x7d".toList] 1).1.Nodup ∧
    (samplePaths ["\x7b\"d\":[1],\"a\":2\x7d".toList] 1).2.Nodup :=
  ⟨(C4_plan_order_dedup ["\x7b\"d\":[1],\"a\":2\x7d".toList] 1 (by decide)).1,
   (C4_plan_order_dedup ["\x7b\"d\":[1],\"a\":2\x7d".toList] 1 (by decide)).2.2.1,
   (C4_plan_order_dedup ["\x7b\"d\":[1],\"a\":2\x7d".toList] 1 (by decide)).2.2.2⟩

/-! ## C6: array opacity -/

/-- Addressing a location inside a decoded value by a chain of object
keys — the only accessor form the path language has (dot access and
quoted access; no index syntax, per the source's `_jsonpath_key_segment`
and the absence of any index expansion). -/
inductive Addr : JValue → List String → JValue → Prop where
  | root (v : JValue) : Addr v [] v
  | key {entries : List (String × JValue)} {k : String} {w u : JValue}
      {ks : List String} :
      (k, w) ∈ entries → Addr w ks u → Addr (.jobj entries) (k :: ks) u

mutual

/-- A well-formed decoded value: every object has pairwise distinct
keys, recursively — true of everything Python's `json.loads`
produces, since its objects are `dict`s. -/
def WFJ : JValue → Bool
  | .jobj entries => decide (entries.map Prod.fst).Nodup && WFJFields entries
  | .jarr vs => WFJElems vs
  | _ => true

/-- `WFJ` on every element of an array. -/
def WFJElems : List JValue → Bool
  | [] => true
  | v :: vs => WFJ v && WFJElems vs

/-- `WFJ` on every value of an entry list. -/
def WFJFields : List (String × JValue) → Bool
  | [] => true
  | (_, v) :: rest => WFJ v && WFJFields rest

end

/-- A value the walker treats as structured: a `dict` or a `list`. -/
def isCompositeJ : JValue → Bool
  | .jobj _ => true
  | .jarr _ => true
  | _ => false

/-- Render a key chain as the canonical path text, starting from a
given prefix (the walker accumulates exactly this way). -/
def renderFrom (path0 : String) : List String → String
  | [] => path0
  | k :: ks => renderFrom (path0 ++ jsonpath_key_segment k) ks

/-- Render a key chain from the record root `$`. -/
def renderPath (ks : List String) : String := renderFrom "$" ks

theorem WFJ_entry :
    ∀ (entries : List (String × JValue)) (k : String) (w : JValue),
      WFJFields entries = true → (k, w) ∈ entries → WFJ w = true := by
  intro entries
  induction entries with
  | nil => intro k w _ hm; cases hm
  | cons kv rest ih =>
    intro k w hwf hm
    obtain ⟨k0, v0⟩ := kv
    simp only [WFJFields, Bool.and_eq_true] at hwf
    rcases List.mem_cons.mp hm with heq | hm
    · cases heq; exact hwf.1
    · exact ih k w hwf.2 hm

theorem key_unique :
    ∀ (entries : List (String × JValue)) (k : String) (w w' : JValue),
      (entries.map Prod.fst).Nodup → (k, w) ∈ entries → (k, w') ∈ entries → w = w' := by
  intro entries
  induction entries with
  | nil => intro k w w' _ hm; cases hm
  | cons kv rest ih =>
    intro k w w' hnd hm hm'
    obtain ⟨k0, v0⟩ := kv
    simp only [List.map_cons, List.nodup_cons] at hnd
    rcases List.mem_cons.mp hm with heq | hm2 <;>
      rcases List.mem_cons.mp hm' with heq' | hm2'
    · cases heq; cases heq'; rfl
    · cases heq
      exact absurd (List.mem_map_of_mem Prod.fst hm2') (by simpa using hnd.1)
    · cases heq'
      exact absurd (List.mem_map_of_mem Prod.fst hm2) (by simpa using hnd.1)
    · exact ih k w w' hnd.2 hm2 hm2'

theorem mem_jsonDiscEntries_of_entry :
    ∀ (entries : List (String × JValue)) (k : String) (w : JValue) (path0 x : String),
      (k, w) ∈ entries → isCompositeJ w = true →
      x ∈ jsonDisc w (path0 ++ jsonpath_key_segment k) →
      x ∈ jsonDiscEntries entries path0 := by
  intro entries
  induction entries with
  | nil => intro k w p0 x hm _ _; cases hm
  | cons kv rest ih =>
    intro k w p0 x hm hcomp hx
    obtain ⟨k0, v0⟩ := kv
    rcases List.mem_cons.mp hm with heq | hm2
    · cases heq
      cases w with
      | jobj es =>
        simp only [jsonDiscEntries]
        exact List.mem_cons_of_mem _ (List.mem_append_left _ hx)
      | jarr l =>
        simp only [jsonDiscEntries]
        exact List.mem_cons_of_mem _ (List.mem_append_left _ hx)
      | jnull => simp [isCompositeJ] at hcomp
      | jbool b => simp [isCompositeJ] at hcomp
      | jnum t => simp [isCompositeJ] at hcomp
      | jstr s => simp [isCompositeJ] at hcomp
    · have hx' := ih k w p0 x hm2 hcomp hx
      cases v0 with
      | jobj es =>
        simp only [jsonDiscEntries]
        exact List.mem_cons_of_mem _ (List.mem_append_right _ hx')
      | jarr l =>
        simp only [jsonDiscEntries]
        exact List.mem_cons_of_mem _ (List.mem_append_right _ hx')
      | jnull => simpa [jsonDiscEntries] using hx'
      | jbool b => simpa [jsonDiscEntries] using hx'
      | jnum t => simpa [jsonDiscEntries] using hx'
      | jstr s => simpa [jsonDiscEntries] using hx'

theorem addrArr_mem_jsonDisc {v : JValue} {ks : List String} {u0 : JValue}
    (ha : Addr v ks u0) :
    ∀ l : List JValue, u0 = .jarr l → ∀ path0 : String,
      renderFrom path0 ks ∈ jsonDisc v path0 := by
  induction ha with
  | root v =>
    intro l hu path0
    subst hu
    simp [jsonDisc, renderFrom]
  | key hmem hsub ih =>
    rename_i entries k0 w u1 ks0
    intro l hu path0
    have hcomp : isCompositeJ w = true := by
      cases hsub with
      | root _ => subst hu; rfl
      | key _ _ => rfl
    show renderFrom path0 (k0 :: ks0) ∈ jsonDisc (.jobj entries) path0
    simp only [jsonDisc, renderFrom]
    exact mem_jsonDiscEntries_of_entry entries k0 w path0 _ hmem hcomp
      (ih l hu (path0 ++ jsonpath_key_segment k0))

theorem addr_no_extension {v : JValue} {ks : List String} {u0 : JValue}
    (ha : Addr v ks u0) :
    ∀ l : List JValue, u0 = .jarr l → WFJ v = true →
    ∀ (k : String) (ext : List String) (u : JValue), ¬ Addr v (ks ++ k :: ext) u := by
  induction ha with
  | root v =>
    intro l hu _ k ext u hbad
    subst hu
    cases hbad
  | key hmem hsub ih =>
    rename_i entries k0 w u1 ks0
    intro l hu hwf k ext u hbad
    cases hbad with
    | key hmem' hsub' =>
      rename_i w'
      have hnd : (entries.map Prod.fst).Nodup := by
        simp only [WFJ, Bool.and_eq_true, decide_eq_true_eq] at hwf
        exact hwf.1
      have hWFf : WFJFields entries = true := by
        simp only [WFJ, Bool.and_eq_true] at hwf
        exact hwf.2
      have hww : w' = w := key_unique entries k0 w' w hnd hmem' hmem
      subst hww
      exact ih l hu (WFJ_entry entries k0 w' hWFf hmem) k ext u hsub'

mutual

/-- Every path the walker records for a value is the rendering of a
key chain addressing some location in that value. -/
theorem mem_disc_addr : ∀ (v : JValue) (path0 p : String),
    p ∈ scalarDisc v path0 ∨ p ∈ jsonDisc v path0 →
    ∃ (ks : List String) (u : JValue), Addr v ks u ∧ p = renderFrom path0 ks
  | .jnull, path0, p, h => by
    rcases h with h | h
    · simp only [scalarDisc, List.mem_singleton] at h
      exact ⟨[], .jnull, Addr.root _, by simp [renderFrom, h]⟩
    · simp [jsonDisc] at h
  | .jbool b, path0, p, h => by
    rcases h with h | h
    · simp only [scalarDisc, List.mem_singleton] at h
      exact ⟨[], .jbool b, Addr.root _, by simp [renderFrom, h]⟩
    · simp [jsonDisc] at h
  | .jnum t, path0, p, h => by
    rcases h with h | h
    · simp only [scalarDisc, List.mem_singleton] at h
      exact ⟨[], .jnum t, Addr.root _, by simp [renderFrom, h]⟩
    · simp [jsonDisc] at h
  | .jstr s, path0, p, h => by
    rcases h with h | h
    · simp only [scalarDisc, List.mem_singleton] at h
      exact ⟨[], .jstr s, Addr.root _, by simp [renderFrom, h]⟩
    · simp [jsonDisc] at h
  | .jarr l, path0, p, h => by
    rcases h with h | h
    · simp [scalarDisc] at h
    · simp only [jsonDisc, List.mem_singleton] at h
      exact ⟨[], .jarr l, Addr.root _, by simp [renderFrom, h]⟩
  | .jobj entries, path0, p, h => by
    have h' : p ∈ scalarDiscEntries entries path0 ∨ p ∈ jsonDiscEntries entries path0 := by
      simpa [scalarDisc, jsonDisc] using h
    obtain ⟨k, w, ks, u, hmem, haddr, hp⟩ := mem_discEntries_addr entries path0 p h'
    exact ⟨k :: ks, u, Addr.key hmem haddr, hp⟩

/-- Every path recorded while walking an entry list is the rendering of
a chain through one of the entries. -/
theorem mem_discEntries_addr : ∀ (entries : List (String × JValue)) (path0 p : String),
    p ∈ scalarDiscEntries entries path0 ∨ p ∈ jsonDiscEntries entries path0 →
    ∃ (k : String) (w : JValue) (ks : List String) (u : JValue),
      (k, w) ∈ entries ∧ Addr w ks u ∧ p = renderFrom path0 (k :: ks)
  | [], path0, p, h => by
    rcases h with h | h <;> simp [scalarDiscEntries, jsonDiscEntries] at h
  | (k0, .jobj es) :: rest, path0, p, h => by
    rcases h with h | h
    · simp only [scalarDiscEntries, List.mem_append] at h
      rcases h with h | h
      · obtain ⟨ks, u, haddr, hp⟩ := mem_disc_addr (.jobj es) _ p (Or.inl h)
        exact ⟨k0, .jobj es, ks, u, by simp, haddr, hp⟩
      · obtain ⟨k, w, ks, u, hmem, haddr, hp⟩ := mem_discEntries_addr rest path0 p (Or.inl h)
        exact ⟨k, w, ks, u, List.mem_cons_of_mem _ hmem, haddr, hp⟩
    · simp only [jsonDiscEntries, List.mem_cons, List.mem_append] at h
      rcases h with h | h | h
      · exact ⟨k0, .jobj es, [], .jobj es, by simp, Addr.root _, by simp [renderFrom, h]⟩
      · obtain ⟨ks, u, haddr, hp⟩ := mem_disc_addr (.jobj es) _ p (Or.inr h)
        exact ⟨k0, .jobj es, ks, u, by simp, haddr, hp⟩
      · obtain ⟨k, w, ks, u, hmem, haddr, hp⟩ := mem_discEntries_addr rest path0 p (Or.inr h)
        exact ⟨k, w, ks, u, List.mem_cons_of_mem _ hmem, haddr, hp⟩
  | (k0, .jarr le) :: rest, path0, p, h => by
    rcases h with h | h
    · simp only [scalarDiscEntries, List.mem_append] at h
      rcases h with h | h
      · simp [scalarDisc] at h
      · obtain ⟨k, w, ks, u, hmem, haddr, hp⟩ := mem_discEntries_addr rest path0 p (Or.inl h)
        exact ⟨k, w, ks, u, List.mem_cons_of_mem _ hmem, haddr, hp⟩
    · simp only [jsonDiscEntries, List.mem_cons, List.mem_append] at h
      rcases h with h | h | h
      · exact ⟨k0, .jarr le, [], .jarr le, by simp, Addr.root _, by simp [renderFrom, h]⟩
      · obtain ⟨ks, u, haddr, hp⟩ := mem_disc_addr (.jarr le) _ p (Or.inr h)
        exact ⟨k0, .jarr le, ks, u, by simp, haddr, hp⟩
      · obtain ⟨k, w, ks, u, hmem, haddr, hp⟩ := mem_discEntries_addr rest path0 p (Or.inr h)
        exact ⟨k, w, ks, u, List.mem_cons_of_mem _ hmem, haddr, hp⟩
  | (k0, .jnull) :: rest, path0, p, h => by
    rcases h with h | h
    · simp only [scalarDiscEntries, List.mem_cons] at h
      rcases h with h | h
      · exact ⟨k0, .jnull, [], .jnull, by simp, Addr.root _, by simp [renderFrom, h]⟩
      · obtain ⟨k, w, ks, u, hmem, haddr, hp⟩ := mem_discEntries_addr rest path0 p (Or.inl h)
        exact ⟨k, w, ks, u, List.mem_cons_of_mem _ hmem, haddr, hp⟩
    · simp only [jsonDiscEntries] at h
      obtain ⟨k, w, ks, u, hmem, haddr, hp⟩ := mem_discEntries_addr rest path0 p (Or.inr h)
      exact ⟨k, w, ks, u, List.mem_cons_of_mem _ hmem, haddr, hp⟩
  | (k0, .jbool b) :: rest, path0, p, h => by
    rcases h with h | h
    · simp only [scalarDiscEntries, List.mem_cons] at h
      rcases h with h | h
      · exact ⟨k0, .jbool b, [], .jbool b, by simp, Addr.root _, by simp [renderFrom, h]⟩
      · obtain ⟨k, w, ks, u, hmem, haddr, hp⟩ := mem_discEntries_addr rest path0 p (Or.inl h)
        exact ⟨k, w, ks, u, List.mem_cons_of_mem _ hmem, haddr, hp⟩
    · simp only [jsonDiscEntries] at h
      obtain ⟨k, w, ks, u, hmem, haddr, hp⟩ := mem_discEntries_addr rest path0 p (Or.inr h)
      exact ⟨k, w, ks, u, List.mem_cons_of_mem _ hmem, haddr, hp⟩
  | (k0, .jnum t) :: rest, path0, p, h => by
    rcases h with h | h
    · simp only [scalarDiscEntries, List.mem_cons] at h
      rcases h with h | h
      · exact ⟨k0, .jnum t, [], .jnum t, by simp, Addr.root _, by simp [renderFrom, h]⟩
      · obtain ⟨k, w, ks, u, hmem, haddr, hp⟩ := mem_discEntries_addr rest path0 p (Or.inl h)
        exact ⟨k, w, ks, u, List.mem_cons_of_mem _ hmem, haddr, hp⟩
    · simp only [jsonDiscEntries] at h
      obtain ⟨k, w, ks, u, hmem, haddr, hp⟩ := mem_discEntries_addr rest path0 p (Or.inr h)
      exact ⟨k, w, ks, u, List.mem_cons_of_mem _ hmem, haddr, hp⟩
  | (k0, .jstr s) :: rest, path0, p, h => by
    rcases h with h | h
    · simp only [scalarDiscEntries, List.mem_cons] at h
      rcases h with h | h
      · exact ⟨k0, .jstr s, [], .jstr s, by simp, Addr.root _, by simp [renderFrom, h]⟩
      · obtain ⟨k, w, ks, u, hmem, haddr, hp⟩ := mem_discEntries_addr rest path0 p (Or.inl h)
        exact ⟨k, w, ks, u, List.mem_cons_of_mem _ hmem, haddr, hp⟩
    · simp only [jsonDiscEntries] at h
      obtain ⟨k, w, ks, u, hmem, haddr, hp⟩ := mem_discEntries_addr rest path0 p (Or.inr h)
      exact ⟨k, w, ks, u, List.mem_cons_of_mem _ hmem, haddr, hp⟩

end

/-- C6, confirmed.  Paths here are key chains — the only accessor form
the path language defines (dot and quoted key access, no index syntax) —
so "a path at which an Array occurs" is a chain of object keys reaching
an array, and "a path extending P into an element" would have to extend
such a chain.  For every well-formed decoded value: (1) the rendering of
every chain addressing an array is in the walker's structured set; (2)
no strict extension of such a chain addresses anything at all — arrays
block key addressing, so no element location is even expressible — and
(3) every path in either of the walker's sets is the rendering of some
addressable chain; hence no recorded path reaches into an array. -/
theorem C6_array_opacity (v : JValue) (hwf : WFJ v = true) (ks : List String)
    (l : List JValue) (ha : Addr v ks (.jarr l)) :
    renderPath ks ∈ (walk_paths v "$" [] []).2 ∧
    (∀ (k : String) (ext : List String) (u : JValue), ¬ Addr v (ks ++ k :: ext) u) ∧
    (∀ p, p ∈ (walk_paths v "$" [] []).1 ∨ p ∈ (walk_paths v "$" [] []).2 →
      ∃ (ks' : List String) (u : JValue), Addr v ks' u ∧ p = renderPath ks') := by
  refine ⟨?_, ?_, ?_⟩
  · rw [walk_paths_eq]
    show renderPath ks ∈ (jsonDisc v "$").foldl odAdd []
    rw [mem_foldl_odAdd]
    exact Or.inr (addrArr_mem_jsonDisc ha l rfl "$")
  · exact addr_no_extension ha l rfl hwf
  · intro p hp
    rw [walk_paths_eq] at hp
    have hp' : p ∈ scalarDisc v "$" ∨ p ∈ jsonDisc v "$" := by
      rcases hp with hp | hp
      · rcases (mem_foldl_odAdd _ _ _).mp hp with h | h
        · cases h
        · exact Or.inl h
      · rcases (mem_foldl_odAdd _ _ _).mp hp with h | h
        · cases h
        · exact Or.inr h
    exact mem_disc_addr v "$" p hp'

/-- C6 witness: the record `{"d": [1]}` with the array at chain `["d"]`
— its rendering `$.d` is in the structured set. -/
theorem C6_array_opacity_witness :
    renderPath ["d"] ∈
      (walk_paths (.jobj [("d", .jarr [.jnum "1"])]) "$" [] []).2 :=
  (C6_array_opacity (.jobj [("d", .jarr [.jnum "1"])]) (by decide) ["d"]
    [.jnum "1"] (Addr.key (by simp) (Addr.root _))).1

/-! ## C1 groundwork: list and lexer lemmas -/

/-- The concatenation of the chunks a source's reads return — the full
text of the stream. -/
def flattenChunks : List (List Char) → List Char
  | [] => []
  | c :: cs => c ++ flattenChunks cs

theorem dropWhile_append_of_ne_nil (p : Char → Bool) (l m : List Char)
    (h : l.dropWhile p ≠ []) :
    (l ++ m).dropWhile p = l.dropWhile p ++ m := by
  induction l with
  | nil => simp at h
  | cons c rest ih =>
    simp only [List.cons_append, List.dropWhile]
    split
    · rename_i hc
      apply ih
      simpa [List.dropWhile, hc] using h
    · rfl

theorem takeWhile_append_of_ne_nil (p : Char → Bool) (l m : List Char)
    (h : l.dropWhile p ≠ []) :
    (l ++ m).takeWhile p = l.takeWhile p := by
  induction l with
  | nil => simp at h
  | cons c rest ih =>
    simp only [List.cons_append, List.takeWhile]
    split
    · rename_i hc
      exact congrArg (List.cons c) (ih (by simpa [List.dropWhile, hc] using h))
    · rfl

theorem startsWithL_head (c : Char) (s : List Char) (d : Char) (lit : List Char)
    (h : startsWithL (c :: s) (d :: lit) = true) : c = d := by
  simp only [startsWithL, List.length_cons, List.take_succ_cons, decide_eq_true_eq,
    List.cons.injEq] at h
  exact h.1

theorem startsWithL_length_le (s p : List Char) (h : startsWithL s p = true) :
    p.length ≤ s.length := by
  simp only [startsWithL, decide_eq_true_eq] at h
  have hlen := congrArg List.length h
  simp only [List.length_take] at hlen
  omega

theorem startsWithL_append (s p t : List Char) (h : startsWithL s p = true) :
    startsWithL (s ++ t) p = true := by
  have hlen := startsWithL_length_le s p h
  simp only [startsWithL, decide_eq_true_eq] at h ⊢
  rw [List.take_append_of_le_length hlen]
  exact h

theorem drop_append_of_startsWith (s p t : List Char) (h : startsWithL s p = true) :
    (s ++ t).drop p.length = s.drop p.length ++ t :=
  List.drop_append_of_le_length (startsWithL_length_le s p h)

/-- A value carried as a numeric token (including the `NaN`/`Infinity`
constants): the one kind whose parse can extend when the buffer grows. -/
def isNumLit : JValue → Bool
  | .jnum _ => true
  | _ => false

/-- A character that cannot extend a maximal `NUMBER_RE` match: not a
digit, not `.`, not an exponent marker.  When the character after a
scanned number is such a blocker, appending further input cannot change
the match. -/
def numBlocker (d : Char) : Bool :=
  !(d.isDigit || d = '.' || d = 'e' || d = 'E')

theorem jsonWs_numBlocker (d : Char) (h : jsonWsChar d = true) : numBlocker d = true := by
  simp only [jsonWsChar, Bool.or_eq_true, decide_eq_true_eq] at h
  rcases h with ((h | h) | h) | h <;> subst h <;> decide

theorem takeWhile_all_append (p : Char → Bool) (l m : List Char)
    (h : ∀ x ∈ l, p x = true) : (l ++ m).takeWhile p = l ++ m.takeWhile p := by
  induction l with
  | nil => simp
  | cons c rest ih =>
    simp only [List.cons_append, List.takeWhile, h c (by simp)]
    exact congrArg (List.cons c) (ih (fun x hx => h x (by simp [hx])))

theorem lexSign_minus (rest : List Char) : lexSign ('-' :: rest) = (['-'], rest) := rfl

theorem lexSign_other (c : Char) (rest : List Char) (h : c ≠ '-') :
    lexSign (c :: rest) = ([], c :: rest) := by
  unfold lexSign
  split
  · rename_i heq
    injection heq with h1 h2
    exact absurd h1 h
  · rfl

theorem lexSign_nil : lexSign [] = ([], []) := rfl

theorem lexSign_parts (s : List Char) : s = (lexSign s).1 ++ (lexSign s).2 := by
  cases s with
  | nil => rfl
  | cons c rest =>
    by_cases hc : c = '-'
    · subst hc; rfl
    · rw [lexSign_other c rest hc]; rfl

theorem lexIntPart_parts (s ip r : List Char) (h : lexIntPart s = some (ip, r)) :
    s = ip ++ r ∧ ip ≠ [] := by
  cases s with
  | nil => simp [lexIntPart] at h
  | cons c rest =>
    simp only [lexIntPart] at h
    split at h
    · rename_i hc
      simp only [Option.some.injEq, Prod.mk.injEq] at h
      obtain ⟨h1, h2⟩ := h
      subst h1 h2
      simp [hc]
    · split at h
      · simp only [Option.some.injEq, Prod.mk.injEq] at h
        obtain ⟨h1, h2⟩ := h
        subst h1 h2
        refine ⟨?_, by simp⟩
        simp [List.takeWhile_append_dropWhile]
      · simp at h

theorem lexIntPart_loc (s ip r t : List Char) (h : lexIntPart s = some (ip, r))
    (hr : r ≠ []) : lexIntPart (s ++ t) = some (ip, r ++ t) := by
  cases s with
  | nil => simp [lexIntPart] at h
  | cons c rest =>
    simp only [lexIntPart, List.cons_append] at h ⊢
    split at h
    · simp only [Option.some.injEq, Prod.mk.injEq] at h
      obtain ⟨h1, h2⟩ := h
      subst h1 h2
      rename_i hc
      rw [if_pos hc]
    · rename_i hc
      rw [if_neg hc]
      split at h
      · rename_i hdig
        simp only [Option.some.injEq, Prod.mk.injEq] at h
        obtain ⟨h1, h2⟩ := h
        subst h1 h2
        rw [if_pos hdig]
        have hne : rest.dropWhile Char.isDigit ≠ [] := hr
        rw [takeWhile_append_of_ne_nil _ _ _ hne, dropWhile_append_of_ne_nil _ _ _ hne]
      · simp at h

theorem lexFrac_nil : lexFrac [] = ([], []) := rfl

theorem lexFrac_dot (rest : List Char) :
    lexFrac ('.' :: rest) =
      if rest.takeWhile Char.isDigit = [] then ([], '.' :: rest)
      else ('.' :: rest.takeWhile Char.isDigit, rest.dropWhile Char.isDigit) := rfl

theorem lexFrac_not_dot (c : Char) (rest : List Char) (h : c ≠ '.') :
    lexFrac (c :: rest) = ([], c :: rest) := by
  unfold lexFrac
  split
  · rename_i heq
    injection heq with h1 h2
    exact absurd h1 h
  · rfl

theorem lexFrac_parts (s : List Char) : s = (lexFrac s).1 ++ (lexFrac s).2 := by
  cases s with
  | nil => rfl
  | cons c rest =>
    by_cases hc : c = '.'
    · subst hc
      rw [lexFrac_dot]
      split
      · rfl
      · simp [List.takeWhile_append_dropWhile]
    · rw [lexFrac_not_dot c rest hc]; rfl

theorem lexExp_nil : lexExp [] = ([], []) := rfl

theorem lexExp_not_e (c : Char) (rest : List Char) (h : (c = 'e' || c = 'E') = false) :
    lexExp (c :: rest) = ([], c :: rest) := by
  simp only [lexExp, h]
  rfl


theorem lexExp_e_one (c : Char) (hc : (c = 'e' || c = 'E') = true) :
    lexExp [c] = ([], [c]) := by
  simp only [lexExp, hc]
  rfl

theorem lexExp_e_sign (c d : Char) (rest2 : List Char)
    (hc : (c = 'e' || c = 'E') = true) (hd : (d = '+' || d = '-') = true) :
    lexExp (c :: d :: rest2) =
      if rest2.takeWhile Char.isDigit = [] then ([], c :: d :: rest2)
      else (c :: d :: rest2.takeWhile Char.isDigit, rest2.dropWhile Char.isDigit) := by
  simp only [lexExp, hc, hd]
  rfl

theorem lexExp_e_nosign (c d : Char) (rest2 : List Char)
    (hc : (c = 'e' || c = 'E') = true) (hd : (d = '+' || d = '-') = false) :
    lexExp (c :: d :: rest2) =
      if (d :: rest2).takeWhile Char.isDigit = [] then ([], c :: d :: rest2)
      else (c :: (d :: rest2).takeWhile Char.isDigit, (d :: rest2).dropWhile Char.isDigit) := by
  simp only [lexExp, hc, hd]
  rfl

theorem lexExp_parts (s : List Char) : s = (lexExp s).1 ++ (lexExp s).2 := by
  cases s with
  | nil => rfl
  | cons c rest =>
    by_cases hc : (c = 'e' || c = 'E') = true
    · cases rest with
      | nil => rw [lexExp_e_one c hc]; rfl
      | cons d rest2 =>
        by_cases hd : (d = '+' || d = '-') = true
        · rw [lexExp_e_sign c d rest2 hc hd]
          split
          · rfl
          · simp [List.takeWhile_append_dropWhile]
        · rw [lexExp_e_nosign c d rest2 hc (by simpa using hd)]
          split
          · rfl
          · simp [List.takeWhile_append_dropWhile]
    · rw [lexExp_not_e c rest (by simpa using hc)]; rfl

theorem lexNumber_parts (s tok r : List Char) (h : lexNumber s = some (tok, r)) :
    s = tok ++ r ∧ tok ≠ [] := by
  unfold lexNumber at h
  cases hip : lexIntPart (lexSign s).2 with
  | none => rw [hip] at h; simp at h
  | some ipr =>
    obtain ⟨ip, s2⟩ := ipr
    rw [hip] at h
    simp only [Option.some.injEq, Prod.mk.injEq] at h
    obtain ⟨h1, h2⟩ := h
    have hint := lexIntPart_parts _ _ _ hip
    have hs : s = (lexSign s).1 ++ (ip ++ ((lexFrac s2).1 ++
        ((lexExp (lexFrac s2).2).1 ++ (lexExp (lexFrac s2).2).2))) := by
      rw [← lexExp_parts, ← lexFrac_parts, ← hint.1, ← lexSign_parts]
    constructor
    · rw [← h1, ← h2]
      conv_lhs => rw [hs]
      simp [List.append_assoc]
    · intro hcontra
      rw [← h1] at hcontra
      have hlen := congrArg List.length hcontra
      simp only [List.length_append, List.length_nil] at hlen
      exact hint.2 (List.length_eq_zero.mp (by omega))

theorem eE_not_blocker (c : Char) (hce : (c = 'e' || c = 'E') = true) :
    numBlocker c = false := by
  simp only [Bool.or_eq_true, decide_eq_true_eq] at hce
  rcases hce with h | h <;> subst h <;> decide

theorem lexExp_loc (s3 t : List Char) (d : Char) (rest : List Char)
    (hex : (lexExp s3).2 = d :: rest) (hd : numBlocker d = true) :
    lexExp (s3 ++ t) = ((lexExp s3).1, (d :: rest) ++ t) := by
  cases s3 with
  | nil => simp [lexExp_nil] at hex
  | cons c rest3 =>
    by_cases hce : (c = 'e' || c = 'E') = true
    · cases rest3 with
      | nil =>
        rw [lexExp_e_one c hce] at hex
        simp only at hex
        injection hex with h1 h2
        subst h1
        rw [eE_not_blocker c hce] at hd
        cases hd
      | cons d2 rest4 =>
        by_cases hd2 : (d2 = '+' || d2 = '-') = true
        · rw [lexExp_e_sign c d2 rest4 hce hd2] at hex ⊢
          split at hex
          · simp only at hex
            injection hex with h1 h2
            rw [← h1] at hd
            rw [eE_not_blocker c hce] at hd
            cases hd
          · rename_i hds
            simp only at hex
            have hne : rest4.dropWhile Char.isDigit ≠ [] := by rw [hex]; simp
            show lexExp (c :: d2 :: (rest4 ++ t)) = _
            rw [lexExp_e_sign c d2 (rest4 ++ t) hce hd2]
            rw [takeWhile_append_of_ne_nil _ _ _ hne]
            rw [if_neg hds]
            rw [dropWhile_append_of_ne_nil _ _ _ hne, hex]
            rw [if_neg hds]
        · have hd2' : (d2 = '+' || d2 = '-') = false := by simpa using hd2
          rw [lexExp_e_nosign c d2 rest4 hce hd2'] at hex ⊢
          split at hex
          · simp only at hex
            injection hex with h1 h2
            rw [← h1] at hd
            rw [eE_not_blocker c hce] at hd
            cases hd
          · rename_i hds
            simp only at hex
            have hne : (d2 :: rest4).dropWhile Char.isDigit ≠ [] := by rw [hex]; simp
            show lexExp (c :: d2 :: (rest4 ++ t)) = _
            have : d2 :: rest4 ++ t = (d2 :: rest4) ++ t := rfl
            rw [lexExp_e_nosign c d2 (rest4 ++ t) hce hd2']
            rw [show d2 :: (rest4 ++ t) = (d2 :: rest4) ++ t from rfl]
            rw [takeWhile_append_of_ne_nil _ _ _ hne]
            rw [if_neg hds]
            rw [dropWhile_append_of_ne_nil _ _ _ hne, hex]
            rw [if_neg hds]
    · have hce' : (c = 'e' || c = 'E') = false := by simpa using hce
      rw [lexExp_not_e c rest3 hce'] at hex
      simp only at hex
      injection hex with h1 h2
      subst h1
      subst h2
      show lexExp (c :: (rest3 ++ t)) = _
      rw [lexExp_not_e c (rest3 ++ t) hce', lexExp_not_e c rest3 hce']
      rfl

theorem lexFrac_loc (s2 t : List Char) (d : Char) (rest : List Char)
    (hex : (lexExp (lexFrac s2).2).2 = d :: rest) (hd : numBlocker d = true) :
    lexFrac (s2 ++ t) = ((lexFrac s2).1, (lexFrac s2).2 ++ t) := by
  cases s2 with
  | nil => simp [lexFrac_nil, lexExp_nil] at hex
  | cons c rest2 =>
    by_cases hc : c = '.'
    · subst hc
      rw [lexFrac_dot] at hex ⊢
      split at hex
      · rename_i hds
        simp only at hex
        rw [lexExp_not_e '.' rest2 (by decide)] at hex
        simp only at hex
        injection hex with h1 h2
        rw [← h1] at hd
        cases hd
      · rename_i hds
        simp only at hex ⊢
        have hs3ne : (rest2.dropWhile Char.isDigit) ≠ [] := by
          intro hnil
          rw [hnil, lexExp_nil] at hex
          cases hex
        show lexFrac ('.' :: (rest2 ++ t)) = _
        rw [lexFrac_dot]
        rw [takeWhile_append_of_ne_nil _ _ _ hs3ne]
        rw [if_neg hds]
        rw [dropWhile_append_of_ne_nil _ _ _ hs3ne]
        rw [if_neg hds]
    · rw [lexFrac_not_dot c rest2 hc] at hex ⊢
      show lexFrac (c :: (rest2 ++ t)) = _
      rw [lexFrac_not_dot c (rest2 ++ t) hc]
      rfl

theorem lexNumber_loc (s t tok : List Char) (d : Char) (rest : List Char)
    (h : lexNumber s = some (tok, d :: rest)) (hd : numBlocker d = true) :
    lexNumber (s ++ t) = some (tok, (d :: rest) ++ t) := by
  cases s with
  | nil => simp [lexNumber, lexSign_nil, lexIntPart] at h
  | cons c s0 =>
    have hsign :
        lexSign ((c :: s0) ++ t) = ((lexSign (c :: s0)).1, (lexSign (c :: s0)).2 ++ t) := by
      by_cases hc : c = '-'
      · subst hc
        rw [List.cons_append, lexSign_minus, lexSign_minus]
      · rw [List.cons_append, lexSign_other c (s0 ++ t) hc, lexSign_other c s0 hc]
        rfl
    unfold lexNumber at h ⊢
    cases hip : lexIntPart (lexSign (c :: s0)).2 with
    | none => rw [hip] at h; simp at h
    | some ipr =>
      obtain ⟨ip, s2⟩ := ipr
      rw [hip] at h
      simp only [Option.some.injEq, Prod.mk.injEq] at h
      obtain ⟨h1, h2⟩ := h
      have hs2ne : s2 ≠ [] := by
        intro hnil
        rw [hnil] at h2
        rw [lexFrac_nil] at h2
        simp only [lexExp_nil] at h2
        cases h2
      rw [hsign]
      rw [lexIntPart_loc _ _ _ t hip hs2ne]
      simp only
      rw [lexFrac_loc s2 t d rest h2 hd]
      simp only
      rw [lexExp_loc _ t d rest h2 hd]
      simp only
      rw [h1]

theorem lexIntPart_none_head (c : Char) (rest : List Char) (hd : c.isDigit = false) :
    lexIntPart (c :: rest) = none := by
  simp only [lexIntPart]
  rw [if_neg (by intro h; subst h; exact absurd hd (by decide)), if_neg (by simp [hd])]

theorem lexNumber_none_head (c : Char) (rest : List Char) (hd : c.isDigit = false)
    (hm : c ≠ '-') : lexNumber (c :: rest) = none := by
  unfold lexNumber
  rw [lexSign_other c rest hm]
  simp only
  rw [lexIntPart_none_head c rest hd]

theorem lexNumber_none_minus (c2 : Char) (rest : List Char) (hd : c2.isDigit = false) :
    lexNumber ('-' :: c2 :: rest) = none := by
  unfold lexNumber
  rw [lexSign_minus]
  simp only
  rw [lexIntPart_none_head c2 rest hd]

theorem lexNumber_none_single_minus : lexNumber ['-'] = none := rfl

theorem dropWhile_head_not (p : Char → Bool) (l : List Char) (c : Char) (r : List Char)
    (h : l.dropWhile p = c :: r) : p c = false := by
  induction l with
  | nil => simp at h
  | cons x xs ih =>
    simp only [List.dropWhile] at h
    by_cases hx : p x
    · rw [hx] at h
      exact ih h
    · rw [Bool.of_not_eq_true hx] at h
      injection h with h1 _
      rw [← h1]
      exact Bool.of_not_eq_true hx

theorem dropWhile_eq_nil_all (p : Char → Bool) (l : List Char)
    (h : l.dropWhile p = []) : ∀ x ∈ l, p x = true := by
  induction l with
  | nil => intro x hx; simp at hx
  | cons c cs ih =>
    intro x hx
    simp only [List.dropWhile] at h
    by_cases hc : p c
    · rw [hc] at h
      rcases List.mem_cons.mp hx with h1 | h1
      · rw [h1]; exact hc
      · exact ih h x h1
    · rw [Bool.of_not_eq_true hc] at h
      simp at h

theorem skipWs_append (s t : List Char) (c : Char) (r : List Char)
    (h : skipWs s = c :: r) : skipWs (s ++ t) = c :: (r ++ t) := by
  unfold skipWs at h ⊢
  rw [dropWhile_append_of_ne_nil jsonWsChar s t (by rw [h]; simp), h]
  rfl

theorem dropWhile_sub (p q : Char → Bool) (hpq : ∀ c, q c = true → p c = true) :
    ∀ l : List Char, (l.dropWhile q).dropWhile p = l.dropWhile p := by
  intro l
  induction l with
  | nil => rfl
  | cons c cs ih =>
    by_cases hc : q c
    · have hp := hpq c hc
      simp only [List.dropWhile, hc, hp]
      exact ih
    · simp only [List.dropWhile, Bool.of_not_eq_true hc]

theorem ws_sep (c : Char) (h : jsonWsChar c = true) : sepChar c = true := by
  simp only [jsonWsChar, Bool.or_eq_true, decide_eq_true_eq] at h
  rcases h with ((h | h) | h) | h <;> subst h <;> decide

theorem ws_strip (c : Char) (h : jsonWsChar c = true) : pyStripChar c = true := by
  simp [pyStripChar, h]

theorem dropWhile_sep_skipWs (s : List Char) :
    (skipWs s).dropWhile sepChar = s.dropWhile sepChar :=
  dropWhile_sub sepChar jsonWsChar ws_sep s

theorem sepChar_isDigit (c : Char) (h : sepChar c = true) : c.isDigit = false := by
  simp only [sepChar, Bool.or_eq_true, decide_eq_true_eq] at h
  rcases h with (((h | h) | h) | h) | h <;> subst h <;> decide

theorem isDigit_ne (c x : Char) (h : c.isDigit = true) (hx : x.isDigit = false) : c ≠ x := by
  intro he
  rw [he, hx] at h
  exact Bool.false_ne_true h

theorem startsWithL_cons (c : Char) (s : List Char) (d : Char) (p : List Char) :
    startsWithL (c :: s) (d :: p) = true ↔ c = d ∧ startsWithL s p = true := by
  simp [startsWithL, List.take_succ_cons]

theorem startsWithL_cons_ne (c : Char) (s : List Char) (d : Char) (p : List Char)
    (h : c ≠ d) : startsWithL (c :: s) (d :: p) = false := by
  rw [Bool.eq_false_iff]
  intro hc
  exact h ((startsWithL_cons c s d p).mp hc).1

theorem lexNumber_some_head (c : Char) (rest tok r : List Char)
    (h : lexNumber (c :: rest) = some (tok, r)) : c = '-' ∨ c.isDigit = true := by
  by_cases hc : c = '-'
  · exact Or.inl hc
  · right
    unfold lexNumber at h
    rw [lexSign_other c rest hc] at h
    simp only at h
    cases hip : lexIntPart (c :: rest) with
    | none => rw [hip] at h; simp at h
    | some pr =>
      by_contra hd
      rw [lexIntPart_none_head c rest (Bool.of_not_eq_true hd)] at hip
      exact absurd hip (by simp)

theorem scanStringF_nil_not_ok (f : Nat) (cs r : List Char) :
    scanStringF f [] ≠ .ok (cs, r) := by
  cases f <;> simp [scanStringF]

theorem scanStringF_bs_not_ok (f : Nat) (cs r : List Char) :
    scanStringF f ['\\'] ≠ .ok (cs, r) := by
  cases f with
  | zero => simp [scanStringF]
  | succ f =>
    simp only [scanStringF]
    simp

theorem uSecond_pair_append (l t : List Char) (u : Nat) (r : List Char)
    (h : uSecond l = .pair u r) : uSecond (l ++ t) = .pair u (r ++ t) := by
  unfold uSecond at h
  split at h
  · rename_i a b c d rest
    cases hha : hexVal a with
    | none => rw [hha] at h; simp at h
    | some ha =>
      rw [hha] at h
      cases hhb : hexVal b with
      | none => rw [hhb] at h; simp at h
      | some vb =>
        rw [hhb] at h
        cases hhc : hexVal c with
        | none => rw [hhc] at h; simp at h
        | some vc =>
          rw [hhc] at h
          cases hhd : hexVal d with
          | none => rw [hhd] at h; simp at h
          | some vd =>
            rw [hhd] at h
            simp only at h
            injection h with h1 h2
            subst h1
            subst h2
            simp only [List.cons_append]
            simp only [uSecond]
            rw [hha, hhb, hhc, hhd]
  · simp at h
  · simp at h

theorem uSecond_bs_u (r2 : List Char) : uSecond ('\\' :: 'u' :: r2) ≠ .noEscape := by
  match r2 with
  | [] => simp [uSecond]
  | [a] => simp [uSecond]
  | [a, b] => simp [uSecond]
  | [a, b, c] => simp [uSecond]
  | a :: b :: c :: d :: rest =>
    unfold uSecond
    cases hha : hexVal a <;> cases hhb : hexVal b <;> cases hhc : hexVal c <;>
      cases hhd : hexVal d <;> simp [hha, hhb, hhc, hhd]

theorem uSecond_noEscape_append (l t : List Char) (h : uSecond l = .noEscape)
    (hne : l ≠ []) (hnb : l ≠ ['\\']) : uSecond (l ++ t) = .noEscape := by
  cases l with
  | nil => exact absurd rfl hne
  | cons c r =>
    by_cases hc : c = '\\'
    · subst hc
      cases r with
      | nil => exact absurd rfl hnb
      | cons e r2 =>
        by_cases he : e = 'u'
        · subst he
          exact absurd h (uSecond_bs_u r2)
        · simp only [List.cons_append]
          unfold uSecond
          split
          · rename_i heq
            injection heq with h1 h2
            injection h2 with h2 _
            exact absurd h2 he
          · rename_i heq
            injection heq with h1 h2
            injection h2 with h2 _
            exact absurd h2 he
          · rfl
    · simp only [List.cons_append]
      unfold uSecond
      split
      · rename_i heq
        injection heq with h1 _
        exact absurd h1 hc
      · rename_i heq
        injection heq with h1 _
        exact absurd h1 hc
      · rfl

theorem scanStringF_agree : ∀ (f g : Nat) (s : List Char),
    s.length < f → s.length < g → scanStringF f s = scanStringF g s
  | 0, _, _, h1, _ => absurd h1 (Nat.not_lt_zero _)
  | _ + 1, 0, _, _, h2 => absurd h2 (Nat.not_lt_zero _)
  | _ + 1, _ + 1, [], _, _ => rfl
  | f + 1, g + 1, c :: rest, h1, h2 => by
    have h1' : rest.length < f := by simp only [List.length_cons] at h1; omega
    have h2' : rest.length < g := by simp only [List.length_cons] at h2; omega
    simp only [scanStringF]
    by_cases hq : c = '"'
    · simp only [if_pos hq]
    · simp only [if_neg hq]
      by_cases hb : c = '\\'
      · simp only [if_pos hb]
        cases rest with
        | nil => rfl
        | cons e rest2 =>
          by_cases hu : e = 'u'
          · simp only [if_pos hu]
            cases rest2 with
            | nil => rfl
            | cons a rest3 =>
            cases rest3 with
            | nil => rfl
            | cons b rest4 =>
            cases rest4 with
            | nil => rfl
            | cons c2 rest5 =>
            cases rest5 with
            | nil => rfl
            | cons d rest6 =>
              dsimp only
              have h6f : rest6.length < f := by
                simp only [List.length_cons] at h1'; omega
              have h6g : rest6.length < g := by
                simp only [List.length_cons] at h2'; omega
              cases hha : hexVal a with
              | none => rfl
              | some va =>
              cases hhb : hexVal b with
              | none => rfl
              | some vb =>
              cases hhc : hexVal c2 with
              | none => rfl
              | some vc =>
              cases hhd : hexVal d with
              | none => rfl
              | some vd =>
              dsimp only
              split
              · cases hus : uSecond rest6 with
                | pair u2 rest7 =>
                  have h7 := uSecond_pair_length rest6 u2 rest7 hus
                  have h7f : rest7.length < f := by omega
                  have h7g : rest7.length < g := by omega
                  dsimp only
                  split
                  · rw [scanStringF_agree f g rest7 h7f h7g]
                  · rw [scanStringF_agree f g rest6 h6f h6g]
                | badHex => rfl
                | noEscape =>
                  dsimp only
                  rw [scanStringF_agree f g rest6 h6f h6g]
              · rw [scanStringF_agree f g rest6 h6f h6g]
          · simp only [if_neg hu]
            have h2f : rest2.length < f := by
              simp only [List.length_cons] at h1'; omega
            have h2g : rest2.length < g := by
              simp only [List.length_cons] at h2'; omega
            cases hbt : backslashTable e with
            | none => rfl
            | some ch =>
              rw [scanStringF_agree f g rest2 h2f h2g]
      · simp only [if_neg hb]
        by_cases hct : c.toNat < 0x20
        · simp only [if_pos hct]
        · simp only [if_neg hct]
          rw [scanStringF_agree f g rest h1' h2']

theorem scanStringF_okUp : ∀ (f : Nat) (s cs r : List Char),
    scanStringF f s = .ok (cs, r) → scanStringF (f + 1) s = .ok (cs, r)
  | 0, s, cs, r, h => absurd h (by simp [scanStringF])
  | f + 1, [], cs, r, h => absurd h (by simp [scanStringF])
  | f + 1, c :: rest, cs, r, h => by
    simp only [scanStringF] at h ⊢
    by_cases hq : c = '"'
    · simp only [if_pos hq] at h ⊢
      exact h
    · simp only [if_neg hq] at h ⊢
      by_cases hb : c = '\\'
      · simp only [if_pos hb] at h ⊢
        cases rest with
        | nil => simp at h
        | cons e rest2 =>
          by_cases hu : e = 'u'
          · simp only [if_pos hu] at h ⊢
            cases rest2 with
            | nil => simp at h
            | cons a rest3 =>
            cases rest3 with
            | nil => simp at h
            | cons b rest4 =>
            cases rest4 with
            | nil => simp at h
            | cons c2 rest5 =>
            cases rest5 with
            | nil => simp at h
            | cons d rest6 =>
              dsimp only at h ⊢
              cases hha : hexVal a with
              | none => rw [hha] at h; simp at h
              | some va =>
              rw [hha] at h
              cases hhb : hexVal b with
              | none => rw [hhb] at h; simp at h
              | some vb =>
              rw [hhb] at h
              cases hhc : hexVal c2 with
              | none => rw [hhc] at h; simp at h
              | some vc =>
              rw [hhc] at h
              cases hhd : hexVal d with
              | none => rw [hhd] at h; simp at h
              | some vd =>
              rw [hhd] at h
              dsimp only at h ⊢
              split at h
              · rename_i hsur
                simp only [if_pos hsur]
                cases hus : uSecond rest6 with
                | pair u2 rest7 =>
                  rw [hus] at h
                  dsimp only at h ⊢
                  split at h
                  · rename_i hlow
                    simp only [if_pos hlow]
                    cases hsf : scanStringF f rest7 with
                    | error err => rw [hsf] at h; simp at h
                    | ok pr =>
                      obtain ⟨cs1, r1⟩ := pr
                      rw [hsf] at h
                      rw [scanStringF_okUp f rest7 cs1 r1 hsf]
                      exact h
                  · rename_i hlow
                    simp only [if_neg hlow]
                    cases hsf : scanStringF f rest6 with
                    | error err => rw [hsf] at h; simp at h
                    | ok pr =>
                      obtain ⟨cs1, r1⟩ := pr
                      rw [hsf] at h
                      rw [scanStringF_okUp f rest6 cs1 r1 hsf]
                      exact h
                | badHex =>
                  rw [hus] at h
                  simp at h
                | noEscape =>
                  rw [hus] at h
                  dsimp only at h ⊢
                  cases hsf : scanStringF f rest6 with
                  | error err => rw [hsf] at h; simp at h
                  | ok pr =>
                    obtain ⟨cs1, r1⟩ := pr
                    rw [hsf] at h
                    rw [scanStringF_okUp f rest6 cs1 r1 hsf]
                    exact h
              · rename_i hsur
                simp only [if_neg hsur]
                cases hsf : scanStringF f rest6 with
                | error err => rw [hsf] at h; simp at h
                | ok pr =>
                  obtain ⟨cs1, r1⟩ := pr
                  rw [hsf] at h
                  rw [scanStringF_okUp f rest6 cs1 r1 hsf]
                  exact h
          · simp only [if_neg hu] at h ⊢
            cases hbt : backslashTable e with
            | none => rw [hbt] at h; simp at h
            | some ch =>
              rw [hbt] at h
              dsimp only at h ⊢
              cases hsf : scanStringF f rest2 with
              | error err => rw [hsf] at h; simp at h
              | ok pr =>
                obtain ⟨cs1, r1⟩ := pr
                rw [hsf] at h
                rw [scanStringF_okUp f rest2 cs1 r1 hsf]
                exact h
      · simp only [if_neg hb] at h ⊢
        by_cases hct : c.toNat < 0x20
        · simp only [if_pos hct] at h
          simp at h
        · simp only [if_neg hct] at h ⊢
          cases hsf : scanStringF f rest with
          | error err => rw [hsf] at h; simp at h
          | ok pr =>
            obtain ⟨cs1, r1⟩ := pr
            rw [hsf] at h
            rw [scanStringF_okUp f rest cs1 r1 hsf]
            exact h

theorem scanStringF_comb : ∀ (f : Nat) (s cs r : List Char),
    scanStringF f s = .ok (cs, r) →
    r.length < s.length ∧ ∀ t, scanStringF f (s ++ t) = .ok (cs, r ++ t)
  | 0, s, cs, r, h => absurd h (by simp [scanStringF])
  | f + 1, [], cs, r, h => absurd h (by simp [scanStringF])
  | f + 1, c :: rest, cs, r, h => by
    simp only [scanStringF] at h
    by_cases hq : c = '"'
    · simp only [if_pos hq] at h
      simp only [Except.ok.injEq, Prod.mk.injEq] at h
      obtain ⟨hcs, hr⟩ := h
      subst hcs
      subst hr
      refine ⟨by simp, fun t => ?_⟩
      simp only [List.cons_append, List.append_eq, scanStringF, if_pos hq]
    · simp only [if_neg hq] at h
      by_cases hb : c = '\\'
      · simp only [if_pos hb] at h
        cases rest with
        | nil => simp at h
        | cons e rest2 =>
          by_cases hu : e = 'u'
          · simp only [if_pos hu] at h
            cases rest2 with
            | nil => simp at h
            | cons a rest3 =>
            cases rest3 with
            | nil => simp at h
            | cons b rest4 =>
            cases rest4 with
            | nil => simp at h
            | cons c2 rest5 =>
            cases rest5 with
            | nil => simp at h
            | cons d rest6 =>
              dsimp only at h
              cases hha : hexVal a with
              | none => rw [hha] at h; simp at h
              | some va =>
              rw [hha] at h
              cases hhb : hexVal b with
              | none => rw [hhb] at h; simp at h
              | some vb =>
              rw [hhb] at h
              cases hhc : hexVal c2 with
              | none => rw [hhc] at h; simp at h
              | some vc =>
              rw [hhc] at h
              cases hhd : hexVal d with
              | none => rw [hhd] at h; simp at h
              | some vd =>
              rw [hhd] at h
              dsimp only at h
              split at h
              · rename_i hsur
                cases hus : uSecond rest6 with
                | pair u2 rest7 =>
                  have h7 := uSecond_pair_length rest6 u2 rest7 hus
                  rw [hus] at h
                  dsimp only at h
                  split at h
                  · rename_i hlow
                    cases hsf : scanStringF f rest7 with
                    | error err => rw [hsf] at h; simp at h
                    | ok pr =>
                      obtain ⟨cs1, r1⟩ := pr
                      rw [hsf] at h
                      simp only [Except.ok.injEq, Prod.mk.injEq] at h
                      obtain ⟨hcs, hr⟩ := h
                      subst hcs
                      subst hr
                      obtain ⟨ihs, ihl⟩ := scanStringF_comb f rest7 cs1 r1 hsf
                      refine ⟨by simp; omega, fun t => ?_⟩
                      simp only [List.cons_append, List.append_eq, scanStringF, if_pos hq, if_neg hq,
                        if_pos hb, if_pos hu]
                      try dsimp only
                      rw [hha, hhb, hhc, hhd]
                      try dsimp only
                      rw [if_pos hsur]
                      rw [uSecond_pair_append rest6 t u2 rest7 hus]
                      try dsimp only
                      rw [if_pos hlow]
                      rw [ihl t]
                  · rename_i hlow
                    cases hsf : scanStringF f rest6 with
                    | error err => rw [hsf] at h; simp at h
                    | ok pr =>
                      obtain ⟨cs1, r1⟩ := pr
                      rw [hsf] at h
                      simp only [Except.ok.injEq, Prod.mk.injEq] at h
                      obtain ⟨hcs, hr⟩ := h
                      subst hcs
                      subst hr
                      obtain ⟨ihs, ihl⟩ := scanStringF_comb f rest6 cs1 r1 hsf
                      refine ⟨by simp; omega, fun t => ?_⟩
                      simp only [List.cons_append, List.append_eq, scanStringF, if_neg hq,
                        if_pos hb, if_pos hu]
                      try dsimp only
                      rw [hha, hhb, hhc, hhd]
                      try dsimp only
                      rw [if_pos hsur]
                      rw [uSecond_pair_append rest6 t u2 rest7 hus]
                      try dsimp only
                      rw [if_neg hlow]
                      rw [ihl t]
                | badHex =>
                  rw [hus] at h
                  simp at h
                | noEscape =>
                  rw [hus] at h
                  dsimp only at h
                  cases hsf : scanStringF f rest6 with
                  | error err => rw [hsf] at h; simp at h
                  | ok pr =>
                    obtain ⟨cs1, r1⟩ := pr
                    rw [hsf] at h
                    simp only [Except.ok.injEq, Prod.mk.injEq] at h
                    obtain ⟨hcs, hr⟩ := h
                    subst hcs
                    subst hr
                    obtain ⟨ihs, ihl⟩ := scanStringF_comb f rest6 cs1 r1 hsf
                    have hne : rest6 ≠ [] := by
                      intro hnil
                      rw [hnil] at hsf
                      exact scanStringF_nil_not_ok f cs1 r1 hsf
                    have hnb : rest6 ≠ ['\\'] := by
                      intro hnil
                      rw [hnil] at hsf
                      exact scanStringF_bs_not_ok f cs1 r1 hsf
                    refine ⟨by simp; omega, fun t => ?_⟩
                    simp only [List.cons_append, List.append_eq, scanStringF, if_neg hq,
                      if_pos hb, if_pos hu]
                    try dsimp only
                    rw [hha, hhb, hhc, hhd]
                    try dsimp only
                    rw [if_pos hsur]
                    rw [uSecond_noEscape_append rest6 t hus hne hnb]
                    try dsimp only
                    rw [ihl t]
              · rename_i hsur
                cases hsf : scanStringF f rest6 with
                | error err => rw [hsf] at h; simp at h
                | ok pr =>
                  obtain ⟨cs1, r1⟩ := pr
                  rw [hsf] at h
                  simp only [Except.ok.injEq, Prod.mk.injEq] at h
                  obtain ⟨hcs, hr⟩ := h
                  subst hcs
                  subst hr
                  obtain ⟨ihs, ihl⟩ := scanStringF_comb f rest6 cs1 r1 hsf
                  refine ⟨by simp; omega, fun t => ?_⟩
                  simp only [List.cons_append, List.append_eq, scanStringF, if_neg hq,
                    if_pos hb, if_pos hu]
                  try dsimp only
                  rw [hha, hhb, hhc, hhd]
                  try dsimp only
                  rw [if_neg hsur]
                  rw [ihl t]
          · simp only [if_neg hu] at h
            cases hbt : backslashTable e with
            | none => rw [hbt] at h; simp at h
            | some ch =>
              rw [hbt] at h
              dsimp only at h
              cases hsf : scanStringF f rest2 with
              | error err => rw [hsf] at h; simp at h
              | ok pr =>
                obtain ⟨cs1, r1⟩ := pr
                rw [hsf] at h
                simp only [Except.ok.injEq, Prod.mk.injEq] at h
                obtain ⟨hcs, hr⟩ := h
                subst hcs
                subst hr
                obtain ⟨ihs, ihl⟩ := scanStringF_comb f rest2 cs1 r1 hsf
                refine ⟨by simp; omega, fun t => ?_⟩
                simp only [List.cons_append, List.append_eq, scanStringF, if_neg hq,
                  if_pos hb, if_neg hu]
                try dsimp only
                rw [hbt]
                try dsimp only
                rw [ihl t]
      · simp only [if_neg hb] at h
        by_cases hct : c.toNat < 0x20
        · simp only [if_pos hct] at h
          simp at h
        · simp only [if_neg hct] at h
          cases hsf : scanStringF f rest with
          | error err => rw [hsf] at h; simp at h
          | ok pr =>
            obtain ⟨cs1, r1⟩ := pr
            rw [hsf] at h
            simp only [Except.ok.injEq, Prod.mk.injEq] at h
            obtain ⟨hcs, hr⟩ := h
            subst hcs
            subst hr
            obtain ⟨ihs, ihl⟩ := scanStringF_comb f rest cs1 r1 hsf
            refine ⟨by simp; omega, fun t => ?_⟩
            simp only [List.cons_append, List.append_eq, scanStringF, if_neg hq, if_neg hb, if_neg hct]
            rw [ihl t]

theorem scanOnceF_nil_not_ok (f : Nat) (v : JValue) (r : List Char) :
    scanOnceF f [] ≠ .ok (v, r) := by
  cases f <;> simp [scanOnceF]

theorem parseElems_nil_not_ok (f : Nat) (acc : List JValue) (v : JValue) (r : List Char) :
    parseElems f [] acc ≠ .ok (v, r) := by
  cases f with
  | zero => simp [parseElems]
  | succ f =>
    simp only [parseElems]
    cases hvo : scanOnceF f [] with
    | error err => simp
    | ok pr => exact absurd hvo (scanOnceF_nil_not_ok f pr.1 pr.2)

/-- The character after a scanned value, when the following
whitespace-skip reveals a delimiter, blocks any number extension:
either the value is followed directly by the delimiter, or by a
whitespace character, and both are `numBlocker`s. -/
theorem locOK_of_skipWs (s5 : List Char) (c : Char) (q : List Char)
    (h : skipWs s5 = c :: q) (hc : numBlocker c = true) :
    ∃ d q2, s5 = d :: q2 ∧ numBlocker d = true := by
  cases s5 with
  | nil => simp [skipWs] at h
  | cons d q2 =>
    by_cases hd : jsonWsChar d
    · exact ⟨d, q2, rfl, jsonWs_numBlocker d hd⟩
    · refine ⟨d, q2, rfl, ?_⟩
      unfold skipWs at h
      rw [List.dropWhile_cons] at h
      rw [if_neg (by simp [hd])] at h
      injection h with h1 _
      rw [h1]
      exact hc

mutual

theorem scanOnceF_comb : ∀ (f : Nat) (s : List Char) (v : JValue) (r : List Char),
    scanOnceF f s = .ok (v, r) →
    r.length < s.length ∧
      ((isNumLit v = false ∨ ∃ d q, r = d :: q ∧ numBlocker d = true) →
        ∀ t, scanOnceF f (s ++ t) = .ok (v, r ++ t))
  | 0, s, v, r, h => absurd h (by simp [scanOnceF])
  | f + 1, [], v, r, h => absurd h (by simp [scanOnceF])
  | f + 1, c :: rest, v, r, h => by
    simp only [scanOnceF] at h
    by_cases hq : c = '"'
    · simp only [if_pos hq] at h
      cases hks : scanStringF f rest with
      | error err => rw [hks] at h; simp at h
      | ok pr =>
        obtain ⟨cs1, r1⟩ := pr
        rw [hks] at h
        dsimp only at h
        simp only [Except.ok.injEq, Prod.mk.injEq] at h
        obtain ⟨hv, hr⟩ := h
        subst hv
        subst hr
        obtain ⟨ihs, ihl⟩ := scanStringF_comb f rest cs1 r1 hks
        refine ⟨by simp only [List.length_cons]; omega, fun _ t => ?_⟩
        simp only [List.cons_append, List.append_eq, scanOnceF, if_pos hq]
        rw [ihl t]
    · simp only [if_neg hq] at h
      by_cases hob : c = '{'
      · simp only [if_pos hob] at h
        obtain ⟨ihs, ihl⟩ := parseObjBody_comb f rest v r h
        refine ⟨by simp only [List.length_cons]; omega, fun _ t => ?_⟩
        simp only [List.cons_append, List.append_eq, scanOnceF, if_neg hq, if_pos hob]
        exact ihl t
      · simp only [if_neg hob] at h
        by_cases har : c = '['
        · simp only [if_pos har] at h
          obtain ⟨ihs, ihl⟩ := parseArrBody_comb f rest v r h
          refine ⟨by simp only [List.length_cons]; omega, fun _ t => ?_⟩
          simp only [List.cons_append, List.append_eq, scanOnceF, if_neg hq, if_neg hob,
            if_pos har]
          exact ihl t
        · simp only [if_neg har] at h
          by_cases hnul : startsWithL (c :: rest) ('n' :: 'u' :: 'l' :: 'l' :: []) = true
          · simp only [if_pos hnul] at h
            simp only [Except.ok.injEq, Prod.mk.injEq] at h
            obtain ⟨hv, hr⟩ := h
            subst hv
            subst hr
            have hc : c = 'n' := startsWithL_head c rest 'n' _ hnul
            refine ⟨by simp only [List.length_drop, List.length_cons]; omega, fun _ t => ?_⟩
            have hnul' : startsWithL ((c :: rest) ++ t) ('n' :: 'u' :: 'l' :: 'l' :: []) = true :=
              startsWithL_append _ _ t hnul
            have hdrop : ((c :: rest) ++ t).drop 4 = (c :: rest).drop 4 ++ t :=
              drop_append_of_startsWith (c :: rest) ('n' :: 'u' :: 'l' :: 'l' :: []) t hnul
            simp only [List.cons_append] at hnul' hdrop
            simp only [List.cons_append, List.append_eq, scanOnceF, if_neg hq, if_neg hob,
              if_neg har, if_pos hnul']
            rw [hdrop]
          · simp only [if_neg hnul] at h
            by_cases htru : startsWithL (c :: rest) ('t' :: 'r' :: 'u' :: 'e' :: []) = true
            · simp only [if_pos htru] at h
              simp only [Except.ok.injEq, Prod.mk.injEq] at h
              obtain ⟨hv, hr⟩ := h
              subst hv
              subst hr
              have hc : c = 't' := startsWithL_head c rest 't' _ htru
              refine ⟨by simp only [List.length_drop, List.length_cons]; omega, fun _ t => ?_⟩
              have htru' : startsWithL ((c :: rest) ++ t) ('t' :: 'r' :: 'u' :: 'e' :: []) = true :=
                startsWithL_append _ _ t htru
              have hdrop : ((c :: rest) ++ t).drop 4 = (c :: rest).drop 4 ++ t :=
                drop_append_of_startsWith (c :: rest) ('t' :: 'r' :: 'u' :: 'e' :: []) t htru
              simp only [List.cons_append] at htru' hdrop
              have hnulF : ¬ startsWithL (c :: (rest ++ t)) ('n' :: 'u' :: 'l' :: 'l' :: []) = true := by
                rw [startsWithL_cons_ne c (rest ++ t) 'n' _ (by rw [hc]; decide)]
                simp
              simp only [List.cons_append, List.append_eq, scanOnceF, if_neg hq, if_neg hob,
                if_neg har, if_neg hnulF, if_pos htru']
              rw [hdrop]
            · simp only [if_neg htru] at h
              by_cases hfls : startsWithL (c :: rest) ('f' :: 'a' :: 'l' :: 's' :: 'e' :: []) = true
              · simp only [if_pos hfls] at h
                simp only [Except.ok.injEq, Prod.mk.injEq] at h
                obtain ⟨hv, hr⟩ := h
                subst hv
                subst hr
                have hc : c = 'f' := startsWithL_head c rest 'f' _ hfls
                refine ⟨by simp only [List.length_drop, List.length_cons]; omega, fun _ t => ?_⟩
                have hfls' : startsWithL ((c :: rest) ++ t) ('f' :: 'a' :: 'l' :: 's' :: 'e' :: []) = true :=
                  startsWithL_append _ _ t hfls
                have hdrop : ((c :: rest) ++ t).drop 5 = (c :: rest).drop 5 ++ t :=
                  drop_append_of_startsWith (c :: rest) ('f' :: 'a' :: 'l' :: 's' :: 'e' :: []) t hfls
                simp only [List.cons_append] at hfls' hdrop
                have hnulF : ¬ startsWithL (c :: (rest ++ t)) ('n' :: 'u' :: 'l' :: 'l' :: []) = true := by
                  rw [startsWithL_cons_ne c (rest ++ t) 'n' _ (by rw [hc]; decide)]
                  simp
                have htruF : ¬ startsWithL (c :: (rest ++ t)) ('t' :: 'r' :: 'u' :: 'e' :: []) = true := by
                  rw [startsWithL_cons_ne c (rest ++ t) 't' _ (by rw [hc]; decide)]
                  simp
                simp only [List.cons_append, List.append_eq, scanOnceF, if_neg hq, if_neg hob,
                  if_neg har, if_neg hnulF, if_neg htruF, if_pos hfls']
                rw [hdrop]
              · simp only [if_neg hfls] at h
                cases hlex : lexNumber (c :: rest) with
                | some pr =>
                  obtain ⟨tok, r1⟩ := pr
                  rw [hlex] at h
                  dsimp only at h
                  simp only [Except.ok.injEq, Prod.mk.injEq] at h
                  obtain ⟨hv, hr⟩ := h
                  subst hv
                  subst hr
                  obtain ⟨hparts, htok⟩ := lexNumber_parts (c :: rest) tok r1 hlex
                  have hlen : (c :: rest).length = tok.length + r1.length := by
                    rw [hparts, List.length_append]
                  have htl : 0 < tok.length := List.length_pos.mpr htok
                  refine ⟨by omega, fun hloc t => ?_⟩
                  rcases hloc with hnn | ⟨d, q, hdq, hbl⟩
                  · simp [isNumLit] at hnn
                  · subst hdq
                    have hlex' := lexNumber_loc (c :: rest) t tok d q hlex hbl
                    have hhd := lexNumber_some_head c rest tok (d :: q) hlex
                    have hn : c ≠ 'n' := by
                      rcases hhd with h1 | h1
                      · rw [h1]; decide
                      · exact isDigit_ne c 'n' h1 (by decide)
                    have ht : c ≠ 't' := by
                      rcases hhd with h1 | h1
                      · rw [h1]; decide
                      · exact isDigit_ne c 't' h1 (by decide)
                    have hf : c ≠ 'f' := by
                      rcases hhd with h1 | h1
                      · rw [h1]; decide
                      · exact isDigit_ne c 'f' h1 (by decide)
                    have hnulF : ¬ startsWithL (c :: (rest ++ t)) ('n' :: 'u' :: 'l' :: 'l' :: []) = true := by
                      rw [startsWithL_cons_ne c (rest ++ t) 'n' _ hn]
                      simp
                    have htruF : ¬ startsWithL (c :: (rest ++ t)) ('t' :: 'r' :: 'u' :: 'e' :: []) = true := by
                      rw [startsWithL_cons_ne c (rest ++ t) 't' _ ht]
                      simp
                    have hflsF : ¬ startsWithL (c :: (rest ++ t)) ('f' :: 'a' :: 'l' :: 's' :: 'e' :: []) = true := by
                      rw [startsWithL_cons_ne c (rest ++ t) 'f' _ hf]
                      simp
                    simp only [List.cons_append] at hlex'
                    simp only [List.cons_append, List.append_eq, scanOnceF, if_neg hq, if_neg hob,
                      if_neg har, if_neg hnulF, if_neg htruF, if_neg hflsF, hlex']
                | none =>
                  rw [hlex] at h
                  dsimp only at h
                  by_cases hnan : startsWithL (c :: rest) ('N' :: 'a' :: 'N' :: []) = true
                  · simp only [if_pos hnan] at h
                    simp only [Except.ok.injEq, Prod.mk.injEq] at h
                    obtain ⟨hv, hr⟩ := h
                    subst hv
                    subst hr
                    have hc : c = 'N' := startsWithL_head c rest 'N' _ hnan
                    refine ⟨by simp only [List.length_drop, List.length_cons]; omega, fun _ t => ?_⟩
                    have hnan' : startsWithL ((c :: rest) ++ t) ('N' :: 'a' :: 'N' :: []) = true :=
                      startsWithL_append _ _ t hnan
                    have hdrop : ((c :: rest) ++ t).drop 3 = (c :: rest).drop 3 ++ t :=
                      drop_append_of_startsWith (c :: rest) ('N' :: 'a' :: 'N' :: []) t hnan
                    simp only [List.cons_append] at hnan' hdrop
                    have hlexA : lexNumber (c :: (rest ++ t)) = none :=
                      lexNumber_none_head c (rest ++ t) (by rw [hc]; decide) (by rw [hc]; decide)
                    have hnulF : ¬ startsWithL (c :: (rest ++ t)) ('n' :: 'u' :: 'l' :: 'l' :: []) = true := by
                      rw [startsWithL_cons_ne c (rest ++ t) 'n' _ (by rw [hc]; decide)]
                      simp
                    have htruF : ¬ startsWithL (c :: (rest ++ t)) ('t' :: 'r' :: 'u' :: 'e' :: []) = true := by
                      rw [startsWithL_cons_ne c (rest ++ t) 't' _ (by rw [hc]; decide)]
                      simp
                    have hflsF : ¬ startsWithL (c :: (rest ++ t)) ('f' :: 'a' :: 'l' :: 's' :: 'e' :: []) = true := by
                      rw [startsWithL_cons_ne c (rest ++ t) 'f' _ (by rw [hc]; decide)]
                      simp
                    simp only [List.cons_append, List.append_eq, scanOnceF, if_neg hq, if_neg hob,
                      if_neg har, if_neg hnulF, if_neg htruF, if_neg hflsF, hlexA, if_pos hnan']
                    rw [hdrop]
                  · simp only [if_neg hnan] at h
                    by_cases hinf : startsWithL (c :: rest)
                        ('I' :: 'n' :: 'f' :: 'i' :: 'n' :: 'i' :: 't' :: 'y' :: []) = true
                    · simp only [if_pos hinf] at h
                      simp only [Except.ok.injEq, Prod.mk.injEq] at h
                      obtain ⟨hv, hr⟩ := h
                      subst hv
                      subst hr
                      have hc : c = 'I' := startsWithL_head c rest 'I' _ hinf
                      refine ⟨by simp only [List.length_drop, List.length_cons]; omega, fun _ t => ?_⟩
                      have hinf' : startsWithL ((c :: rest) ++ t)
                          ('I' :: 'n' :: 'f' :: 'i' :: 'n' :: 'i' :: 't' :: 'y' :: []) = true :=
                        startsWithL_append _ _ t hinf
                      have hdrop : ((c :: rest) ++ t).drop 8 = (c :: rest).drop 8 ++ t :=
                        drop_append_of_startsWith (c :: rest)
                          ('I' :: 'n' :: 'f' :: 'i' :: 'n' :: 'i' :: 't' :: 'y' :: []) t hinf
                      simp only [List.cons_append] at hinf' hdrop
                      have hlexA : lexNumber (c :: (rest ++ t)) = none :=
                        lexNumber_none_head c (rest ++ t) (by rw [hc]; decide) (by rw [hc]; decide)
                      have hnulF : ¬ startsWithL (c :: (rest ++ t)) ('n' :: 'u' :: 'l' :: 'l' :: []) = true := by
                        rw [startsWithL_cons_ne c (rest ++ t) 'n' _ (by rw [hc]; decide)]
                        simp
                      have htruF : ¬ startsWithL (c :: (rest ++ t)) ('t' :: 'r' :: 'u' :: 'e' :: []) = true := by
                        rw [startsWithL_cons_ne c (rest ++ t) 't' _ (by rw [hc]; decide)]
                        simp
                      have hflsF : ¬ startsWithL (c :: (rest ++ t)) ('f' :: 'a' :: 'l' :: 's' :: 'e' :: []) = true := by
                        rw [startsWithL_cons_ne c (rest ++ t) 'f' _ (by rw [hc]; decide)]
                        simp
                      have hnanF : ¬ startsWithL (c :: (rest ++ t)) ('N' :: 'a' :: 'N' :: []) = true := by
                        rw [startsWithL_cons_ne c (rest ++ t) 'N' _ (by rw [hc]; decide)]
                        simp
                      simp only [List.cons_append, List.append_eq, scanOnceF, if_neg hq, if_neg hob,
                        if_neg har, if_neg hnulF, if_neg htruF, if_neg hflsF, hlexA, if_neg hnanF,
                        if_pos hinf']
                      rw [hdrop]
                    · simp only [if_neg hinf] at h
                      by_cases hminf : startsWithL (c :: rest)
                          ('-' :: 'I' :: 'n' :: 'f' :: 'i' :: 'n' :: 'i' :: 't' :: 'y' :: []) = true
                      · simp only [if_pos hminf] at h
                        simp only [Except.ok.injEq, Prod.mk.injEq] at h
                        obtain ⟨hv, hr⟩ := h
                        subst hv
                        subst hr
                        have hc : c = '-' := startsWithL_head c rest '-' _ hminf
                        have hrest := ((startsWithL_cons c rest '-' _).mp hminf).2
                        refine ⟨by simp only [List.length_drop, List.length_cons]; omega, fun _ t => ?_⟩
                        have hminf' : startsWithL ((c :: rest) ++ t)
                            ('-' :: 'I' :: 'n' :: 'f' :: 'i' :: 'n' :: 'i' :: 't' :: 'y' :: []) = true :=
                          startsWithL_append _ _ t hminf
                        have hdrop : ((c :: rest) ++ t).drop 9 = (c :: rest).drop 9 ++ t :=
                          drop_append_of_startsWith (c :: rest)
                            ('-' :: 'I' :: 'n' :: 'f' :: 'i' :: 'n' :: 'i' :: 't' :: 'y' :: []) t hminf
                        simp only [List.cons_append] at hminf' hdrop
                        have hlexA : lexNumber (c :: (rest ++ t)) = none := by
                          cases rest with
                          | nil => simp [startsWithL] at hrest
                          | cons c2 rest2 =>
                            have hc2 : c2 = 'I' := startsWithL_head c2 rest2 'I' _ hrest
                            rw [hc]
                            simp only [List.cons_append]
                            exact lexNumber_none_minus c2 (rest2 ++ t) (by rw [hc2]; decide)
                        have hnulF : ¬ startsWithL (c :: (rest ++ t)) ('n' :: 'u' :: 'l' :: 'l' :: []) = true := by
                          rw [startsWithL_cons_ne c (rest ++ t) 'n' _ (by rw [hc]; decide)]
                          simp
                        have htruF : ¬ startsWithL (c :: (rest ++ t)) ('t' :: 'r' :: 'u' :: 'e' :: []) = true := by
                          rw [startsWithL_cons_ne c (rest ++ t) 't' _ (by rw [hc]; decide)]
                          simp
                        have hflsF : ¬ startsWithL (c :: (rest ++ t)) ('f' :: 'a' :: 'l' :: 's' :: 'e' :: []) = true := by
                          rw [startsWithL_cons_ne c (rest ++ t) 'f' _ (by rw [hc]; decide)]
                          simp
                        have hnanF : ¬ startsWithL (c :: (rest ++ t)) ('N' :: 'a' :: 'N' :: []) = true := by
                          rw [startsWithL_cons_ne c (rest ++ t) 'N' _ (by rw [hc]; decide)]
                          simp
                        have hinfF : ¬ startsWithL (c :: (rest ++ t))
                            ('I' :: 'n' :: 'f' :: 'i' :: 'n' :: 'i' :: 't' :: 'y' :: []) = true := by
                          rw [startsWithL_cons_ne c (rest ++ t) 'I' _ (by rw [hc]; decide)]
                          simp
                        simp only [List.cons_append, List.append_eq, scanOnceF, if_neg hq, if_neg hob,
                          if_neg har, if_neg hnulF, if_neg htruF, if_neg hflsF, hlexA, if_neg hnanF,
                          if_neg hinfF, if_pos hminf']
                        rw [hdrop]
                      · simp only [if_neg hminf] at h
                        simp at h

theorem parseObjBody_comb : ∀ (f : Nat) (s : List Char) (v : JValue) (r : List Char),
    parseObjBody f s = .ok (v, r) →
    r.length < s.length ∧ ∀ t, parseObjBody f (s ++ t) = .ok (v, r ++ t)
  | 0, s, v, r, h => absurd h (by simp [parseObjBody])
  | f + 1, s, v, r, h => by
    simp only [parseObjBody] at h
    split at h
    · rename_i r0 heq
      simp only [Except.ok.injEq, Prod.mk.injEq] at h
      obtain ⟨hv, hr⟩ := h
      subst hv
      subst hr
      have hlen : (skipWs s).length ≤ s.length := dropWhile_length_le _ s
      rw [heq] at hlen
      simp only [List.length_cons] at hlen
      refine ⟨by omega, fun t => ?_⟩
      simp only [parseObjBody]
      rw [skipWs_append s t '}' r0 heq]
      exact rfl
    · rename_i r0 heq
      obtain ⟨ihs, ihl⟩ := parseMembers_comb f r0 [] v r h
      have hlen : (skipWs s).length ≤ s.length := dropWhile_length_le _ s
      rw [heq] at hlen
      simp only [List.length_cons] at hlen
      refine ⟨by omega, fun t => ?_⟩
      simp only [parseObjBody]
      rw [skipWs_append s t '"' r0 heq]
      exact ihl t
    · simp at h

theorem parseMembers_comb : ∀ (f : Nat) (s : List Char) (acc : List (String × JValue))
    (v : JValue) (r : List Char), parseMembers f s acc = .ok (v, r) →
    r.length < s.length ∧ ∀ t, parseMembers f (s ++ t) acc = .ok (v, r ++ t)
  | 0, s, acc, v, r, h => absurd h (by simp [parseMembers])
  | f + 1, s, acc, v, r, h => by
    simp only [parseMembers] at h
    cases hks : scanStringF f s with
    | error err => rw [hks] at h; simp at h
    | ok pr =>
      obtain ⟨kcs, s1⟩ := pr
      rw [hks] at h
      dsimp only at h
      obtain ⟨ihks, ihkl⟩ := scanStringF_comb f s kcs s1 hks
      have hl1 : (skipWs s1).length ≤ s1.length := dropWhile_length_le _ s1
      split at h
      · rename_i s3 heq1
        rw [heq1] at hl1
        simp only [List.length_cons] at hl1
        have hl3 : (skipWs s3).length ≤ s3.length := dropWhile_length_le _ s3
        cases hsw3 : skipWs s3 with
        | nil =>
          rw [hsw3] at h
          cases hvo : scanOnceF f [] with
          | error err => rw [hvo] at h; simp at h
          | ok pr2 => exact absurd hvo (scanOnceF_nil_not_ok f pr2.1 pr2.2)
        | cons c4 s4 =>
          rw [hsw3] at h hl3
          simp only [List.length_cons] at hl3
          cases hvo : scanOnceF f (c4 :: s4) with
          | error err => rw [hvo] at h; simp at h
          | ok pr2 =>
            obtain ⟨v1, s5⟩ := pr2
            rw [hvo] at h
            dsimp only at h
            obtain ⟨ihvs, ihvl⟩ := scanOnceF_comb f (c4 :: s4) v1 s5 hvo
            simp only [List.length_cons] at ihvs
            have hl5 : (skipWs s5).length ≤ s5.length := dropWhile_length_le _ s5
            split at h
            · rename_i r1 heq2
              rw [heq2] at hl5
              simp only [List.length_cons] at hl5
              simp only [Except.ok.injEq, Prod.mk.injEq] at h
              obtain ⟨hv, hr⟩ := h
              subst hv
              subst hr
              refine ⟨by omega, fun t => ?_⟩
              simp only [parseMembers]
              rw [ihkl t]
              try dsimp only
              rw [skipWs_append s1 t ':' s3 heq1]
              split
              · rename_i s3t heq1t
                injection heq1t with hcol hs3t
                subst hs3t
                rw [skipWs_append s3 t c4 s4 hsw3]
                have hvl := ihvl (Or.inr (locOK_of_skipWs s5 '}' r1 heq2 (by decide))) t
                simp only [List.cons_append] at hvl
                rw [hvl]
                try dsimp only
                rw [skipWs_append s5 t '}' r1 heq2]
                exact rfl
              · rename_i hy3 hne3
                exact (hne3 (s3 ++ t) rfl).elim
            · rename_i s7 heq2
              rw [heq2] at hl5
              simp only [List.length_cons] at hl5
              have hl7 : (skipWs s7).length ≤ s7.length := dropWhile_length_le _ s7
              split at h
              · rename_i s9 heq3
                rw [heq3] at hl7
                simp only [List.length_cons] at hl7
                obtain ⟨ihms, ihml⟩ :=
                  parseMembers_comb f s9 (acc ++ [(String.mk kcs, v1)]) v r h
                refine ⟨by omega, fun t => ?_⟩
                simp only [parseMembers]
                rw [ihkl t]
                try dsimp only
                rw [skipWs_append s1 t ':' s3 heq1]
                split
                · rename_i s3t heq1t
                  injection heq1t with hcol hs3t
                  subst hs3t
                  rw [skipWs_append s3 t c4 s4 hsw3]
                  have hvl := ihvl (Or.inr (locOK_of_skipWs s5 ',' s7 heq2 (by decide))) t
                  simp only [List.cons_append] at hvl
                  rw [hvl]
                  try dsimp only
                  rw [skipWs_append s5 t ',' s7 heq2]
                  split
                  · rename_i r1t heq2t
                    injection heq2t with hcc _
                    exact absurd hcc (by decide)
                  · rename_i s7t heq2t
                    injection heq2t with hcc hs7t
                    subst hs7t
                    rw [skipWs_append s7 t '"' s9 heq3]
                    split
                    · rename_i s9t heq3t
                      injection heq3t with hcc2 hs9t
                      subst hs9t
                      exact ihml t
                    · rename_i hy4 hne4
                      exact (hne4 (s9 ++ t) rfl).elim
                  · rename_i hy3a hne3a hne3b
                    exact (hne3b (s7 ++ t) rfl).elim
                · rename_i hy3 hne3
                  exact (hne3 (s3 ++ t) rfl).elim
              · simp at h
            · simp at h
      · simp at h

theorem parseArrBody_comb : ∀ (f : Nat) (s : List Char) (v : JValue) (r : List Char),
    parseArrBody f s = .ok (v, r) →
    r.length < s.length ∧ ∀ t, parseArrBody f (s ++ t) = .ok (v, r ++ t)
  | 0, s, v, r, h => absurd h (by simp [parseArrBody])
  | f + 1, s, v, r, h => by
    simp only [parseArrBody] at h
    split at h
    · rename_i r0 heq
      simp only [Except.ok.injEq, Prod.mk.injEq] at h
      obtain ⟨hv, hr⟩ := h
      subst hv
      subst hr
      have hlen : (skipWs s).length ≤ s.length := dropWhile_length_le _ s
      rw [heq] at hlen
      simp only [List.length_cons] at hlen
      refine ⟨by omega, fun t => ?_⟩
      simp only [parseArrBody]
      rw [skipWs_append s t ']' r0 heq]
      exact rfl
    · rename_i hy hne
      have hlen : (skipWs s).length ≤ s.length := dropWhile_length_le _ s
      cases hsw : skipWs s with
      | nil =>
        rw [hsw] at h
        exact absurd h (parseElems_nil_not_ok f [] v r)
      | cons c0 r0 =>
        rw [hsw] at h hlen
        simp only [List.length_cons] at hlen
        obtain ⟨ihs, ihl⟩ := parseElems_comb f (c0 :: r0) [] v r h
        simp only [List.length_cons] at ihs
        refine ⟨by omega, fun t => ?_⟩
        simp only [parseArrBody]
        split
        · rename_i r1 heq2
          rw [skipWs_append s t c0 r0 hsw] at heq2
          injection heq2 with hc0 _
          exact absurd (hsw.trans (by rw [hc0])) (fun hh => hne r0 hh)
        · rename_i hy2 hne2
          rw [skipWs_append s t c0 r0 hsw]
          have := ihl t
          simp only [List.cons_append] at this
          exact this

theorem parseElems_comb : ∀ (f : Nat) (s : List Char) (acc : List JValue)
    (v : JValue) (r : List Char), parseElems f s acc = .ok (v, r) →
    r.length < s.length ∧ ∀ t, parseElems f (s ++ t) acc = .ok (v, r ++ t)
  | 0, s, acc, v, r, h => absurd h (by simp [parseElems])
  | f + 1, s, acc, v, r, h => by
    simp only [parseElems] at h
    cases hvo : scanOnceF f s with
    | error err => rw [hvo] at h; simp at h
    | ok pr =>
      obtain ⟨v1, s1⟩ := pr
      rw [hvo] at h
      dsimp only at h
      obtain ⟨ihvs, ihvl⟩ := scanOnceF_comb f s v1 s1 hvo
      have hl1 : (skipWs s1).length ≤ s1.length := dropWhile_length_le _ s1
      split at h
      · rename_i r1 heq1
        rw [heq1] at hl1
        simp only [List.length_cons] at hl1
        simp only [Except.ok.injEq, Prod.mk.injEq] at h
        obtain ⟨hv, hr⟩ := h
        subst hv
        subst hr
        refine ⟨by omega, fun t => ?_⟩
        simp only [parseElems]
        have hvl := ihvl (Or.inr (locOK_of_skipWs s1 ']' r1 heq1 (by decide))) t
        rw [hvl]
        try dsimp only
        rw [skipWs_append s1 t ']' r1 heq1]
        exact rfl
      · rename_i s3 heq1
        rw [heq1] at hl1
        simp only [List.length_cons] at hl1
        have hl3 : (skipWs s3).length ≤ s3.length := dropWhile_length_le _ s3
        cases hsw3 : skipWs s3 with
        | nil =>
          rw [hsw3] at h
          exact absurd h (parseElems_nil_not_ok f (acc ++ [v1]) v r)
        | cons c4 s4 =>
          rw [hsw3] at h hl3
          simp only [List.length_cons] at hl3
          obtain ⟨ihes, ihel⟩ := parseElems_comb f (c4 :: s4) (acc ++ [v1]) v r h
          simp only [List.length_cons] at ihes
          refine ⟨by omega, fun t => ?_⟩
          simp only [parseElems]
          have hvl := ihvl (Or.inr (locOK_of_skipWs s1 ',' s3 heq1 (by decide))) t
          rw [hvl]
          try dsimp only
          rw [skipWs_append s1 t ',' s3 heq1]
          split
          · rename_i r1t heq1t
            injection heq1t with hcc _
            exact absurd hcc (by decide)
          · rename_i s3t heq1t
            injection heq1t with hcc hs3t
            subst hs3t
            rw [skipWs_append s3 t c4 s4 hsw3]
            have := ihel t
            simp only [List.cons_append] at this
            exact this
          · rename_i hy3a hne3a hne3b
            exact (hne3b (s3 ++ t) rfl).elim
      · simp at h

end


mutual

theorem scanOnceF_okUp : ∀ (f : Nat) (s : List Char) (v : JValue) (r : List Char),
    scanOnceF f s = .ok (v, r) → scanOnceF (f + 1) s = .ok (v, r)
  | 0, s, v, r, h => absurd h (by simp [scanOnceF])
  | f + 1, [], v, r, h => absurd h (by simp [scanOnceF])
  | f + 1, c :: rest, v, r, h => by
    simp only [scanOnceF] at h ⊢
    by_cases hq : c = '"'
    · simp only [if_pos hq] at h ⊢
      cases hks : scanStringF f rest with
      | error err => rw [hks] at h; simp at h
      | ok pr =>
        obtain ⟨cs1, r1⟩ := pr
        rw [hks] at h
        rw [scanStringF_okUp f rest cs1 r1 hks]
        exact h
    · simp only [if_neg hq] at h ⊢
      by_cases hob : c = '{'
      · simp only [if_pos hob] at h ⊢
        exact parseObjBody_okUp f rest v r h
      · simp only [if_neg hob] at h ⊢
        by_cases har : c = '['
        · simp only [if_pos har] at h ⊢
          exact parseArrBody_okUp f rest v r h
        · simp only [if_neg har] at h ⊢
          exact h

theorem parseObjBody_okUp : ∀ (f : Nat) (s : List Char) (v : JValue) (r : List Char),
    parseObjBody f s = .ok (v, r) → parseObjBody (f + 1) s = .ok (v, r)
  | 0, s, v, r, h => absurd h (by simp [parseObjBody])
  | f + 1, s, v, r, h => by
    simp only [parseObjBody] at h ⊢
    split at h
    · exact h
    · rename_i r0 heq
      exact parseMembers_okUp f r0 [] v r h
    · simp at h

theorem parseMembers_okUp : ∀ (f : Nat) (s : List Char) (acc : List (String × JValue))
    (v : JValue) (r : List Char),
    parseMembers f s acc = .ok (v, r) → parseMembers (f + 1) s acc = .ok (v, r)
  | 0, s, acc, v, r, h => absurd h (by simp [parseMembers])
  | f + 1, s, acc, v, r, h => by
    simp only [parseMembers] at h ⊢
    cases hks : scanStringF f s with
    | error err => rw [hks] at h; simp at h
    | ok pr =>
      obtain ⟨kcs, s1⟩ := pr
      rw [hks] at h
      rw [scanStringF_okUp f s kcs s1 hks]
      dsimp only at h ⊢
      split at h
      · rename_i s3 heq1
        cases hsw3 : skipWs s3 with
        | nil =>
          rw [hsw3] at h
          cases hvo : scanOnceF f [] with
          | error err => rw [hvo] at h; simp at h
          | ok pr2 => exact absurd hvo (scanOnceF_nil_not_ok f pr2.1 pr2.2)
        | cons c4 s4 =>
          rw [hsw3] at h
          cases hvo : scanOnceF f (c4 :: s4) with
          | error err => rw [hvo] at h; simp at h
          | ok pr2 =>
            obtain ⟨v1, s5⟩ := pr2
            rw [hvo] at h
            rw [scanOnceF_okUp f (c4 :: s4) v1 s5 hvo]
            dsimp only at h ⊢
            split at h
            · exact h
            · rename_i s7 heq2
              split at h
              · rename_i s9 heq3
                exact parseMembers_okUp f s9 (acc ++ [(String.mk kcs, v1)]) v r h
              · simp at h
            · simp at h
      · simp at h

theorem parseArrBody_okUp : ∀ (f : Nat) (s : List Char) (v : JValue) (r : List Char),
    parseArrBody f s = .ok (v, r) → parseArrBody (f + 1) s = .ok (v, r)
  | 0, s, v, r, h => absurd h (by simp [parseArrBody])
  | f + 1, s, v, r, h => by
    simp only [parseArrBody] at h ⊢
    split at h
    · exact h
    · exact parseElems_okUp f (skipWs s) [] v r h

theorem parseElems_okUp : ∀ (f : Nat) (s : List Char) (acc : List JValue)
    (v : JValue) (r : List Char),
    parseElems f s acc = .ok (v, r) → parseElems (f + 1) s acc = .ok (v, r)
  | 0, s, acc, v, r, h => absurd h (by simp [parseElems])
  | f + 1, s, acc, v, r, h => by
    simp only [parseElems] at h ⊢
    cases hvo : scanOnceF f s with
    | error err => rw [hvo] at h; simp at h
    | ok pr =>
      obtain ⟨v1, s1⟩ := pr
      rw [hvo] at h
      rw [scanOnceF_okUp f s v1 s1 hvo]
      dsimp only at h ⊢
      split at h
      · exact h
      · rename_i s3 heq1
        exact parseElems_okUp f (skipWs s3) (acc ++ [v1]) v r h
      · simp at h

end

mutual

theorem scanOnceF_agree : ∀ (f g : Nat) (s : List Char),
    3 * s.length < f → 3 * s.length < g → scanOnceF f s = scanOnceF g s
  | 0, _, s, h1, _ => absurd h1 (by omega)
  | _ + 1, 0, s, _, h2 => absurd h2 (by omega)
  | _ + 1, _ + 1, [], _, _ => rfl
  | f + 1, g + 1, c :: rest, h1, h2 => by
    have hrl : (c :: rest).length = rest.length + 1 := by simp
    simp only [scanOnceF]
    by_cases hq : c = '"'
    · simp only [if_pos hq]
      rw [scanStringF_agree f g rest (by omega) (by omega)]
    · simp only [if_neg hq]
      by_cases hob : c = '{'
      · simp only [if_pos hob]
        exact parseObjBody_agree f g rest (by omega) (by omega)
      · simp only [if_neg hob]
        by_cases har : c = '['
        · simp only [if_pos har]
          exact parseArrBody_agree f g rest (by omega) (by omega)
        · simp only [if_neg har]

theorem parseObjBody_agree : ∀ (f g : Nat) (s : List Char),
    3 * s.length + 2 < f → 3 * s.length + 2 < g → parseObjBody f s = parseObjBody g s
  | 0, _, s, h1, _ => absurd h1 (by omega)
  | _ + 1, 0, s, _, h2 => absurd h2 (by omega)
  | f + 1, g + 1, s, h1, h2 => by
    simp only [parseObjBody]
    split
    · rfl
    · rename_i r0 heq
      have hl : (skipWs s).length ≤ s.length := dropWhile_length_le _ s
      rw [heq] at hl
      simp only [List.length_cons] at hl
      exact parseMembers_agree f g r0 [] (by omega) (by omega)
    · rfl

theorem parseMembers_agree : ∀ (f g : Nat) (s : List Char) (acc : List (String × JValue)),
    3 * s.length + 3 < f → 3 * s.length + 3 < g →
    parseMembers f s acc = parseMembers g s acc
  | 0, _, s, _, h1, _ => absurd h1 (by omega)
  | _ + 1, 0, s, _, _, h2 => absurd h2 (by omega)
  | f + 1, g + 1, s, acc, h1, h2 => by
    simp only [parseMembers]
    rw [scanStringF_agree f g s (by omega) (by omega)]
    cases hks : scanStringF g s with
    | error err => rfl
    | ok pr =>
      obtain ⟨kcs, s1⟩ := pr
      dsimp only
      split
      · rename_i s3 heq1
        have hs1 : s1.length < s.length := (scanStringF_comb g s kcs s1 hks).1
        have hl1 : (skipWs s1).length ≤ s1.length := dropWhile_length_le _ s1
        rw [heq1] at hl1
        simp only [List.length_cons] at hl1
        have hl3 : (skipWs s3).length ≤ s3.length := dropWhile_length_le _ s3
        rw [scanOnceF_agree f g (skipWs s3) (by omega) (by omega)]
        cases hvo : scanOnceF g (skipWs s3) with
        | error err => rfl
        | ok pr2 =>
          obtain ⟨v1, s5⟩ := pr2
          dsimp only
          split
          · rfl
          · rename_i s7 heq2
            split
            · rename_i s9 heq3
              have hs5 : s5.length < (skipWs s3).length :=
                (scanOnceF_comb g (skipWs s3) v1 s5 hvo).1
              have hl5 : (skipWs s5).length ≤ s5.length := dropWhile_length_le _ s5
              rw [heq2] at hl5
              simp only [List.length_cons] at hl5
              have hl7 : (skipWs s7).length ≤ s7.length := dropWhile_length_le _ s7
              rw [heq3] at hl7
              simp only [List.length_cons] at hl7
              exact parseMembers_agree f g s9 (acc ++ [(String.mk kcs, v1)])
                (by omega) (by omega)
            · rfl
          · rfl
      · rfl

theorem parseArrBody_agree : ∀ (f g : Nat) (s : List Char),
    3 * s.length + 2 < f → 3 * s.length + 2 < g → parseArrBody f s = parseArrBody g s
  | 0, _, s, h1, _ => absurd h1 (by omega)
  | _ + 1, 0, s, _, h2 => absurd h2 (by omega)
  | f + 1, g + 1, s, h1, h2 => by
    simp only [parseArrBody]
    split
    · rfl
    · have hl : (skipWs s).length ≤ s.length := dropWhile_length_le _ s
      exact parseElems_agree f g (skipWs s) [] (by omega) (by omega)

theorem parseElems_agree : ∀ (f g : Nat) (s : List Char) (acc : List JValue),
    3 * s.length + 1 < f → 3 * s.length + 1 < g →
    parseElems f s acc = parseElems g s acc
  | 0, _, s, _, h1, _ => absurd h1 (by omega)
  | _ + 1, 0, s, _, _, h2 => absurd h2 (by omega)
  | f + 1, g + 1, s, acc, h1, h2 => by
    simp only [parseElems]
    rw [scanOnceF_agree f g s (by omega) (by omega)]
    cases hvo : scanOnceF g s with
    | error err => rfl
    | ok pr =>
      obtain ⟨v1, s1⟩ := pr
      dsimp only
      split
      · rfl
      · rename_i s3 heq1
        have hs1 : s1.length < s.length := (scanOnceF_comb g s v1 s1 hvo).1
        have hl1 : (skipWs s1).length ≤ s1.length := dropWhile_length_le _ s1
        rw [heq1] at hl1
        simp only [List.length_cons] at hl1
        have hl3 : (skipWs s3).length ≤ s3.length := dropWhile_length_le _ s3
        exact parseElems_agree f g (skipWs s3) (acc ++ [v1]) (by omega) (by omega)
      · rfl

end

theorem scanOnceF_ok_le (f g : Nat) (s : List Char) (v : JValue) (r : List Char)
    (hfg : f ≤ g) (h : scanOnceF f s = .ok (v, r)) : scanOnceF g s = .ok (v, r) := by
  induction hfg with
  | refl => exact h
  | step hlt ih => exact scanOnceF_okUp _ s v r ih

theorem scanOnceF_canon (f : Nat) (s : List Char) (v : JValue) (r : List Char)
    (h : scanOnceF f s = .ok (v, r)) : rawDecode s = .ok (v, r) := by
  unfold rawDecode
  rcases Nat.le_total f (3 * s.length + 4) with hle | hge
  · exact scanOnceF_ok_le f _ s v r hle h
  · rw [scanOnceF_agree (3 * s.length + 4) f s (by omega) (by omega), h]

theorem rawDecode_shrink (s : List Char) (v : JValue) (r : List Char)
    (h : rawDecode s = .ok (v, r)) : r.length < s.length := by
  unfold rawDecode at h
  exact (scanOnceF_comb _ s v r h).1

theorem rawDecode_loc (p t : List Char) (v : JValue) (r : List Char)
    (h : rawDecode p = .ok (v, r)) (hnn : isNumLit v = false) :
    rawDecode (p ++ t) = .ok (v, r ++ t) := by
  unfold rawDecode at h ⊢
  have h2 := scanOnceF_ok_le _ (3 * (p ++ t).length + 4) p v r
    (by simp only [List.length_append]; omega) h
  exact (scanOnceF_comb _ p v r h2).2 (Or.inl hnn) t

theorem rawDecode_nil_not_ok (v : JValue) (r : List Char) :
    rawDecode [] ≠ .ok (v, r) := by
  unfold rawDecode
  exact scanOnceF_nil_not_ok _ v r

mutual

theorem parseObjBody_shape : ∀ (f : Nat) (s : List Char) (v : JValue) (r : List Char),
    parseObjBody f s = .ok (v, r) → ∃ l, v = .jobj l
  | 0, s, v, r, h => absurd h (by simp [parseObjBody])
  | f + 1, s, v, r, h => by
    simp only [parseObjBody] at h
    split at h
    · simp only [Except.ok.injEq, Prod.mk.injEq] at h
      exact ⟨[], h.1.symm⟩
    · rename_i r0 heq
      exact parseMembers_shape f r0 [] v r h
    · simp at h

theorem parseMembers_shape : ∀ (f : Nat) (s : List Char) (acc : List (String × JValue))
    (v : JValue) (r : List Char),
    parseMembers f s acc = .ok (v, r) → ∃ l, v = .jobj l
  | 0, s, acc, v, r, h => absurd h (by simp [parseMembers])
  | f + 1, s, acc, v, r, h => by
    simp only [parseMembers] at h
    cases hks : scanStringF f s with
    | error err => rw [hks] at h; simp at h
    | ok pr =>
      obtain ⟨kcs, s1⟩ := pr
      rw [hks] at h
      dsimp only at h
      split at h
      · rename_i s3 heq1
        cases hvo : scanOnceF f (skipWs s3) with
        | error err => rw [hvo] at h; simp at h
        | ok pr2 =>
          obtain ⟨v1, s5⟩ := pr2
          rw [hvo] at h
          dsimp only at h
          split at h
          · simp only [Except.ok.injEq, Prod.mk.injEq] at h
            exact ⟨_, h.1.symm⟩
          · rename_i s7 heq2
            split at h
            · rename_i s9 heq3
              exact parseMembers_shape f s9 (acc ++ [(String.mk kcs, v1)]) v r h
            · simp at h
          · simp at h
      · simp at h

theorem parseArrBody_shape : ∀ (f : Nat) (s : List Char) (v : JValue) (r : List Char),
    parseArrBody f s = .ok (v, r) → ∃ l, v = .jarr l
  | 0, s, v, r, h => absurd h (by simp [parseArrBody])
  | f + 1, s, v, r, h => by
    simp only [parseArrBody] at h
    split at h
    · simp only [Except.ok.injEq, Prod.mk.injEq] at h
      exact ⟨[], h.1.symm⟩
    · exact parseElems_shape f (skipWs s) [] v r h

theorem parseElems_shape : ∀ (f : Nat) (s : List Char) (acc : List JValue)
    (v : JValue) (r : List Char),
    parseElems f s acc = .ok (v, r) → ∃ l, v = .jarr l
  | 0, s, acc, v, r, h => absurd h (by simp [parseElems])
  | f + 1, s, acc, v, r, h => by
    simp only [parseElems] at h
    cases hvo : scanOnceF f s with
    | error err => rw [hvo] at h; simp at h
    | ok pr =>
      obtain ⟨v1, s1⟩ := pr
      rw [hvo] at h
      dsimp only at h
      split at h
      · simp only [Except.ok.injEq, Prod.mk.injEq] at h
        exact ⟨_, h.1.symm⟩
      · rename_i s3 heq1
        exact parseElems_shape f (skipWs s3) (acc ++ [v1]) v r h
      · simp at h

end

theorem scanOnceF_headBad (f : Nat) (c : Char) (rest : List Char) (v : JValue) (r : List Char)
    (h : scanOnceF (f + 1) (c :: rest) = .ok (v, r))
    (h1 : c ≠ '"') (h2 : c ≠ '{') (h3 : c ≠ '[') (h4 : c ≠ 'n') (h5 : c ≠ 't') (h6 : c ≠ 'f')
    (h7 : c ≠ 'N') (h8 : c ≠ 'I') (h9 : c ≠ '-') (h10 : c.isDigit = false) : False := by
  simp only [scanOnceF] at h
  rw [if_neg h1, if_neg h2, if_neg h3] at h
  rw [if_neg (by rw [startsWithL_cons_ne c rest 'n' _ h4]; simp)] at h
  rw [if_neg (by rw [startsWithL_cons_ne c rest 't' _ h5]; simp)] at h
  rw [if_neg (by rw [startsWithL_cons_ne c rest 'f' _ h6]; simp)] at h
  rw [lexNumber_none_head c rest h10 h9] at h
  dsimp only at h
  rw [if_neg (by rw [startsWithL_cons_ne c rest 'N' _ h7]; simp)] at h
  rw [if_neg (by rw [startsWithL_cons_ne c rest 'I' _ h8]; simp)] at h
  rw [if_neg (by rw [startsWithL_cons_ne c rest '-' _ h9]; simp)] at h
  simp at h

theorem scanOnceF_ok_notSep (f : Nat) (c : Char) (rest : List Char) (v : JValue) (r : List Char)
    (h : scanOnceF f (c :: rest) = .ok (v, r)) : sepChar c = false := by
  cases f with
  | zero => simp [scanOnceF] at h
  | succ f =>
    by_contra hsep
    have hs : sepChar c = true := by revert hsep; cases sepChar c <;> simp
    simp only [sepChar, Bool.or_eq_true, decide_eq_true_eq] at hs
    rcases hs with (((hc | hc) | hc) | hc) | hc <;> subst hc <;>
      exact scanOnceF_headBad f _ rest v r h (by decide) (by decide) (by decide) (by decide)
        (by decide) (by decide) (by decide) (by decide) (by decide) (by decide)

theorem scanOnceF_litFail (f : Nat) (c : Char) (rest : List Char) (v : JValue) (r : List Char)
    (h : scanOnceF (f + 1) (c :: rest) = .ok (v, r))
    (h1 : c ≠ '"') (h2 : c ≠ '{') (h3 : c ≠ '[') (h9 : c ≠ '-') (h10 : c.isDigit = false)
    (h7 : c ≠ 'N') (h8 : c ≠ 'I') :
    (startsWithL (c :: rest) ('n' :: 'u' :: 'l' :: 'l' :: []) = true ∧ v = .jnull)
    ∨ (startsWithL (c :: rest) ('t' :: 'r' :: 'u' :: 'e' :: []) = true ∧ v = .jbool true)
    ∨ (startsWithL (c :: rest) ('f' :: 'a' :: 'l' :: 's' :: 'e' :: []) = true ∧
        v = .jbool false) := by
  simp only [scanOnceF] at h
  rw [if_neg h1, if_neg h2, if_neg h3] at h
  by_cases hnul : startsWithL (c :: rest) ('n' :: 'u' :: 'l' :: 'l' :: []) = true
  · rw [if_pos hnul] at h
    simp only [Except.ok.injEq, Prod.mk.injEq] at h
    exact Or.inl ⟨hnul, h.1.symm⟩
  · rw [if_neg hnul] at h
    by_cases htru : startsWithL (c :: rest) ('t' :: 'r' :: 'u' :: 'e' :: []) = true
    · rw [if_pos htru] at h
      simp only [Except.ok.injEq, Prod.mk.injEq] at h
      exact Or.inr (Or.inl ⟨htru, h.1.symm⟩)
    · rw [if_neg htru] at h
      by_cases hfls : startsWithL (c :: rest) ('f' :: 'a' :: 'l' :: 's' :: 'e' :: []) = true
      · rw [if_pos hfls] at h
        simp only [Except.ok.injEq, Prod.mk.injEq] at h
        exact Or.inr (Or.inr ⟨hfls, h.1.symm⟩)
      · rw [if_neg hfls] at h
        rw [lexNumber_none_head c rest h10 h9] at h
        dsimp only at h
        rw [if_neg (by rw [startsWithL_cons_ne c rest 'N' _ h7]; simp)] at h
        rw [if_neg (by rw [startsWithL_cons_ne c rest 'I' _ h8]; simp)] at h
        rw [if_neg (by rw [startsWithL_cons_ne c rest '-' _ h9]; simp)] at h
        simp at h

theorem scanOnceF_ok_head (f : Nat) (c : Char) (rest : List Char) (v : JValue) (r : List Char)
    (h : scanOnceF f (c :: rest) = .ok (v, r)) (hnn : isNumLit v = false) :
    c = '"' ∨ c = '{' ∨ c = '[' ∨ c = 'n' ∨ c = 't' ∨ c = 'f' := by
  cases f with
  | zero => simp [scanOnceF] at h
  | succ f =>
    simp only [scanOnceF] at h
    by_cases hq : c = '"'
    · exact Or.inl hq
    · rw [if_neg hq] at h
      by_cases hob : c = '{'
      · exact Or.inr (Or.inl hob)
      · rw [if_neg hob] at h
        by_cases har : c = '['
        · exact Or.inr (Or.inr (Or.inl har))
        · rw [if_neg har] at h
          by_cases hnul : startsWithL (c :: rest) ('n' :: 'u' :: 'l' :: 'l' :: []) = true
          · exact Or.inr (Or.inr (Or.inr (Or.inl (startsWithL_head c rest 'n' _ hnul))))
          · rw [if_neg hnul] at h
            by_cases htru : startsWithL (c :: rest) ('t' :: 'r' :: 'u' :: 'e' :: []) = true
            · exact Or.inr (Or.inr (Or.inr (Or.inr (Or.inl
                (startsWithL_head c rest 't' _ htru)))))
            · rw [if_neg htru] at h
              by_cases hfls : startsWithL (c :: rest)
                  ('f' :: 'a' :: 'l' :: 's' :: 'e' :: []) = true
              · exact Or.inr (Or.inr (Or.inr (Or.inr (Or.inr
                  (startsWithL_head c rest 'f' _ hfls)))))
              · rw [if_neg hfls] at h
                exfalso
                cases hlex : lexNumber (c :: rest) with
                | some pr =>
                  rw [hlex] at h
                  dsimp only at h
                  simp only [Except.ok.injEq, Prod.mk.injEq] at h
                  rw [← h.1] at hnn
                  simp [isNumLit] at hnn
                | none =>
                  rw [hlex] at h
                  dsimp only at h
                  by_cases hnan : startsWithL (c :: rest) ('N' :: 'a' :: 'N' :: []) = true
                  · rw [if_pos hnan] at h
                    simp only [Except.ok.injEq, Prod.mk.injEq] at h
                    rw [← h.1] at hnn
                    simp [isNumLit] at hnn
                  · rw [if_neg hnan] at h
                    by_cases hinf : startsWithL (c :: rest)
                        ('I' :: 'n' :: 'f' :: 'i' :: 'n' :: 'i' :: 't' :: 'y' :: []) = true
                    · rw [if_pos hinf] at h
                      simp only [Except.ok.injEq, Prod.mk.injEq] at h
                      rw [← h.1] at hnn
                      simp [isNumLit] at hnn
                    · rw [if_neg hinf] at h
                      by_cases hminf : startsWithL (c :: rest)
                          ('-' :: 'I' :: 'n' :: 'f' :: 'i' :: 'n' :: 'i' :: 't' :: 'y' :: []) = true
                      · rw [if_pos hminf] at h
                        simp only [Except.ok.injEq, Prod.mk.injEq] at h
                        rw [← h.1] at hnn
                        simp [isNumLit] at hnn
                      · rw [if_neg hminf] at h
                        simp at h

theorem scanOnceF_head_notNum (f : Nat) (c : Char) (rest : List Char) (v : JValue)
    (r : List Char) (h : scanOnceF f (c :: rest) = .ok (v, r))
    (hc : c = '"' ∨ c = '{' ∨ c = '[' ∨ c = 'n' ∨ c = 't' ∨ c = 'f') :
    isNumLit v = false := by
  cases f with
  | zero => simp [scanOnceF] at h
  | succ f =>
    rcases hc with hc | hc | hc | hc | hc | hc
    · subst hc
      simp only [scanOnceF, if_true] at h
      cases hks : scanStringF f rest with
      | error err => rw [hks] at h; simp at h
      | ok pr =>
        obtain ⟨cs1, r1⟩ := pr
        rw [hks] at h
        dsimp only at h
        simp only [Except.ok.injEq, Prod.mk.injEq] at h
        rw [← h.1]
        rfl
    · subst hc
      simp only [scanOnceF, if_true] at h
      obtain ⟨l, hl⟩ := parseObjBody_shape f rest v r h
      rw [hl]
      rfl
    · subst hc
      simp only [scanOnceF, if_true] at h
      obtain ⟨l, hl⟩ := parseArrBody_shape f rest v r h
      rw [hl]
      rfl
    · subst hc
      rcases scanOnceF_litFail f 'n' rest v r h (by decide) (by decide) (by decide)
          (by decide) (by decide) (by decide) (by decide) with ⟨_, hv⟩ | ⟨_, hv⟩ | ⟨_, hv⟩ <;>
        rw [hv] <;> rfl
    · subst hc
      rcases scanOnceF_litFail f 't' rest v r h (by decide) (by decide) (by decide)
          (by decide) (by decide) (by decide) (by decide) with ⟨_, hv⟩ | ⟨_, hv⟩ | ⟨_, hv⟩ <;>
        rw [hv] <;> rfl
    · subst hc
      rcases scanOnceF_litFail f 'f' rest v r h (by decide) (by decide) (by decide)
          (by decide) (by decide) (by decide) (by decide) with ⟨_, hv⟩ | ⟨_, hv⟩ | ⟨_, hv⟩ <;>
        rw [hv] <;> rfl

theorem scanOnceF_jarr_inv (f : Nat) (c : Char) (rest : List Char) (vs : List JValue)
    (r : List Char) (h : scanOnceF (f + 1) (c :: rest) = .ok (.jarr vs, r)) :
    c = '[' ∧ parseArrBody f rest = .ok (.jarr vs, r) := by
  simp only [scanOnceF] at h
  by_cases hq : c = '"'
  · rw [if_pos hq] at h
    cases hks : scanStringF f rest with
    | error err => rw [hks] at h; simp at h
    | ok pr =>
      obtain ⟨cs1, r1⟩ := pr
      rw [hks] at h
      dsimp only at h
      simp at h
  · rw [if_neg hq] at h
    by_cases hob : c = '{'
    · rw [if_pos hob] at h
      obtain ⟨l, hl⟩ := parseObjBody_shape f rest _ r h
      simp at hl
    · rw [if_neg hob] at h
      by_cases har : c = '['
      · rw [if_pos har] at h
        exact ⟨har, h⟩
      · rw [if_neg har] at h
        exfalso
        by_cases hnul : startsWithL (c :: rest) ('n' :: 'u' :: 'l' :: 'l' :: []) = true
        · rw [if_pos hnul] at h; simp at h
        · rw [if_neg hnul] at h
          by_cases htru : startsWithL (c :: rest) ('t' :: 'r' :: 'u' :: 'e' :: []) = true
          · rw [if_pos htru] at h; simp at h
          · rw [if_neg htru] at h
            by_cases hfls : startsWithL (c :: rest)
                ('f' :: 'a' :: 'l' :: 's' :: 'e' :: []) = true
            · rw [if_pos hfls] at h; simp at h
            · rw [if_neg hfls] at h
              cases hlex : lexNumber (c :: rest) with
              | some pr =>
                rw [hlex] at h
                dsimp only at h
                simp at h
              | none =>
                rw [hlex] at h
                dsimp only at h
                by_cases hnan : startsWithL (c :: rest) ('N' :: 'a' :: 'N' :: []) = true
                · rw [if_pos hnan] at h; simp at h
                · rw [if_neg hnan] at h
                  by_cases hinf : startsWithL (c :: rest)
                      ('I' :: 'n' :: 'f' :: 'i' :: 'n' :: 'i' :: 't' :: 'y' :: []) = true
                  · rw [if_pos hinf] at h; simp at h
                  · rw [if_neg hinf] at h
                    by_cases hminf : startsWithL (c :: rest)
                        ('-' :: 'I' :: 'n' :: 'f' :: 'i' :: 'n' :: 'i' :: 't' :: 'y' :: []) = true
                    · rw [if_pos hminf] at h; simp at h
                    · rw [if_neg hminf] at h; simp at h

/-- The element structure the streaming decoder's loop faces after the
opening `[`: skipping separator characters (`" \t\r\n,"`) from the
current position reveals either the closing `]` (with `rest` beyond it)
or the full text of the next element, which `raw_decode` accepts with
value `v` and remainder `s1`.  Both constructors depend on the position
only through `dropWhile sepChar`, which is exactly the normalization
the stream loop applies, so the property transfers between the
whole-buffer parse and the chunked loop. -/
inductive ElemsSpec : List Char → List JValue → List Char → Prop where
  | done : ∀ (σ rest : List Char), σ.dropWhile sepChar = ']' :: rest → ElemsSpec σ [] rest
  | step : ∀ (σ : List Char) (v : JValue) (s1 : List Char) (vs : List JValue)
      (rest : List Char), rawDecode (σ.dropWhile sepChar) = .ok (v, s1) →
      isNumLit v = false → ElemsSpec s1 vs rest → ElemsSpec σ (v :: vs) rest

theorem ElemsSpec_congr (σ σ' : List Char) (vs : List JValue) (rest : List Char)
    (hd : σ.dropWhile sepChar = σ'.dropWhile sepChar)
    (h : ElemsSpec σ' vs rest) : ElemsSpec σ vs rest := by
  cases h with
  | done _ _ hdone => exact .done σ rest (hd.trans hdone)
  | step _ v s1 vs' _ hdec hnn hspec =>
    exact .step σ v s1 vs' rest (by rw [hd]; exact hdec) hnn hspec

theorem dropWhile_sep_cons_skipWs (s1 s3 : List Char) (c : Char)
    (hsep : sepChar c = true) (h : skipWs s1 = c :: s3) :
    s1.dropWhile sepChar = (skipWs s3).dropWhile sepChar := by
  rw [← dropWhile_sep_skipWs s1, h, List.dropWhile_cons, if_pos hsep,
    dropWhile_sep_skipWs s3]

theorem dropWhile_sep_of_skipWs_head (s : List Char) (c : Char) (r : List Char)
    (h : skipWs s = c :: r) (hc : sepChar c = false) :
    s.dropWhile sepChar = c :: r := by
  rw [← dropWhile_sep_skipWs s, h, List.dropWhile_cons, if_neg (by simp [hc])]

theorem dropWhile_sep_self (c : Char) (r : List Char) (hc : sepChar c = false) :
    (c :: r).dropWhile sepChar = c :: r := by
  rw [List.dropWhile_cons, if_neg (by simp [hc])]

theorem parseElems_spec : ∀ (f : Nat) (s : List Char) (acc : List JValue)
    (vs : List JValue) (rest : List Char),
    parseElems f s acc = .ok (.jarr vs, rest) →
    (∀ v ∈ vs, isNumLit v = false) →
    ∃ vs', vs = acc ++ vs' ∧ ElemsSpec s vs' rest
  | 0, s, acc, vs, rest, h, _ => absurd h (by simp [parseElems])
  | f + 1, s, acc, vs, rest, h, hnn => by
    simp only [parseElems] at h
    cases s with
    | nil =>
      cases hvo : scanOnceF f [] with
      | error err => rw [hvo] at h; simp at h
      | ok pr => exact absurd hvo (scanOnceF_nil_not_ok f pr.1 pr.2)
    | cons c0 s0 =>
      cases hvo : scanOnceF f (c0 :: s0) with
      | error err => rw [hvo] at h; simp at h
      | ok pr =>
        obtain ⟨v1, s1⟩ := pr
        rw [hvo] at h
        dsimp only at h
        have hsep : sepChar c0 = false := scanOnceF_ok_notSep f c0 s0 v1 s1 hvo
        have hraw : rawDecode ((c0 :: s0).dropWhile sepChar) = .ok (v1, s1) := by
          rw [dropWhile_sep_self c0 s0 hsep]
          exact scanOnceF_canon f (c0 :: s0) v1 s1 hvo
        split at h
        · rename_i r1 heq1
          simp only [Except.ok.injEq, Prod.mk.injEq, JValue.jarr.injEq] at h
          obtain ⟨hvs, hrest⟩ := h
          subst hrest
          refine ⟨[v1], hvs.symm, ?_⟩
          refine .step (c0 :: s0) v1 s1 [] r1 hraw ?_ ?_
          · refine hnn v1 ?_
            rw [← hvs]
            simp
          · exact .done s1 r1 (dropWhile_sep_of_skipWs_head s1 ']' r1 heq1 (by decide))
        · rename_i s3 heq1
          obtain ⟨vs'', hvs, hspec⟩ := parseElems_spec f (skipWs s3) (acc ++ [v1]) vs rest h hnn
          refine ⟨v1 :: vs'', by rw [hvs]; simp, ?_⟩
          refine .step (c0 :: s0) v1 s1 vs'' rest hraw ?_ ?_
          · refine hnn v1 ?_
            rw [hvs]
            simp
          · exact ElemsSpec_congr s1 (skipWs s3) vs'' rest
              (dropWhile_sep_cons_skipWs s1 s3 ',' (by decide) heq1) hspec
        · simp at h

theorem parseArrBody_spec (f : Nat) (σ : List Char) (vs : List JValue) (rest : List Char)
    (h : parseArrBody f σ = .ok (.jarr vs, rest))
    (hnn : ∀ v ∈ vs, isNumLit v = false) : ElemsSpec σ vs rest := by
  cases f with
  | zero => exact absurd h (by simp [parseArrBody])
  | succ f =>
    simp only [parseArrBody] at h
    split at h
    · rename_i r0 heq
      simp only [Except.ok.injEq, Prod.mk.injEq, JValue.jarr.injEq] at h
      obtain ⟨hvs, hrest⟩ := h
      subst hrest
      rw [← hvs]
      exact .done σ r0 (dropWhile_sep_of_skipWs_head σ ']' r0 heq (by decide))
    · obtain ⟨vs', hvs, hspec⟩ := parseElems_spec f (skipWs σ) [] vs rest h hnn
      rw [hvs]
      simp only [List.nil_append]
      exact ElemsSpec_congr σ (skipWs σ) vs' rest (dropWhile_sep_skipWs σ).symm hspec

theorem dropWhile_nil_of_all (p : Char → Bool) (l : List Char)
    (h : ∀ x ∈ l, p x = true) : l.dropWhile p = [] := by
  induction l with
  | nil => rfl
  | cons c cs ih =>
    rw [List.dropWhile_cons, if_pos (h c (by simp))]
    exact ih (fun x hx => h x (by simp [hx]))

theorem skipSeps_sim : ∀ (cs : List (List Char)) (buf : List Char),
    (∀ c ∈ cs, c ≠ []) → (buf ++ flattenChunks cs).dropWhile sepChar ≠ [] →
    ∃ b1 cs1, skipSeps buf cs = .ok (b1, cs1) ∧
      b1 ++ flattenChunks cs1 = (buf ++ flattenChunks cs).dropWhile sepChar ∧
      b1 ≠ [] ∧ (∀ c ∈ cs1, c ≠ [])
  | [], buf, hne, hnn => by
    simp only [flattenChunks, List.append_nil] at hnn ⊢
    refine ⟨buf.dropWhile sepChar, [], ?_, by simp [flattenChunks], hnn, hne⟩
    unfold skipSeps
    rw [if_neg (by simp only [List.isEmpty_iff]; exact hnn)]
  | chunk :: cs2, buf, hne, hnn => by
    have hchunk : chunk ≠ [] := hne chunk (by simp)
    have hne2 : ∀ c ∈ cs2, c ≠ [] := fun c hc => hne c (by simp [hc])
    by_cases hr : buf.dropWhile sepChar = []
    · have hall := dropWhile_eq_nil_all sepChar buf hr
      have hflat : (buf ++ flattenChunks (chunk :: cs2)).dropWhile sepChar
          = (chunk ++ flattenChunks cs2).dropWhile sepChar :=
        dropWhile_all_append sepChar buf _ hall
      rw [hflat] at hnn
      obtain ⟨b1, cs1, hok, heq, hb1, hne1⟩ := skipSeps_sim cs2 chunk hne2 hnn
      refine ⟨b1, cs1, ?_, by rw [heq, hflat], hb1, hne1⟩
      unfold skipSeps
      rw [if_pos (by simp only [List.isEmpty_iff]; exact hr)]
      dsimp only
      rw [if_neg hchunk]
      exact hok
    · refine ⟨buf.dropWhile sepChar, chunk :: cs2, ?_, ?_, hr, hne⟩
      · unfold skipSeps
        rw [if_neg (by simp only [List.isEmpty_iff]; exact hr)]
      · exact (dropWhile_append_of_ne_nil sepChar buf (flattenChunks (chunk :: cs2)) hr).symm

theorem ensureContent_of_ne (buf : List Char) (cs : List (List Char)) (h : buf ≠ []) :
    ensureContent buf cs = .ok (buf, cs) := by
  unfold ensureContent
  rw [if_neg (by simp only [List.isEmpty_iff]; exact h)]

theorem condStrip_of_notSep (c : Char) (r : List Char) (h : sepChar c = false) :
    condStrip (c :: r) = c :: r := by
  unfold condStrip
  dsimp only
  rw [if_neg (fun hws => absurd (ws_sep c hws) (by simp [h]))]

theorem parseRetry_sim : ∀ (cs : List (List Char)) (b : List Char) (v : JValue)
    (s1 : List Char), b ≠ [] → (∀ c ∈ cs, c ≠ []) →
    rawDecode (b ++ flattenChunks cs) = .ok (v, s1) → isNumLit v = false →
    ∃ buf4 cs3, parseRetry b cs = .ok (v, buf4, cs3) ∧
      buf4 ++ flattenChunks cs3 = s1 ∧ (∀ c ∈ cs3, c ≠ [])
  | [], b, v, s1, hb, hne, hfull, hnn => by
    simp only [flattenChunks, List.append_nil] at hfull
    refine ⟨s1, [], ?_, by simp [flattenChunks], by simp⟩
    unfold parseRetry
    rw [hfull]
  | chunk :: cs2, b, v, s1, hb, hne, hfull, hnn => by
    have hchunk : chunk ≠ [] := hne chunk (by simp)
    cases hrd : rawDecode b with
    | ok pr =>
      obtain ⟨v', r'⟩ := pr
      cases b with
      | nil => exact absurd rfl hb
      | cons c0 b0 =>
        have hfull2 := hfull
        rw [List.cons_append] at hfull2
        unfold rawDecode at hfull2
        have hheads := scanOnceF_ok_head _ c0 _ v s1 hfull2 hnn
        have hrd2 := hrd
        unfold rawDecode at hrd2
        have hnn' : isNumLit v' = false := scanOnceF_head_notNum _ c0 b0 v' r' hrd2 hheads
        have hloc := rawDecode_loc (c0 :: b0) (flattenChunks (chunk :: cs2)) v' r' hrd hnn'
        rw [hfull] at hloc
        simp only [Except.ok.injEq, Prod.mk.injEq] at hloc
        obtain ⟨hv, hs1⟩ := hloc
        refine ⟨r', chunk :: cs2, ?_, hs1.symm, hne⟩
        unfold parseRetry
        rw [hrd, hv]
    | error err =>
      have hne2 : ∀ c ∈ cs2, c ≠ [] := fun c hc => hne c (by simp [hc])
      have hbc : b ++ chunk ≠ [] := by
        intro hx
        rw [List.append_eq_nil] at hx
        exact hb hx.1
      have hflat : (b ++ chunk) ++ flattenChunks cs2 = b ++ flattenChunks (chunk :: cs2) := by
        simp [flattenChunks, List.append_assoc]
      obtain ⟨buf4, cs3, hok, heq, hne3⟩ := parseRetry_sim cs2 (b ++ chunk) v s1 hbc hne2
        (by rw [hflat]; exact hfull) hnn
      refine ⟨buf4, cs3, ?_, heq, hne3⟩
      unfold parseRetry
      rw [hrd]
      dsimp only
      rw [if_neg hchunk]
      exact hok

theorem decodeLoop_sim : ∀ (F : Nat) (buf : List Char) (cs : List (List Char))
    (vs : List JValue) (rest : List Char),
    ElemsSpec (buf ++ flattenChunks cs) vs rest →
    (∀ c ∈ cs, c ≠ []) →
    (buf ++ flattenChunks cs).length < F →
    decodeLoop F buf cs = (vs, none)
  | 0, buf, cs, vs, rest, hspec, hne, hlen => absurd hlen (by omega)
  | F + 1, buf, cs, vs, rest, hspec, hne, hlen => by
    cases hspec with
    | done _ _ hdone =>
      have hnn2 : (buf ++ flattenChunks cs).dropWhile sepChar ≠ [] := by
        rw [hdone]
        simp
      obtain ⟨b1, cs1, hok, heq, hb1, hne1⟩ := skipSeps_sim cs buf hne hnn2
      rw [hdone] at heq
      cases b1 with
      | nil => exact absurd rfl hb1
      | cons cb b1' =>
        have hcb : cb = ']' := by
          rw [List.cons_append] at heq
          injection heq with h1 _
        subst hcb
        simp only [decodeLoop]
        rw [hok]
        dsimp only
        rw [ensureContent_of_ne (']' :: b1') cs1 (by simp)]
        dsimp only
        rw [condStrip_of_notSep ']' b1' (by decide)]
        rw [if_pos (show List.take 1 (']' :: b1') = [']'] from rfl)]
    | step _ v s1 vs' _ hdec hnnv hspec1 =>
      have hδne : (buf ++ flattenChunks cs).dropWhile sepChar ≠ [] := by
        intro hnil
        rw [hnil] at hdec
        exact rawDecode_nil_not_ok v s1 hdec
      have hshrink : s1.length < ((buf ++ flattenChunks cs).dropWhile sepChar).length :=
        rawDecode_shrink _ v s1 hdec
      have hdlen : ((buf ++ flattenChunks cs).dropWhile sepChar).length
          ≤ (buf ++ flattenChunks cs).length := dropWhile_length_le _ _
      obtain ⟨b1, cs1, hok, heq, hb1, hne1⟩ := skipSeps_sim cs buf hne hδne
      rw [← heq] at hdec
      cases b1 with
      | nil => exact absurd rfl hb1
      | cons c0 b1' =>
        have hdec2 := hdec
        rw [List.cons_append] at hdec2
        unfold rawDecode at hdec2
        have hheads := scanOnceF_ok_head _ c0 _ v s1 hdec2 hnnv
        have hc0ne : c0 ≠ ']' := by
          rcases hheads with h | h | h | h | h | h <;> rw [h] <;> decide
        have hc0sep : sepChar c0 = false := scanOnceF_ok_notSep _ c0 _ v s1 hdec2
        obtain ⟨buf4, cs3, hpok, hpeq, hne3⟩ := parseRetry_sim cs1 (c0 :: b1') v s1
          (by simp) hne1 hdec hnnv
        simp only [decodeLoop]
        rw [hok]
        dsimp only
        rw [ensureContent_of_ne (c0 :: b1') cs1 (by simp)]
        dsimp only
        rw [condStrip_of_notSep c0 b1' hc0sep]
        rw [if_neg (by simp [List.take_succ_cons, hc0ne])]
        rw [hpok]
        dsimp only
        have hrec := decodeLoop_sim F buf4 cs3 vs' rest
          (by rw [hpeq]; exact hspec1) hne3
          (by rw [hpeq]; omega)
        rw [hrec]

theorem takeWhile_all (p : Char → Bool) (l : List Char) :
    ∀ x ∈ l.takeWhile p, p x = true := by
  induction l with
  | nil => intro x hx; simp at hx
  | cons c cs ih =>
    intro x hx
    rw [List.takeWhile_cons] at hx
    by_cases hc : p c
    · rw [if_pos hc] at hx
      rcases List.mem_cons.mp hx with h1 | h1
      · rw [h1]; exact hc
      · exact ih x h1
    · rw [if_neg hc] at hx
      simp at hx

theorem seekOpen_sim : ∀ (cs : List (List Char)) (buf w σ0 : List Char),
    (∀ c ∈ cs, c ≠ []) → (∀ x ∈ buf, pyStripChar x = true) →
    (∀ x ∈ w, jsonWsChar x = true) →
    buf ++ flattenChunks cs = w ++ '[' :: σ0 →
    ∃ b0 cs0, seekOpen buf cs = .ok (b0, cs0) ∧ b0 ++ flattenChunks cs0 = σ0 ∧
      (∀ c ∈ cs0, c ≠ [])
  | [], buf, w, σ0, hne, hbuf, hw, heq => by
    exfalso
    have hmem : '[' ∈ buf := by
      simp only [flattenChunks, List.append_nil] at heq
      rw [heq]
      simp
    have := hbuf '[' hmem
    simp [pyStripChar, jsonWsChar] at this
  | chunk :: cs2, buf, w, σ0, hne, hbuf, hw, heq => by
    have hchunk : chunk ≠ [] := hne chunk (by simp)
    have hne2 : ∀ c ∈ cs2, c ≠ [] := fun c hc => hne c (by simp [hc])
    have hflat : buf ++ flattenChunks (chunk :: cs2)
        = (buf ++ chunk) ++ flattenChunks cs2 := by
      simp [flattenChunks, List.append_assoc]
    rw [hflat] at heq
    rcases Nat.lt_or_ge w.length (buf ++ chunk).length with hlt | hge
    · -- the '[' lies inside buf ++ chunk
      have htake : (buf ++ chunk).take (w.length + 1) = w ++ ['['] := by
        have h1 := congrArg (List.take (w.length + 1)) heq
        rw [List.take_append_of_le_length
          (show w.length + 1 ≤ (buf ++ chunk).length from by omega)] at h1
        rw [h1]
        rw [List.take_append_eq_append_take,
          List.take_of_length_le (Nat.le_succ w.length)]
        simp
      have hsplit : buf ++ chunk = (w ++ ['[']) ++ (buf ++ chunk).drop (w.length + 1) := by
        conv_lhs => rw [← List.take_append_drop (w.length + 1) (buf ++ chunk)]
        rw [htake]
      have hstr : (buf ++ chunk).dropWhile pyStripChar
          = '[' :: (buf ++ chunk).drop (w.length + 1) := by
        conv_lhs => rw [hsplit]
        rw [List.append_assoc, List.singleton_append,
          dropWhile_all_append pyStripChar w _ (fun x hx => ws_strip x (hw x hx)),
          List.dropWhile_cons, if_neg (by decide)]
      have hres : (buf ++ chunk).drop (w.length + 1) ++ flattenChunks cs2 = σ0 := by
        have h2 := heq
        conv_lhs at h2 => rw [hsplit]
        rw [List.append_assoc, List.append_assoc, List.singleton_append] at h2
        have h3 := List.append_cancel_left h2
        simpa using h3
      refine ⟨(buf ++ chunk).drop (w.length + 1), cs2, ?_, hres, hne2⟩
      unfold seekOpen
      rw [if_neg hchunk]
      dsimp only
      rw [if_neg (by rw [hstr]; simp)]
      rw [hstr]
      rw [show afterBracket ('[' :: (buf ++ chunk).drop (w.length + 1))
          = some ((buf ++ chunk).drop (w.length + 1)) from by
        unfold afterBracket
        rw [if_pos rfl]]
    · -- buf ++ chunk still inside the whitespace prefix
      have htake : buf ++ chunk = w.take (buf ++ chunk).length := by
        have h1 := congrArg (List.take (buf ++ chunk).length) heq
        rw [List.take_left] at h1
        rw [List.take_append_of_le_length hge] at h1
        exact h1
      have hall : ∀ x ∈ buf ++ chunk, pyStripChar x = true := by
        intro x hx
        rw [htake] at hx
        exact ws_strip x (hw x (List.take_subset _ _ hx))
      have hstrip : (buf ++ chunk).dropWhile pyStripChar = [] :=
        dropWhile_nil_of_all pyStripChar _ hall
      have heq2 : [] ++ flattenChunks cs2 = (w.drop (buf ++ chunk).length) ++ '[' :: σ0 := by
        have h2 := heq
        conv_rhs at h2 =>
          rw [← List.take_append_drop (buf ++ chunk).length w]
        rw [← htake] at h2
        conv_rhs at h2 => rw [List.append_assoc]
        have h3 := List.append_cancel_left h2
        simpa using h3
      obtain ⟨b0, cs0, hok, hres, hne0⟩ := seekOpen_sim cs2 [] (w.drop (buf ++ chunk).length)
        σ0 hne2 (by simp) (fun x hx => hw x (List.drop_subset _ _ hx)) heq2
      refine ⟨b0, cs0, ?_, hres, hne0⟩
      unfold seekOpen
      rw [if_neg hchunk]
      dsimp only
      rw [if_pos hstrip]
      exact hok

theorem chunksLen_eq : ∀ (cs : List (List Char)), chunksLen cs = (flattenChunks cs).length
  | [] => rfl
  | c :: cs => by
    simp only [chunksLen, flattenChunks, List.map_cons, List.sum_cons, List.length_append]
    have := chunksLen_eq cs
    simp only [chunksLen] at this
    omega

theorem loadsL_inv (s : List Char) (v : JValue) (h : loadsL s = .ok v) :
    ∃ r, rawDecode (skipWs s) = .ok (v, r) ∧ skipWs r = [] := by
  unfold loadsL at h
  cases hrd : rawDecode (skipWs s) with
  | error err => rw [hrd] at h; simp at h
  | ok pr =>
    obtain ⟨v1, r1⟩ := pr
    rw [hrd] at h
    dsimp only at h
    by_cases hws : skipWs r1 = []
    · rw [if_pos hws] at h
      simp only [Except.ok.injEq] at h
      exact ⟨r1, by rw [h], hws⟩
    · rw [if_neg hws] at h
      simp at h

/-- **C1** (amended).  Chunk-size invariance of `iter_json_array_stream`:
for every way of serving the same text in nonempty read chunks, if the
whole text parses with `json.loads` as an array none of whose top-level
elements is a bare numeric token (the docstring's supported shape
`[ {...}, {...} ]` in particular), the generator yields exactly the
array's elements, in order, and terminates without error — regardless of
the chunking.  The number-free restriction is necessary:
`C1_counterexample` exhibits two chunkings of the same number-bearing
array text that yield different element sequences, because a numeric
token ending exactly at a read boundary already parses as a complete
value and the loop commits to it. -/
theorem C1_chunk_invariance (cs : List (List Char)) (vs : List JValue)
    (hne : ∀ c ∈ cs, c ≠ [])
    (hl : loadsL (flattenChunks cs) = .ok (.jarr vs))
    (hnn : ∀ v ∈ vs, isNumLit v = false) :
    iter_json_array_stream cs = (vs, none) := by
  obtain ⟨restAll, hrd, hwsrest⟩ := loadsL_inv _ _ hl
  cases hsw : skipWs (flattenChunks cs) with
  | nil =>
    rw [hsw] at hrd
    exact absurd hrd (rawDecode_nil_not_ok _ _)
  | cons c0 σ0 =>
    rw [hsw] at hrd
    unfold rawDecode at hrd
    rw [show 3 * (c0 :: σ0).length + 4 = (3 * σ0.length + 6) + 1 from by
      simp only [List.length_cons]; omega] at hrd
    obtain ⟨hc0, harr⟩ := scanOnceF_jarr_inv (3 * σ0.length + 6) c0 σ0 vs restAll hrd
    subst hc0
    have hspec := parseArrBody_spec (3 * σ0.length + 6) σ0 vs restAll harr hnn
    have hdecomp : [] ++ flattenChunks cs
        = (flattenChunks cs).takeWhile jsonWsChar ++ '[' :: σ0 := by
      rw [List.nil_append]
      conv_lhs => rw [← List.takeWhile_append_dropWhile jsonWsChar (flattenChunks cs)]
      rw [show (flattenChunks cs).dropWhile jsonWsChar = '[' :: σ0 from hsw]
    obtain ⟨b0, cs0, hseek, hb0, hne0⟩ := seekOpen_sim cs []
      ((flattenChunks cs).takeWhile jsonWsChar) σ0 hne (by simp)
      (takeWhile_all jsonWsChar (flattenChunks cs)) hdecomp
    unfold iter_json_array_stream
    rw [hseek]
    dsimp only
    refine decodeLoop_sim (b0.length + chunksLen cs0 + 1) b0 cs0 vs restAll
      (by rw [hb0]; exact hspec) hne0 ?_
    have hlen := congrArg List.length hb0
    simp only [List.length_append] at hlen
    rw [List.length_append, chunksLen_eq cs0]
    omega

theorem C1_chunk_invariance_witness :
    iter_json_array_stream
        [['[', '{', '"', 'a', '"', ':', '1', '}'],
         [',', ' ', '{', '"', 'b', '"', ':', '2', '}', ']']]
      = ([.jobj [("a", .jnum "1")], .jobj [("b", .jnum "2")]], none) :=
  C1_chunk_invariance
    [['[', '{', '"', 'a', '"', ':', '1', '}'],
     [',', ' ', '{', '"', 'b', '"', ':', '2', '}', ']']]
    [.jobj [("a", .jnum "1")], .jobj [("b", .jnum "2")]]
    (by decide) (by rfl) (by decide)
